import Mathlib

/-!
Verification development for `gsinks.c`, a program that counts, for each input
digraph, the 2-colorings (up to the digraph's automorphisms) whose color-1
vertices can feed a new global-sink vertex.

The file shallowly embeds the source:
* the Tarjan SCC decomposer (`tarjan` / `strongconnect`, gsinks.c:415-523),
* the leaf filter and extension builder (`filter_and_output`, gsinks.c:104-145),
* the canonical-coloring search from vcolg (`ismax`, `trythisone`, `scan`,
  `colourdigraph`, gsinks.c:151-409),
* the batch driver loop of `main` (gsinks.c:603-630).

Machine integers of the source are modelled by `Nat`/`Int`; none of the
verified paths can overflow the C types for the program's bounded inputs
(`MAXN = 32`). Bitsets (`setword`) are modelled by `Finset Nat`; the
`nextelement` iteration of a bitset is an ascending scan of bit positions.
-/

namespace Gsinks

/-- Read of a C `int` array: `xs[i]` (in-bounds on all verified paths). -/
def nth (xs : List Nat) (i : Nat) : Nat := xs.getD i 0

/-- Read of a C `int` array that can hold the `-1` sentinel (`prev`). -/
def nthI (xs : List Int) (i : Nat) : Int := xs.getD i (-1)

/-- A digraph: `n` vertices `0..n-1`; `rows` holds the out-adjacency bitset of
each vertex (`GRAPHROW`). -/
structure Digraph where
  n : Nat
  rows : List (Finset Nat)
deriving DecidableEq

/-- Out-adjacency bitset of vertex `v`. -/
def Digraph.row (g : Digraph) (v : Nat) : Finset Nat := g.rows.getD v ∅

/-- Well-formed adjacency data as produced by the input codec: one row per
vertex, and every bit set in a row names a vertex. -/
def WFG (g : Digraph) : Prop :=
  g.rows.length = g.n ∧ ∀ v < g.n, ∀ u ∈ g.row v, u < g.n

instance (g : Digraph) : Decidable (WFG g) := by
  unfold WFG; infer_instance

/-! ## Tarjan SCC decomposer (gsinks.c:415-523)

Per-vertex state `struct vinfo {index, lowlink, onstack, descendents}`
(gsinks.c:77-78); `UNDEFINED` (= -1) discovery indices are modelled by
`Option Nat`.  The global counter `vertex_index` (gsinks.c:79) is the `vindex`
field; note the source never resets it between digraphs, so it is threaded
through the whole run.  SCC records are `struct sccinfo` (gsinks.c:73-74); the
record order is the close (pop) order, `currentSCC` is the list length. -/

structure VInfo where
  idx : Option Nat
  low : Option Nat
  onstack : Bool
  desc : Finset Nat
deriving DecidableEq, Inhabited

structure SccInfo where
  verts : Finset Nat
  isLeaf : Bool
  size : Nat
deriving DecidableEq, Inhabited

structure TjSt where
  vin : List VInfo
  stack : List Nat
  sccs : List SccInfo
  isFirst : Bool
  vindex : Nat
deriving DecidableEq, Inhabited

def getV (s : TjSt) (v : Nat) : VInfo := s.vin.getD v default

def updV (s : TjSt) (v : Nat) (f : VInfo → VInfo) : TjSt :=
  { s with vin := s.vin.set v (f (getV s v)) }

/-- `min` of two lowlink/index values (both defined at every use site;
gsinks.c:481-483, 488-491 write the smaller of the two values). -/
def omin : Option Nat → Option Nat → Option Nat
  | some a, some b => some (min a b)
  | some a, none => some a
  | none, b => b

/-- Neighbours of `v` in ascending order, as iterated by `nextelement`
(gsinks.c:472-474): an ascending scan of the bitset positions (well-formed
rows only hold vertices `< n`). -/
def nbrList (g : Digraph) (v : Nat) : List Nat :=
  (List.range g.n).filter (fun w => decide (w ∈ g.row v))

/-- Pop the explicit stack down to and including `v` (the do-while loop at
gsinks.c:499-508): returns (popped run, remaining stack). -/
def popTo (v : Nat) : List Nat → List Nat × List Nat
  | [] => ([], [])
  | w :: rest =>
    if w = v then ([w], rest)
    else
      let p := popTo v rest
      (w :: p.1, p.2)

/-- Close one SCC at root `v` (gsinks.c:496-522): pop members, accumulate
their descendents, decide leafness (`isFirstSCC` special case, else the
`SETDIFF` test), append the record. -/
def closeScc (v : Nat) (s : TjSt) : TjSt :=
  let pr := popTo v s.stack
  let popped := pr.1
  let verts : Finset Nat := popped.foldl (fun a w => insert w a) ∅
  let descAll : Finset Nat := popped.foldl (fun a w => insert w a ∪ (getV s w).desc) ∅
  let leaf : Bool := s.isFirst || decide (descAll \ verts = ∅)
  { vin := popped.foldl (fun vl w => vl.set w { vl.getD w default with onstack := false }) s.vin,
    stack := pr.2,
    sccs := s.sccs ++ [⟨verts, leaf, popped.length⟩],
    isFirst := false,
    vindex := s.vindex }

/-- The neighbour loop of `strongconnect` (gsinks.c:472-493): record `w` in
`v`'s descendents, recurse (via `rec`, the depth-limited `strongconnect`) on
unvisited `w`, and fold lowlinks. -/
def sconnLoop (rec : Nat → TjSt → Option TjSt) (v : Nat) :
    List Nat → TjSt → Option TjSt
  | [], s => some s
  | w :: rest, s =>
    let s1 := updV s v (fun vi => { vi with desc := insert w vi.desc })
    match (getV s1 w).idx with
    | none =>
      (rec w s1).bind (fun s2 =>
        let s3 := updV s2 v (fun vi => { vi with low := omin vi.low (getV s2 w).low })
        sconnLoop rec v rest s3)
    | some iw =>
      if (getV s1 w).onstack then
        sconnLoop rec v rest (updV s1 v (fun vi => { vi with low := omin vi.low (some iw) }))
      else
        sconnLoop rec v rest s1

/-- `strongconnect` (gsinks.c:458-523).  `fuel` bounds the recursion depth; it
is consumed once per nested call, and a fuel of at least the number of
unvisited vertices always suffices (proved below). -/
def sconn (g : Digraph) : Nat → Nat → TjSt → Option TjSt
  | 0, _, _ => none
  | f + 1, v, s =>
    let s1 : TjSt :=
      { s with
        vin := s.vin.set v
          { getV s v with idx := some s.vindex, low := some s.vindex, onstack := true },
        stack := v :: s.stack,
        vindex := s.vindex + 1 }
    (sconnLoop (sconn g f) v (nbrList g v) s1).map (fun s2 =>
      if (getV s2 v).low = (getV s2 v).idx then closeScc v s2 else s2)

/-- Fresh per-digraph state built by the init loop of `tarjan`
(gsinks.c:422-435); only `vertex_index` (`c0`) survives from earlier
digraphs. -/
def initTj (g : Digraph) (c0 : Nat) : TjSt :=
  ⟨List.replicate g.n ⟨none, none, false, ∅⟩, [], [], true, c0⟩

/-- The root loop of `tarjan` (gsinks.c:438-443). -/
def tarjanFrom (g : Digraph) : List Nat → TjSt → Option TjSt
  | [], s => some s
  | v :: vs, s =>
    match (getV s v).idx with
    | none => (sconn g g.n v s).bind (tarjanFrom g vs)
    | some _ => tarjanFrom g vs s

/-- `tarjan` (gsinks.c:418-456) starting from `vertex_index = c0`.  (The
trailing loop at gsinks.c:444-454 only iterates and has no effect.) -/
def tarjanRun (g : Digraph) (c0 : Nat) : Option TjSt :=
  tarjanFrom g (List.range g.n) (initTj g c0)

/-! ## Admissibility filter and extension builder (gsinks.c:104-145) -/

/-- Member scan of one leaf SCC (the do-while at gsinks.c:116-124): does some
member have color 1?  `nextelement` scans the one `setword` of `MAXN = 32`
bits ascending; member sets produced by the decomposer are never empty. -/
def leafColoured (col : List Nat) (sc : SccInfo) : Bool :=
  ((List.range 32).filter (fun j => decide (j ∈ sc.verts))).any (fun j => nth col j != 0)

/-- The rejection loop of `filter_and_output` (gsinks.c:111-126): accept iff
every SCC marked leaf has a coloured member. -/
def filterAccept (sccs : List SccInfo) (col : List Nat) : Bool :=
  sccs.all (fun sc => !sc.isLeaf || leafColoured col sc)

/-- The extension builder (gsinks.c:131-141): copy the `n` original rows, give
the new vertex `n` an empty row, and add an edge `j → n` for every `j` with
color 1. -/
def extendGraph (g : Digraph) (col : List Nat) : Digraph :=
  ⟨g.n + 1,
   (List.range g.n).map (fun j => if nth col j != 0 then insert g.n (g.row j) else g.row j)
     ++ [∅]⟩

/-- `filter_and_output` (gsinks.c:104-145): returns the new `totalCount` and
the optionally emitted extended digraph (`-d` switch). -/
def filterAndOutput (dsw : Bool) (g : Digraph) (sccs : List SccInfo) (col : List Nat)
    (tc : Nat) : Nat × Option Digraph :=
  if filterAccept sccs col then
    (tc + 1, if dsw then some (extendGraph g col) else none)
  else (tc, none)

/-! ## Canonical coloring search from vcolg (gsinks.c:151-409)

Colorings are `List Nat` of length `n`; permutations supplied by the
automorphism oracle are `List Nat` of length `n` (images of `0..n-1`). -/

/-- The identity permutation (the first element `allgroup2` applies). -/
def idPerm (n : Nat) : List Nat := List.range n

/-- `ismax` (gsinks.c:151-173): walk `i = 0..n-1` tracking
`fail = max p[0..i]`; return `some fail` on the first position with
`col[p[i]] > col[i]` (the source's `FALSE` with `fail_level = fail`), `none`
otherwise (the source's `TRUE`). -/
def ismaxFrom (c p : List Nat) (fail : Nat) : List Nat → Option Nat
  | [] => none
  | i :: rest =>
    let k := nth p i
    let fail' := if k > fail then k else fail
    if nth c k > nth c i then some fail'
    else if nth c k < nth c i then none
    else ismaxFrom c p fail' rest

def ismaxRes (c p : List Nat) (n : Nat) : Option Nat :=
  ismaxFrom c p 0 (List.range n)

/-- The `allgroup2(group, testmax)` traversal (gsinks.c:177-195, 222): apply
`testmax` to every group element after the identity, aborting at the first
rejection; report that element and its `fail_level`. -/
def firstFail (c : List Nat) (n : Nat) : List (List Nat) → Option (List Nat × Nat)
  | [] => none
  | p :: ps =>
    match ismaxRes c p n with
    | some F => some (p, F)
    | none => firstFail c n ps

/-- The full-group branch of `trythisone` (gsinks.c:217-226) followed by the
accept/reject returns (gsinks.c:228-235).  The rejection records the witness
in `lastreject`/`lastrejok`. -/
def fullTestD (G : List (List Nat)) (n : Nat) (c : List Nat) (lr : Option (List Nat)) :
    Bool × Int × Option (List Nat) :=
  match firstFail c n (G.drop 1) with
  | none => (true, (n : Int) - 1, lr)
  | some pF => (false, (pF.2 : Int) - 1, some pF.1)

/-- `trythisone` (gsinks.c:199-236) minus the `filter_and_output` call:
returns (accepted?, level to return to, new rejection witness).  `grp = none`
is the `group == FALSE` call for `n = 0` (gsinks.c:368). -/
def trythisoneD (grp : Option (List (List Nat))) (gs : Nat) (n : Nat) (c : List Nat)
    (lr : Option (List Nat)) : Bool × Int × Option (List Nat) :=
  match grp with
  | none => (true, (n : Int) - 1, lr)
  | some G =>
    if gs = 1 then (true, (n : Int) - 1, lr)
    else
      match lr with
      | some pr =>
        match ismaxRes c pr n with
        | some F => (false, (F : Int) - 1, some pr)
        | none =>
          if gs = 2 then (true, (n : Int) - 1, some pr)
          else fullTestD G n c lr
      | none => fullTestD G n c lr

structure ScanRes where
  ret : Int
  col : List Nat
  lr : Option (List Nat)
  out : List (List Nat)
deriving DecidableEq

/-- The `for (k = min; k <= max; ++k)` loop of `scan` (gsinks.c:260-265):
`rec k c lr` is the recursive `scan(level+1, ..., sofar+k, ...)` call; the loop
returns early when a deeper call asks to back up past this level
(gsinks.c:264). -/
def scanLoop (rec : Int → List Nat → Option (List Nat) → ScanRes) (level : Nat) :
    Int → Nat → List Nat → Option (List Nat) → ScanRes
  | _, 0, c, lr => ⟨(level : Int) - 1, c, lr, []⟩
  | k, cnt' + 1, c, lr =>
    let c1 := c.set level k.toNat
    let r := rec k c1 lr
    if r.ret < (level : Int) then r
    else
      let r2 := scanLoop rec level (k + 1) cnt' r.col r.lr
      ⟨r2.ret, r2.col, r2.lr, r.out ++ r2.out⟩

/-- `scan` (gsinks.c:240-268).  `fuel = n - level` structurally bounds the
recursion.  The result records the level returned to, the final `col` array,
the rejection-witness state, and the accepted colorings in order. -/
def scanGo (grp : Option (List (List Nat))) (gs : Nat) (numcols minedges maxedges : Int)
    (prev : List Int) (n : Nat) : Nat → Nat → Int → List Nat → Option (List Nat) → ScanRes
  | fuel, level, sofar, c, lr =>
    if level = n then
      let t := trythisoneD grp gs n c lr
      ⟨t.2.1, c, t.2.2, if t.1 then [c] else []⟩
    else
      match fuel with
      | 0 => ⟨(level : Int) - 1, c, lr, []⟩
      | f + 1 =>
        let left : Int := (n : Int) - level - 1
        let mn0 := minedges - sofar - numcols * left
        let mn := if mn0 < 0 then 0 else mn0
        let mx0 := maxedges - sofar
        let mx1 := if numcols ≤ mx0 then numcols - 1 else mx0
        let pv := nthI prev level
        let mx := if 0 ≤ pv ∧ (nth c pv.toNat : Int) < mx1 then (nth c pv.toNat : Int) else mx1
        scanLoop
          (fun k c1 lr1 =>
            scanGo grp gs numcols minedges maxedges prev n f (level + 1) (sofar + k) c1 lr1)
          level mn ((mx - mn + 1).toNat) c lr

/-! ### The naive reference search

The spec names the rejection-witness short-circuit and the
backtrack-to-fail-level return as optimizations (§4.3, §9): the reference
variant re-tests the full generator set for every complete candidate and
always backtracks exactly one level. -/

/-- Full re-test of the generator set for one complete candidate. -/
def tryNaive (G : List (List Nat)) (n : Nat) (c : List Nat) : Bool :=
  (firstFail c n (G.drop 1)).isNone

def scanNaiveLoop (rec : Int → List Nat → List Nat × List (List Nat)) (level : Nat) :
    Int → Nat → List Nat → List Nat × List (List Nat)
  | _, 0, c => (c, [])
  | k, cnt' + 1, c =>
    let c1 := c.set level k.toNat
    let r := rec k c1
    let r2 := scanNaiveLoop rec level (k + 1) cnt' r.1
    (r2.1, r.2 ++ r2.2)

def scanNaiveGo (G : List (List Nat)) (numcols minedges maxedges : Int)
    (prev : List Int) (n : Nat) : Nat → Nat → Int → List Nat → List Nat × List (List Nat)
  | fuel, level, sofar, c =>
    if level = n then (c, if tryNaive G n c then [c] else [])
    else
      match fuel with
      | 0 => (c, [])
      | f + 1 =>
        let left : Int := (n : Int) - level - 1
        let mn0 := minedges - sofar - numcols * left
        let mn := if mn0 < 0 then 0 else mn0
        let mx0 := maxedges - sofar
        let mx1 := if numcols ≤ mx0 then numcols - 1 else mx0
        let pv := nthI prev level
        let mx := if 0 ≤ pv ∧ (nth c pv.toNat : Int) < mx1 then (nth c pv.toNat : Int) else mx1
        scanNaiveLoop
          (fun k c1 => scanNaiveGo G numcols minedges maxedges prev n f (level + 1) (sofar + k) c1)
          level mn ((mx - mn + 1).toNat) c

/-! The candidate enumeration underlying both searches: the complete colorings
the loop structure of `scan` visits, in order. -/

def candLoop (rec : Int → List Nat → List Nat × List (List Nat)) (level : Nat) :
    Int → Nat → List Nat → List Nat × List (List Nat)
  | _, 0, c => (c, [])
  | k, cnt' + 1, c =>
    let c1 := c.set level k.toNat
    let r := rec k c1
    let r2 := candLoop rec level (k + 1) cnt' r.1
    (r2.1, r.2 ++ r2.2)

def candGo (numcols minedges maxedges : Int) (prev : List Int) (n : Nat) :
    Nat → Nat → Int → List Nat → List Nat × List (List Nat)
  | fuel, level, sofar, c =>
    if level = n then (c, [c])
    else
      match fuel with
      | 0 => (c, [])
      | f + 1 =>
        let left : Int := (n : Int) - level - 1
        let mn0 := minedges - sofar - numcols * left
        let mn := if mn0 < 0 then 0 else mn0
        let mx0 := maxedges - sofar
        let mx1 := if numcols ≤ mx0 then numcols - 1 else mx0
        let pv := nthI prev level
        let mx := if 0 ≤ pv ∧ (nth c pv.toNat : Int) < mx1 then (nth c pv.toNat : Int) else mx1
        candLoop
          (fun k c1 => candGo numcols minedges maxedges prev n f (level + 1) (sofar + k) c1)
          level mn ((mx - mn + 1).toNat) c

/-! ## `colourdigraph` (gsinks.c:272-409) -/

/-- Oracle output per digraph, as delivered by nauty (§6 of the spec):
`gs` is `groupsize` (gsinks.c:387-390), `G` the group in the order `allgroup2`
applies it (identity first), `orbits` and `numorbits` from `statsblk`. -/
structure OracleOut where
  gs : Nat
  G : List (List Nat)
  orbits : List Nat
  numorbits : Nat
deriving DecidableEq

/-- Self-loop flag of `v` (gsinks.c:296-304 strips loops, recording them). -/
def loopB (g : Digraph) (v : Nat) : Bool := v ∈ g.row v

/-- Loop-stripped out-row of `v` (gsinks.c:299: `DELELEMENT(gi,i)`). -/
def stripRow (g : Digraph) (v : Nat) : Finset Nat := (g.row v).erase v

/-- Row of the converse of the loop-stripped digraph (gsinks.c:306-307). -/
def convRow (g : Digraph) (v : Nat) : Finset Nat :=
  (Finset.range g.n).filter (fun u => v ∈ stripRow g u)

/-- `FLIPELEMENT` of one bit. -/
def toggleF (s : Finset Nat) (x : Nat) : Finset Nat :=
  if x ∈ s then s.erase x else insert x s

/-- The equivalence test of the `prev`/`weight` scan (gsinks.c:330-346):
vertices `i` and `j` agree on self-loops and mutual edges, and their
out- and in-rows agree either directly or after identifying `i` with `j`
(the `FLIPELEMENT` comparison). -/
def flipEquiv (g : Digraph) (i j : Nat) : Bool :=
  (loopB g j == loopB g i) &&
  (decide (j ∈ stripRow g i) == decide (i ∈ stripRow g j)) &&
  ((stripRow g i == stripRow g j && convRow g i == convRow g j) ||
   (toggleF (stripRow g i) i == toggleF (stripRow g j) j &&
    toggleF (convRow g i) i == toggleF (convRow g j) j))

/-- "Find most recent equivalent j" (gsinks.c:329-347), with `nfixed = 0`
at the only call site so the region structure collapses to `j = i-1 .. 0`. -/
def findPrev (g : Digraph) (i : Nat) : Option Nat :=
  (List.range i).reverse.find? (fun j => flipEquiv g i j)

/-- The weight-scan `prev` array before the orbit update (gsinks.c:348-357). -/
def prevW (g : Digraph) : List Int :=
  (List.range g.n).map (fun i =>
    match findPrev g i with
    | some j => (j : Int)
    | none => -1)

/-- The smallest representative of a nontrivial orbit (gsinks.c:397-399). -/
def jminOf (orbits : List Nat) (n : Nat) : Nat :=
  (List.range n).foldl (fun j i => if orbits.getD i 0 < i ∧ orbits.getD i 0 < j
    then orbits.getD i 0 else j) n

/-- The final `prev` array: the orbit update of gsinks.c:395-403 applied to
the weight-scan result when `numorbits < n`. -/
def prevOf (g : Digraph) (o : OracleOut) : List Int :=
  let p := prevW g
  if o.numorbits < g.n then
    let j := jminOf o.orbits g.n
    (List.range g.n).map (fun i =>
      if j + 1 ≤ i ∧ o.orbits.getD i 0 = j then (j : Int) else nthI p i)
  else p

/-- `colourdigraph` (gsinks.c:272-409) at its call site
(`nfixed = 0`, `minedges = 0`, `maxedges = NOLIMIT`, `numcols = 2`;
`maxedges? = none` models `NOLIMIT`): the list of colorings handed to
`filter_and_output`, in search order.  Vertex counts over `MAXN = 32` abort
the program (gsinks.c:290), producing nothing. -/
def colourOut (g : Digraph) (o : OracleOut) (minedges : Int) (maxedges? : Option Int)
    (numcols : Int) : List (List Nat) :=
  if 32 < g.n then []
  else
    let me : Int :=
      match maxedges? with
      | none => (g.n : Int) * numcols
      | some v => if (g.n : Int) * numcols < v then (g.n : Int) * numcols else v
    if (g.n : Int) * numcols < minedges then []
    else if g.n = 0 then
      (scanGo none 0 numcols minedges me [] 0 0 0 0 [] none).out
    else
      let prev := prevOf g o
      (scanGo (some o.G) o.gs numcols minedges me prev g.n g.n 0 0
        (List.replicate g.n 0) none).out

/-! ## Batch driver (gsinks.c:603-630) -/

/-- One digraph of the `while (readgg_inc ...)` body (gsinks.c:618-625):
run `tarjan`, then the colouring search, then count the accepted colorings
through `filter_and_output`.  Returns the new `totalCount` and the new
`vertex_index`. -/
def digraphStep (dsw : Bool) (gp : Digraph × OracleOut) (tc : Nat) (vix : Nat) :
    Nat × Nat :=
  match tarjanRun gp.1 vix with
  | none => (tc, vix)
  | some st =>
    ((colourOut gp.1 gp.2 0 none 2).foldl
      (fun t c => (filterAndOutput dsw gp.1 st.sccs c t).1) tc,
     st.vindex)

/-- All digraphs of one input file. -/
def fileRun (dsw : Bool) (gps : List (Digraph × OracleOut)) (tc : Nat) (vix : Nat) :
    Nat × Nat :=
  gps.foldl (fun acc gp => digraphStep dsw gp acc.1 acc.2) (tc, vix)

/-- The file loop of `main` (gsinks.c:603-630): per file, process every
digraph, report `totalCount`, then reset it to 0 (gsinks.c:627-629). -/
def filesRun (dsw : Bool) : List (List (Digraph × OracleOut)) → Nat → List Nat
  | [], _ => []
  | f :: rest, vix =>
    let r := fileRun dsw f 0 vix
    r.1 :: filesRun dsw rest r.2

/-- The counted colorings of one digraph (what `totalCount` counts for it). -/
def countedCols (g : Digraph) (o : OracleOut) (vix : Nat) : Option (List (List Nat)) :=
  (tarjanRun g vix).map (fun st =>
    (colourOut g o 0 none 2).filter (fun c => filterAccept st.sccs c))

/-! ## Concrete instances used by claim theorems and witnesses -/

/-- The empty digraph. -/
def g0 : Digraph := ⟨0, []⟩

/-- Any oracle record works for `g0` (the `n = 0` path never consults it). -/
def o0 : OracleOut := ⟨1, [[]], [], 0⟩

/-- One vertex, no self-loop. -/
def g1 : Digraph := ⟨1, [∅]⟩

/-- Oracle for `g1`: trivial group. -/
def o1 : OracleOut := ⟨1, [[0]], [0], 1⟩

/-- Two vertices with the single edge `0 → 1`. -/
def g2 : Digraph := ⟨2, [{1}, ∅]⟩

/-- Oracle for `g2`: the automorphism group is trivial. -/
def o2 : OracleOut := ⟨1, [[0, 1]], [0, 1], 2⟩

/-- Two vertices, no edges (swap symmetric). -/
def gI : Digraph := ⟨2, [∅, ∅]⟩

/-- Oracle for `gI`: group of order 2 generated by the swap; one orbit. -/
def oI : OracleOut := ⟨2, [[0, 1], [1, 0]], [0, 0], 1⟩

/-! ## C1: the admissibility filter counts exactly the leaf-covering colorings -/

lemma leafColoured_iff (col : List Nat) (sc : SccInfo)
    (hb : ∀ v ∈ sc.verts, v < 32) :
    leafColoured col sc = true ↔ ∃ v ∈ sc.verts, nth col v ≠ 0 := by
  unfold leafColoured
  simp only [List.any_eq_true, List.mem_filter, List.mem_range, decide_eq_true_eq,
    bne_iff_ne, ne_eq]
  constructor
  · rintro ⟨v, ⟨_, hv⟩, hc⟩
    exact ⟨v, hv, hc⟩
  · rintro ⟨v, hv, hc⟩
    exact ⟨v, ⟨hb v hv, hv⟩, hc⟩

/-- C1.  A coloring surviving the canonicity test is counted by
`filter_and_output` — the per-run counter goes from `tc` to `tc + 1` and the
extended digraph is emitted exactly when `-d` is set — if and only if every
SCC marked as leaf contains a vertex of color 1; otherwise counter and output
are untouched.  (The bound hypothesis states that member sets fit the
one-`setword` bitset of `MAXN = 32` bits, as all decomposer output does.) -/
theorem c1_filter_leaf_coverage (dsw : Bool) (g : Digraph) (sccs : List SccInfo)
    (col : List Nat) (tc : Nat)
    (hb : ∀ sc ∈ sccs, ∀ v ∈ sc.verts, v < 32) :
    (filterAccept sccs col = true ↔
      ∀ sc ∈ sccs, sc.isLeaf = true → ∃ v ∈ sc.verts, nth col v ≠ 0) ∧
    filterAndOutput dsw g sccs col tc =
      (if filterAccept sccs col then
        (tc + 1, if dsw then some (extendGraph g col) else none)
       else (tc, none)) := by
  constructor
  · unfold filterAccept
    simp only [List.all_eq_true, Bool.or_eq_true, Bool.not_eq_true']
    constructor
    · intro h sc hsc hleaf
      rcases h sc hsc with h' | h'
      · rw [hleaf] at h'; cases h'
      · exact (leafColoured_iff col sc (hb sc hsc)).1 h'
    · intro h sc hsc
      by_cases hleaf : sc.isLeaf = true
      · exact Or.inr ((leafColoured_iff col sc (hb sc hsc)).2 (h sc hsc hleaf))
      · exact Or.inl (by simpa using hleaf)
  · rfl

/-- Witness for C1 at the SCC decomposition of the edge digraph `0 → 1` and
the coloring `(0, 1)`. -/
theorem c1_filter_leaf_coverage_witness :
    (∀ sc ∈ ([⟨{1}, true, 1⟩, ⟨{0}, false, 1⟩] : List SccInfo), ∀ v ∈ sc.verts, v < 32) ∧
    ((filterAccept [⟨{1}, true, 1⟩, ⟨{0}, false, 1⟩] [0, 1] = true ↔
      ∀ sc ∈ ([⟨{1}, true, 1⟩, ⟨{0}, false, 1⟩] : List SccInfo), sc.isLeaf = true →
        ∃ v ∈ sc.verts, nth [0, 1] v ≠ 0) ∧
     filterAndOutput true g2 [⟨{1}, true, 1⟩, ⟨{0}, false, 1⟩] [0, 1] 0 =
      (if filterAccept [⟨{1}, true, 1⟩, ⟨{0}, false, 1⟩] [0, 1] then
        (0 + 1, if true then some (extendGraph g2 [0, 1]) else none)
       else (0, none))) :=
  ⟨by decide, c1_filter_leaf_coverage true g2 [⟨{1}, true, 1⟩, ⟨{0}, false, 1⟩] [0, 1] 0
    (by decide)⟩

/-! ## The `vertex_index` shift simulation

`vertex_index` (gsinks.c:79) is the one piece of per-digraph analysis state
`tarjan` does not reinitialize; all comparisons in the decomposer are between
indices of one run, so its starting value cannot influence the result. -/

def shiftV (d : Nat) (vi : VInfo) : VInfo :=
  ⟨vi.idx.map (· + d), vi.low.map (· + d), vi.onstack, vi.desc⟩

def shiftSt (d : Nat) (s : TjSt) : TjSt :=
  ⟨s.vin.map (shiftV d), s.stack, s.sccs, s.isFirst, s.vindex + d⟩

lemma shiftV_default (d : Nat) : shiftV d default = default := rfl

lemma getV_shift (d : Nat) (s : TjSt) (v : Nat) :
    getV (shiftSt d s) v = shiftV d (getV s v) := by
  unfold getV shiftSt
  simp only [List.getD_eq_getElem?_getD, List.getElem?_map]
  cases s.vin[v]? <;> rfl

lemma omin_shift (d : Nat) (a b : Option Nat) :
    omin (a.map (· + d)) (b.map (· + d)) = (omin a b).map (· + d) := by
  cases a <;> cases b <;> simp [omin, Nat.add_min_add_right]

lemma map_shift_inj (d : Nat) (a b : Option Nat) :
    a.map (· + d) = b.map (· + d) ↔ a = b := by
  cases a <;> cases b <;> simp

lemma mapSetComm {α β : Type} (f : α → β) :
    ∀ (l : List α) (n : Nat) (a : α), (l.map f).set n (f a) = (l.set n a).map f := by
  intro l
  induction l with
  | nil => intro n a; rfl
  | cons x xs ih =>
    intro n a
    cases n with
    | zero => rfl
    | succ m => simp only [List.map_cons, List.set_cons_succ, ih]

lemma updV_shift (d : Nat) (s : TjSt) (v : Nat) (f fu : VInfo → VInfo)
    (hf : ∀ vi, f (shiftV d vi) = shiftV d (fu vi)) :
    updV (shiftSt d s) v f = shiftSt d (updV s v fu) := by
  unfold updV
  rw [getV_shift, hf]
  have h3 : (shiftSt d s).vin.set v (shiftV d (fu (getV s v)))
      = (s.vin.set v (fu (getV s v))).map (shiftV d) := by
    show (s.vin.map (shiftV d)).set v (shiftV d (fu (getV s v))) = _
    exact mapSetComm (shiftV d) s.vin v (fu (getV s v))
  rw [h3]
  rfl

lemma foldl_onstack_shift (d : Nat) (popped : List Nat) :
    ∀ l : List VInfo,
      popped.foldl (fun vl w => vl.set w { vl.getD w default with onstack := false })
        (l.map (shiftV d))
      = (popped.foldl (fun vl w => vl.set w { vl.getD w default with onstack := false })
          l).map (shiftV d) := by
  induction popped with
  | nil => intro l; rfl
  | cons w ws ih =>
    intro l
    have hset : (l.map (shiftV d)).set w { (l.map (shiftV d)).getD w default with onstack := false }
        = (l.set w { l.getD w default with onstack := false }).map (shiftV d) := by
      have hg : (l.map (shiftV d)).getD w default = shiftV d (l.getD w default) := by
        simp only [List.getD_eq_getElem?_getD, List.getElem?_map]
        cases l[w]? <;> rfl
      rw [hg, List.map_set]
      rfl
    simp only [List.foldl_cons, hset, ih]

lemma closeScc_shift (d : Nat) (v : Nat) (s : TjSt) :
    closeScc v (shiftSt d s) = shiftSt d (closeScc v s) := by
  have hstack : (shiftSt d s).stack = s.stack := rfl
  have hfirst : (shiftSt d s).isFirst = s.isFirst := rfl
  have hsccs : (shiftSt d s).sccs = s.sccs := rfl
  have hvin : (shiftSt d s).vin = s.vin.map (shiftV d) := rfl
  have hdesc : ∀ w, (getV (shiftSt d s) w).desc = (getV s w).desc := by
    intro w; rw [getV_shift]; rfl
  unfold closeScc
  rw [hstack, hfirst, hsccs, hvin]
  simp only [hdesc, foldl_onstack_shift]
  rfl

lemma sconnLoop_shift (d : Nat) (rec : Nat → TjSt → Option TjSt)
    (hs : ∀ w s, rec w (shiftSt d s) = (rec w s).map (shiftSt d)) :
    ∀ v ws s, sconnLoop rec v ws (shiftSt d s)
      = (sconnLoop rec v ws s).map (shiftSt d) := by
  intro v ws
  induction ws with
  | nil => intro s; simp [sconnLoop]
  | cons w rest ih =>
    intro s
    rw [sconnLoop, sconnLoop]
    have h1 : updV (shiftSt d s) v (fun vi => { vi with desc := insert w vi.desc })
        = shiftSt d (updV s v (fun vi => { vi with desc := insert w vi.desc })) :=
      updV_shift d s v _ _ (fun vi => rfl)
    rw [h1]
    set s1 := updV s v (fun vi => { vi with desc := insert w vi.desc }) with hs1
    have hgv : (getV (shiftSt d s1) w).idx = ((getV s1 w).idx).map (· + d) := by
      rw [getV_shift]; rfl
    cases hidx : (getV s1 w).idx with
    | none =>
      rw [hgv, hidx]
      simp only [Option.map_none']
      rw [hs w s1]
      cases hrec : rec w s1 with
      | none => simp
      | some s2 =>
        simp only [Option.map_some', Option.some_bind]
        have h2 : updV (shiftSt d s2) v
            (fun vi => { vi with low := omin vi.low ((getV (shiftSt d s2) w).low) })
            = shiftSt d (updV s2 v (fun vi => { vi with low := omin vi.low ((getV s2 w).low) })) := by
          refine updV_shift d s2 v _ _ (fun vi => ?_)
          have hlow : (getV (shiftSt d s2) w).low = ((getV s2 w).low).map (· + d) := by
            rw [getV_shift]; rfl
          show ({ shiftV d vi with low := omin (shiftV d vi).low ((getV (shiftSt d s2) w).low) } : VInfo)
              = shiftV d { vi with low := omin vi.low ((getV s2 w).low) }
          rw [hlow]
          show ({ shiftV d vi with low := omin (vi.low.map (· + d)) (((getV s2 w).low).map (· + d)) } : VInfo)
              = shiftV d { vi with low := omin vi.low ((getV s2 w).low) }
          rw [omin_shift]
          rfl
        rw [h2, ih]
    | some iw =>
      rw [hgv, hidx]
      simp only [Option.map_some']
      have hons : (getV (shiftSt d s1) w).onstack = (getV s1 w).onstack := by
        rw [getV_shift]; rfl
      rw [hons]
      by_cases hob : (getV s1 w).onstack = true
      · rw [if_pos hob, if_pos hob]
        have h3 : updV (shiftSt d s1) v (fun vi => { vi with low := omin vi.low (some (iw + d)) })
            = shiftSt d (updV s1 v (fun vi => { vi with low := omin vi.low (some iw) })) := by
          refine updV_shift d s1 v _ _ (fun vi => ?_)
          show ({ shiftV d vi with low := omin (vi.low.map (· + d)) (some (iw + d)) } : VInfo)
              = shiftV d { vi with low := omin vi.low (some iw) }
          have hsm : (some (iw + d)) = (some iw).map (· + d) := rfl
          rw [hsm, omin_shift]
          rfl
        rw [h3, ih]
      · rw [if_neg hob, if_neg hob, ih]

lemma visitV_shift (d : Nat) (x : Nat) (vi : VInfo) :
    ({ shiftV d vi with idx := some (x + d), low := some (x + d), onstack := true } : VInfo)
    = shiftV d { vi with idx := some x, low := some x, onstack := true } := rfl

lemma sconn_shift (g : Digraph) (d : Nat) : ∀ fuel : Nat,
    ∀ v s, sconn g fuel v (shiftSt d s) = (sconn g fuel v s).map (shiftSt d) := by
  intro fuel
  induction fuel with
  | zero => intro v s; simp [sconn]
  | succ f ih =>
    intro v s
    rw [sconn, sconn]
    have hst :
        ({ shiftSt d s with
           vin := (shiftSt d s).vin.set v
             { getV (shiftSt d s) v with
               idx := some (shiftSt d s).vindex,
               low := some (shiftSt d s).vindex,
               onstack := true },
           stack := v :: (shiftSt d s).stack,
           vindex := (shiftSt d s).vindex + 1 } : TjSt)
        = shiftSt d
            { s with
              vin := s.vin.set v
                { getV s v with idx := some s.vindex, low := some s.vindex, onstack := true },
              stack := v :: s.stack,
              vindex := s.vindex + 1 } := by
      have hproj : (shiftSt d s).vin = s.vin.map (shiftV d) := rfl
      have hx : (shiftSt d s).vindex = s.vindex + d := rfl
      have hg : getV (shiftSt d s) v = shiftV d (getV s v) := getV_shift d s v
      have hset : (shiftSt d s).vin.set v
          { getV (shiftSt d s) v with
            idx := some (shiftSt d s).vindex,
            low := some (shiftSt d s).vindex,
            onstack := true }
          = (s.vin.set v
              { getV s v with
                idx := some s.vindex,
                low := some s.vindex,
                onstack := true }).map (shiftV d) := by
        rw [hproj, hx, hg, visitV_shift]
        exact mapSetComm (shiftV d) s.vin v _
      rw [hset]
      show (⟨_, v :: (shiftSt d s).stack, (shiftSt d s).sccs, (shiftSt d s).isFirst,
        (shiftSt d s).vindex + 1⟩ : TjSt) = _
      unfold shiftSt
      simp only [TjSt.mk.injEq]
      refine ⟨trivial, trivial, trivial, trivial, ?_⟩
      omega
    rw [hst, sconnLoop_shift d (sconn g f) ih]
    cases hrec : sconnLoop (sconn g f) v (nbrList g v)
        { s with
          vin := s.vin.set v
            { getV s v with idx := some s.vindex, low := some s.vindex, onstack := true },
          stack := v :: s.stack,
          vindex := s.vindex + 1 } with
    | none => simp
    | some s2 =>
      simp only [Option.map_some']
      have hiff : ((getV (shiftSt d s2) v).low = (getV (shiftSt d s2) v).idx)
          ↔ ((getV s2 v).low = (getV s2 v).idx) := by
        rw [getV_shift]
        exact map_shift_inj d _ _
      by_cases hroot : (getV s2 v).low = (getV s2 v).idx
      · rw [if_pos (hiff.2 hroot), if_pos hroot, closeScc_shift]
      · rw [if_neg (fun h => hroot (hiff.1 h)), if_neg hroot]

lemma tarjanFrom_shift (g : Digraph) (d : Nat) : ∀ vs s,
    tarjanFrom g vs (shiftSt d s) = (tarjanFrom g vs s).map (shiftSt d) := by
  intro vs
  induction vs with
  | nil => intro s; rfl
  | cons v rest ih =>
    intro s
    rw [tarjanFrom, tarjanFrom]
    have hgv : (getV (shiftSt d s) v).idx = ((getV s v).idx).map (· + d) := by
      rw [getV_shift]; rfl
    cases hidx : (getV s v).idx with
    | none =>
      rw [hgv, hidx]
      simp only [Option.map_none']
      rw [sconn_shift g d g.n v s]
      cases hrec : sconn g g.n v s with
      | none => simp
      | some s2 =>
        simp only [Option.map_some', Option.some_bind]
        exact ih s2
    | some i =>
      rw [hgv, hidx]
      simp only [Option.map_some']
      exact ih s

lemma initTj_shift (g : Digraph) (c d : Nat) :
    initTj g (c + d) = shiftSt d (initTj g c) := by
  unfold initTj shiftSt
  simp only [List.map_replicate]
  rfl

lemma tarjanRun_shift (g : Digraph) (c d : Nat) :
    tarjanRun g (c + d) = (tarjanRun g c).map (shiftSt d) := by
  unfold tarjanRun
  rw [initTj_shift, tarjanFrom_shift]

lemma tarjanRun_from_zero (g : Digraph) (c : Nat) :
    tarjanRun g c = (tarjanRun g 0).map (shiftSt c) := by
  have h := tarjanRun_shift g 0 c
  rwa [Nat.zero_add] at h

lemma tarjanRun_sccs (g : Digraph) (c : Nat) :
    (tarjanRun g c).map TjSt.sccs = (tarjanRun g 0).map TjSt.sccs := by
  rw [tarjanRun_from_zero, Option.map_map]
  congr 1

lemma countedCols_vix (g : Digraph) (o : OracleOut) (c1 c2 : Nat) :
    countedCols g o c1 = countedCols g o c2 := by
  unfold countedCols
  rw [tarjanRun_from_zero g c1, tarjanRun_from_zero g c2, Option.map_map, Option.map_map]
  congr 1

lemma foldl_fao (dsw : Bool) (g : Digraph) (sccs : List SccInfo) :
    ∀ (cols : List (List Nat)) (tc : Nat),
      cols.foldl (fun t c => (filterAndOutput dsw g sccs c t).1) tc
      = tc + (cols.filter (fun c => filterAccept sccs c)).length := by
  intro cols
  induction cols with
  | nil => intro tc; simp
  | cons c rest ih =>
    intro tc
    rw [List.foldl_cons, List.filter_cons]
    by_cases h : filterAccept sccs c = true
    · rw [if_pos h]
      have h1 : (filterAndOutput dsw g sccs c tc).1 = tc + 1 := by
        unfold filterAndOutput; rw [if_pos h]
      rw [h1, ih]
      simp only [List.length_cons]
      omega
    · rw [if_neg h]
      have h1 : (filterAndOutput dsw g sccs c tc).1 = tc := by
        unfold filterAndOutput; rw [if_neg h]
      rw [h1, ih]

lemma digraphStep_count (dsw : Bool) (g : Digraph) (o : OracleOut) (tc vix : Nat) :
    (digraphStep dsw (g, o) tc vix).1 = tc + ((countedCols g o vix).getD []).length := by
  unfold digraphStep countedCols
  cases h : tarjanRun g vix with
  | none => simp
  | some st => simp [foldl_fao]

lemma digraphStep_count_vix (dsw : Bool) (gp : Digraph × OracleOut) (tc vix vix' : Nat) :
    (digraphStep dsw gp tc vix).1 = (digraphStep dsw gp tc vix').1 := by
  obtain ⟨g, o⟩ := gp
  rw [digraphStep_count, digraphStep_count, countedCols_vix g o vix vix']

/-- C8.  Cross-digraph independence: the only analysis state that survives from
one digraph to the next is the `vertex_index` counter (gsinks.c:79); the SCC
decomposition, the counted-coloring list and the count contribution of a
digraph are the same for any starting counter value, so a digraph's result does
not depend on which digraphs were processed before it.  (All other state —
stack, per-vertex indices/lowlinks, SCC records, the coloring buffer and the
rejection witness — is rebuilt from scratch: `initTj` mirrors the init loop at
gsinks.c:422-435, and `colourOut` starts every search from the zero coloring
with `lastrejok = FALSE`, gsinks.c:405-406.) -/
theorem c8_per_digraph_state (g : Digraph) (o : OracleOut) (dsw : Bool) (tc c1 c2 : Nat) :
    (tarjanRun g c1).map TjSt.sccs = (tarjanRun g c2).map TjSt.sccs ∧
    countedCols g o c1 = countedCols g o c2 ∧
    (digraphStep dsw (g, o) tc c1).1 = (digraphStep dsw (g, o) tc c2).1 := by
  exact ⟨(tarjanRun_sccs g c1).trans (tarjanRun_sccs g c2).symm,
    countedCols_vix g o c1 c2, digraphStep_count_vix dsw (g, o) tc c1 c2⟩

/-- C5 counterexample.  After one input file's first digraph (one vertex, no
loop: one accepted coloring) the counter entering the second digraph's
processing is 1, not 0, and the reported number for the file is the sum 2, not
the second digraph's own count 1: `totalCount` is only reset per input file
(gsinks.c:629), not per digraph. -/
theorem c5_counterexample :
    (digraphStep false (g1, o1) 0 0).1 = 1 ∧
    (digraphStep false (g1, o1) 0 0).1 ≠ 0 ∧
    fileRun false [(g1, o1), (g1, o1)] 0 0 = (2, 2) := by
  refine ⟨by decide, by decide, by decide⟩

/-- C5 amended.  The counter accumulates across the digraphs of one input
file; it is reset to zero before the next *file* begins, so each file's
reported total counts exactly its own digraphs' accepted colorings,
independent of previously processed files. -/
theorem c5_amended_file_reset (dsw : Bool) (files : List (List (Digraph × OracleOut)))
    (vix : Nat) :
    filesRun dsw files vix = files.map (fun f => (fileRun dsw f 0 0).1) := by
  induction files generalizing vix with
  | nil => rfl
  | cons f rest ih =>
    rw [filesRun, List.map_cons]
    have hcnt : ∀ (fl : List (Digraph × OracleOut)) (tc v v' : Nat),
        (fileRun dsw fl tc v).1 = (fileRun dsw fl tc v').1 := by
      intro fl
      induction fl with
      | nil => intro tc v v'; rfl
      | cons gp r ihr =>
        intro tc v v'
        have hstep : ∀ t w, fileRun dsw (gp :: r) t w
            = fileRun dsw r (digraphStep dsw gp t w).1 (digraphStep dsw gp t w).2 := by
          intro t w
          unfold fileRun
          rw [List.foldl_cons]
        rw [hstep, hstep, digraphStep_count_vix dsw gp tc v v']
        exact ihr _ _ _
    rw [hcnt f 0 vix 0, ih]

/-- C10.  For the zero-vertex digraph the decomposer records no SCCs, the
search runs with no group (the `n == 0` branch of `colourdigraph`,
gsinks.c:366-370) and immediately yields the single empty coloring, the leaf
filter passes vacuously, and the counter goes up by exactly one. -/
theorem c10_zero_vertices (o : OracleOut) (vix tc : Nat) (dsw : Bool) :
    (tarjanRun g0 vix).map TjSt.sccs = some [] ∧
    colourOut g0 o 0 none 2 = (scanGo none 0 2 0 0 [] 0 0 0 0 [] none).out ∧
    colourOut g0 o 0 none 2 = [[]] ∧
    countedCols g0 o vix = some [[]] ∧
    (digraphStep dsw (g0, o) tc vix).1 = tc + 1 := by
  refine ⟨rfl, rfl, rfl, rfl, ?_⟩
  rw [digraphStep_count]
  rfl

/-- C9.  The pipeline on the 2-vertex digraph with the single edge `0 → 1`:
the decomposer records the singleton SCCs `{1}` (closed first, leaf) and `{0}`
(not leaf); the automorphism group is trivial, and the counted colorings are
exactly `(0,1)` and `(1,1)` — those giving vertex 1 color 1 — so the digraph
contributes 2 to the total. -/
theorem c9_edge01_pipeline (vix tc : Nat) (dsw : Bool) :
    (tarjanRun g2 vix).map TjSt.sccs = some [⟨{1}, true, 1⟩, ⟨{0}, false, 1⟩] ∧
    countedCols g2 o2 vix = some [[0, 1], [1, 1]] ∧
    (digraphStep dsw (g2, o2) tc vix).1 = tc + 2 := by
  refine ⟨?_, ?_, ?_⟩
  · rw [tarjanRun_sccs]
    decide
  · rw [countedCols_vix g2 o2 vix 0]
    decide
  · rw [digraphStep_count, countedCols_vix g2 o2 vix 0]
    have h : countedCols g2 o2 0 = some [[0, 1], [1, 1]] := by decide
    rw [h]
    rfl

/-! ## Invariants of the decomposer

The development below establishes, for well-formed digraphs, the partition
property of the recorded SCC vertex sets (C4), the leaf characterization (C3)
and the state facts used for the round-trip property (C6). -/

/-- `v` has been visited: its discovery index is defined. -/
def vis (s : TjSt) (v : Nat) : Bool := (getV s v).idx.isSome

/-- Discovery index of a visited vertex. -/
def idxD (s : TjSt) (v : Nat) : Nat := (getV s v).idx.getD 0

/-- Lowlink of a visited vertex. -/
def lowD (s : TjSt) (v : Nat) : Nat := (getV s v).low.getD 0

/-- Vertices assigned to some recorded SCC. -/
def sccUnion (s : TjSt) : Finset Nat := s.sccs.foldr (fun sc acc => sc.verts ∪ acc) ∅

/-- Number of unvisited vertices. -/
def unvisCount (g : Digraph) (s : TjSt) : Nat :=
  ((List.range g.n).filter (fun v => !vis s v)).length

/-- Minimum of the indices on the stack and the running counter: a lower bound
for every lowlink created while the stack base is untouched. -/
def stkMin (s : TjSt) : Nat := s.stack.foldr (fun u a => min (idxD s u) a) s.vindex

lemma mem_sccUnion {s : TjSt} {x : Nat} :
    x ∈ sccUnion s ↔ ∃ sc ∈ s.sccs, x ∈ sc.verts := by
  unfold sccUnion
  induction s.sccs with
  | nil => simp
  | cons sc rest ih => simp [List.foldr_cons, ih]

lemma sccUnion_append (s : TjSt) (pre post : List SccInfo) (h : s.sccs = pre ++ post) :
    ∀ x, x ∈ sccUnion s ↔ (∃ sc ∈ pre, x ∈ sc.verts) ∨ (∃ sc ∈ post, x ∈ sc.verts) := by
  intro x
  rw [mem_sccUnion, h]
  constructor
  · rintro ⟨sc, hm, hx⟩
    rcases List.mem_append.1 hm with h1 | h1
    · exact Or.inl ⟨sc, h1, hx⟩
    · exact Or.inr ⟨sc, h1, hx⟩
  · rintro (⟨sc, hm, hx⟩ | ⟨sc, hm, hx⟩)
    · exact ⟨sc, List.mem_append.2 (Or.inl hm), hx⟩
    · exact ⟨sc, List.mem_append.2 (Or.inr hm), hx⟩

lemma getD_set_self (l : List VInfo) (v : Nat) (a : VInfo) (h : v < l.length) :
    (l.set v a).getD v default = a := by
  rw [List.getD_eq_getElem?_getD, List.getElem?_set_self', List.getElem?_eq_getElem h]
  rfl

lemma getV_updV_self (s : TjSt) (v : Nat) (f : VInfo → VInfo) (h : v < s.vin.length) :
    getV (updV s v f) v = f (getV s v) :=
  getD_set_self s.vin v (f (getV s v)) h

lemma getV_updV_ne (s : TjSt) (v u : Nat) (f : VInfo → VInfo) (h : u ≠ v) :
    getV (updV s v f) u = getV s u := by
  unfold updV getV
  simp only [List.getD_eq_getElem?_getD]
  rw [List.getElem?_set_ne (fun hh => h hh.symm)]

lemma updV_stack (s : TjSt) (v : Nat) (f : VInfo → VInfo) :
    (updV s v f).stack = s.stack := rfl

lemma updV_sccs (s : TjSt) (v : Nat) (f : VInfo → VInfo) :
    (updV s v f).sccs = s.sccs := rfl

lemma updV_vindex (s : TjSt) (v : Nat) (f : VInfo → VInfo) :
    (updV s v f).vindex = s.vindex := rfl

lemma updV_isFirst (s : TjSt) (v : Nat) (f : VInfo → VInfo) :
    (updV s v f).isFirst = s.isFirst := rfl

lemma updV_vin_length (s : TjSt) (v : Nat) (f : VInfo → VInfo) :
    (updV s v f).vin.length = s.vin.length := by
  unfold updV
  simp

lemma popTo_spec (v : Nat) : ∀ (N S : List Nat), v ∉ N →
    popTo v (N ++ v :: S) = (N ++ [v], S) := by
  intro N
  induction N with
  | nil => intro S _; simp [popTo]
  | cons w rest ih =>
    intro S hnv
    have hw : w ≠ v := fun h => hnv (h ▸ List.mem_cons_self w rest)
    have hr : v ∉ rest := fun h => hnv (List.mem_cons_of_mem w h)
    simp only [List.cons_append, popTo, if_neg hw, List.append_eq, ih S hr]

lemma foldl_insert_mem (l : List Nat) :
    ∀ (acc : Finset Nat) (x : Nat),
      x ∈ l.foldl (fun a w => insert w a) acc ↔ x ∈ acc ∨ x ∈ l := by
  induction l with
  | nil => intro acc x; simp
  | cons w rest ih =>
    intro acc x
    rw [List.foldl_cons, ih]
    simp [Finset.mem_insert]
    tauto

lemma foldl_insert_union_mem (l : List Nat) (dsc : Nat → Finset Nat) :
    ∀ (acc : Finset Nat) (x : Nat),
      x ∈ l.foldl (fun a w => insert w a ∪ dsc w) acc ↔
        x ∈ acc ∨ ∃ w ∈ l, x = w ∨ x ∈ dsc w := by
  induction l with
  | nil => intro acc x; simp
  | cons w rest ih =>
    intro acc x
    rw [List.foldl_cons, ih]
    simp only [Finset.mem_union, Finset.mem_insert, List.mem_cons]
    aesop

lemma stkMin_le_vindex (s : TjSt) : stkMin s ≤ s.vindex := by
  unfold stkMin
  induction s.stack with
  | nil => exact le_refl _
  | cons u rest ih =>
    rw [List.foldr_cons]
    exact le_trans (min_le_right _ _) ih

lemma stkMin_le_idx (s : TjSt) : ∀ u ∈ s.stack, stkMin s ≤ idxD s u := by
  unfold stkMin
  induction s.stack with
  | nil => intro u hu; cases hu
  | cons w rest ih =>
    intro u hu
    rw [List.foldr_cons]
    rcases List.mem_cons.1 hu with h | h
    · rw [h]; exact min_le_left _ _
    · exact le_trans (min_le_right _ _) (ih u h)

lemma stkMin_congr (s t : TjSt) (hst : t.stack = s.stack) (hvx : t.vindex = s.vindex)
    (hidx : ∀ u ∈ s.stack, idxD t u = idxD s u) : stkMin t = stkMin s := by
  unfold stkMin
  rw [hst, hvx]
  have : ∀ (l : List Nat), (∀ u ∈ l, idxD t u = idxD s u) →
      l.foldr (fun u a => min (idxD t u) a) s.vindex
        = l.foldr (fun u a => min (idxD s u) a) s.vindex := by
    intro l
    induction l with
    | nil => intro _; rfl
    | cons w rest ih =>
      intro h
      rw [List.foldr_cons, List.foldr_cons, h w (List.mem_cons_self _ _),
        ih (fun u hu => h u (List.mem_cons_of_mem _ hu))]
  exact this s.stack hidx

lemma stkMin_ge (s t : TjSt) (N : List Nat) (hN : t.stack = N ++ s.stack)
    (hvx : s.vindex ≤ t.vindex)
    (hold : ∀ u ∈ s.stack, idxD t u = idxD s u)
    (hnew : ∀ u ∈ N, stkMin s ≤ idxD t u) : stkMin s ≤ stkMin t := by
  unfold stkMin
  rw [hN]
  have base : stkMin s ≤ s.stack.foldr (fun u a => min (idxD t u) a) t.vindex := by
    have key : ∀ (l : List Nat), (∀ u ∈ l, idxD t u = idxD s u) →
        (∀ u ∈ l, stkMin s ≤ idxD s u) →
        stkMin s ≤ l.foldr (fun u a => min (idxD t u) a) t.vindex := by
      intro l
      induction l with
      | nil =>
        intro _ _
        exact le_trans (stkMin_le_vindex s) hvx
      | cons w rest ih =>
        intro h1 h2
        rw [List.foldr_cons]
        refine le_min ?_ (ih (fun u hu => h1 u (List.mem_cons_of_mem _ hu))
          (fun u hu => h2 u (List.mem_cons_of_mem _ hu)))
        rw [h1 w (List.mem_cons_self _ _)]
        exact h2 w (List.mem_cons_self _ _)
    exact key s.stack hold (stkMin_le_idx s)
  have key2 : ∀ (l : List Nat), (∀ u ∈ l, stkMin s ≤ idxD t u) →
      stkMin s ≤ s.stack.foldr (fun u a => min (idxD t u) a) t.vindex →
      stkMin s ≤ (l ++ s.stack).foldr (fun u a => min (idxD t u) a) t.vindex := by
    intro l
    induction l with
    | nil => intro _ hb; exact hb
    | cons w rest ih =>
      intro h hb
      rw [List.cons_append, List.foldr_cons]
      exact le_min (h w (List.mem_cons_self _ _))
        (ih (fun u hu => h u (List.mem_cons_of_mem _ hu)) hb)
  exact key2 N hnew base

lemma unvisCount_le_of_mono (g : Digraph) (s t : TjSt)
    (h : ∀ u, u < g.n → vis s u = true → vis t u = true) :
    unvisCount g t ≤ unvisCount g s := by
  unfold unvisCount
  have : ∀ (l : List Nat), (∀ u ∈ l, u < g.n) →
      (l.filter (fun v => !vis t v)).length ≤ (l.filter (fun v => !vis s v)).length := by
    intro l
    induction l with
    | nil => intro _; exact le_refl _
    | cons w rest ih =>
      intro hl
      rw [List.filter_cons, List.filter_cons]
      by_cases hw : vis s w = true
      · have hwt : vis t w = true := h w (hl w (List.mem_cons_self _ _)) hw
        rw [hw, hwt]
        simp only [Bool.not_true, if_neg (by simp : ¬ (false = true))]
        exact ih (fun u hu => hl u (List.mem_cons_of_mem _ hu))
      · have hw' : vis s w = false := by simpa using hw
        rw [hw']
        by_cases hwt : vis t w = true
        · rw [hwt]
          simp only [Bool.not_true, Bool.not_false, if_pos rfl,
            if_neg (by simp : ¬ (false = true))]
          exact le_trans (ih (fun u hu => hl u (List.mem_cons_of_mem _ hu)))
            (Nat.le_succ _)
        · have hwt' : vis t w = false := by simpa using hwt
          rw [hwt']
          simp only [Bool.not_false, if_pos rfl, List.length_cons]
          exact Nat.succ_le_succ (ih (fun u hu => hl u (List.mem_cons_of_mem _ hu)))
  exact this (List.range g.n) (fun u hu => List.mem_range.1 hu)

lemma unvisCount_lt_of_new (g : Digraph) (s t : TjSt) (v : Nat) (hv : v < g.n)
    (hsv : vis s v = false) (htv : vis t v = true)
    (h : ∀ u, u < g.n → vis s u = true → vis t u = true) :
    unvisCount g t < unvisCount g s := by
  unfold unvisCount
  have key : ∀ (l : List Nat), l.Nodup → (∀ u ∈ l, u < g.n) → v ∈ l →
      (l.filter (fun u => !vis t u)).length < (l.filter (fun u => !vis s u)).length := by
    intro l
    induction l with
    | nil => intro _ _ hvl; cases hvl
    | cons w rest ih =>
      intro hnd hl hvl
      have hnd' := (List.pairwise_cons.1 hnd).2
      have hwrest := (List.pairwise_cons.1 hnd).1
      rw [List.filter_cons, List.filter_cons]
      rcases List.mem_cons.1 hvl with hwv | hvrest
      · subst hwv
        rw [hsv, htv]
        simp only [Bool.not_true, Bool.not_false, if_pos rfl,
          if_neg (by simp : ¬ (false = true)), List.length_cons]
        have hle : ((rest.filter (fun u => !vis t u)).length ≤
            (rest.filter (fun u => !vis s u)).length) := by
          have : ∀ (l2 : List Nat), (∀ u ∈ l2, u < g.n) →
              (l2.filter (fun u => !vis t u)).length ≤
                (l2.filter (fun u => !vis s u)).length := by
            intro l2
            induction l2 with
            | nil => intro _; exact le_refl _
            | cons x xs ihx =>
              intro hx
              rw [List.filter_cons, List.filter_cons]
              by_cases hxs : vis s x = true
              · have hxt : vis t x = true := h x (hx x (List.mem_cons_self _ _)) hxs
                rw [hxs, hxt]
                simp only [Bool.not_true, if_neg (by simp : ¬ (false = true))]
                exact ihx (fun u hu => hx u (List.mem_cons_of_mem _ hu))
              · have hxs' : vis s x = false := by simpa using hxs
                rw [hxs']
                by_cases hxt : vis t x = true
                · rw [hxt]
                  simp only [Bool.not_true, Bool.not_false, if_pos rfl,
                    if_neg (by simp : ¬ (false = true))]
                  exact le_trans (ihx (fun u hu => hx u (List.mem_cons_of_mem _ hu)))
                    (Nat.le_succ _)
                · have hxt' : vis t x = false := by simpa using hxt
                  rw [hxt']
                  simp only [Bool.not_false, if_pos rfl, List.length_cons]
                  exact Nat.succ_le_succ (ihx (fun u hu => hx u (List.mem_cons_of_mem _ hu)))
          exact this rest (fun u hu => hl u (List.mem_cons_of_mem _ hu))
        exact Nat.lt_succ_of_le hle
      · by_cases hws : vis s w = true
        · have hwt : vis t w = true := h w (hl w (List.mem_cons_self _ _)) hws
          rw [hws, hwt]
          simp only [Bool.not_true, if_neg (by simp : ¬ (false = true))]
          exact ih hnd' (fun u hu => hl u (List.mem_cons_of_mem _ hu)) hvrest
        · have hws' : vis s w = false := by simpa using hws
          rw [hws']
          by_cases hwt : vis t w = true
          · rw [hwt]
            simp only [Bool.not_true, Bool.not_false, if_pos rfl,
              if_neg (by simp : ¬ (false = true))]
            exact le_trans (ih hnd' (fun u hu => hl u (List.mem_cons_of_mem _ hu)) hvrest)
              (Nat.le_succ _)
          · have hwt' : vis t w = false := by simpa using hwt
            rw [hwt']
            simp only [Bool.not_false, if_pos rfl, List.length_cons]
            exact Nat.succ_lt_succ
              (ih hnd' (fun u hu => hl u (List.mem_cons_of_mem _ hu)) hvrest)
  exact key (List.range g.n) (List.nodup_range g.n) (fun u hu => List.mem_range.1 hu)
    (List.mem_range.2 hv)

lemma one_le_unvisCount (g : Digraph) (s : TjSt) (v : Nat) (hv : v < g.n)
    (hsv : vis s v = false) : 1 ≤ unvisCount g s := by
  unfold unvisCount
  have hmem : v ∈ (List.range g.n).filter (fun u => !vis s u) := by
    rw [List.mem_filter]
    exact ⟨List.mem_range.2 hv, by rw [hsv]; rfl⟩
  have hne : (List.range g.n).filter (fun u => !vis s u) ≠ [] := by
    intro hnil
    rw [hnil] at hmem
    cases hmem
  exact List.length_pos.2 hne

lemma unvisCount_le_n (g : Digraph) (s : TjSt) : unvisCount g s ≤ g.n := by
  unfold unvisCount
  calc ((List.range g.n).filter (fun v => !vis s v)).length
      ≤ (List.range g.n).length := List.length_filter_le _ _
    _ = g.n := List.length_range g.n

/-- The internal invariant of the decomposer state: consistency of the stack,
the per-vertex records, and the recorded SCCs, including the leaf-flag
characterization (`flags`), the no-leaving-edge property of the first closed
SCC (`firstleaf`), and the lowlink/edge relation (`lowedge`) that underpins
it. -/
structure TInv (g : Digraph) (s : TjSt) : Prop where
  vlen : s.vin.length = g.n
  stk_lt : ∀ v ∈ s.stack, v < g.n
  stk_nodup : s.stack.Nodup
  ons_iff : ∀ v, v < g.n → ((getV s v).onstack = true ↔ v ∈ s.stack)
  stk_vis : ∀ v ∈ s.stack, vis s v = true
  scc_lt : ∀ sc ∈ s.sccs, ∀ v ∈ sc.verts, v < g.n
  scc_vis : ∀ sc ∈ s.sccs, ∀ v ∈ sc.verts, vis s v = true
  scc_stk : ∀ sc ∈ s.sccs, ∀ v ∈ sc.verts, v ∉ s.stack
  scc_ne : ∀ sc ∈ s.sccs, sc.verts.Nonempty
  scc_size : ∀ sc ∈ s.sccs, sc.size = sc.verts.card
  scc_disj : s.sccs.Pairwise (fun a b => ∀ x, x ∈ a.verts → x ∉ b.verts)
  part : ∀ v, v < g.n → vis s v = true → v ∈ s.stack ∨ v ∈ sccUnion s
  idx_lt : ∀ v, v < g.n → vis s v = true → idxD s v < s.vindex
  low_le : ∀ v, v < g.n → vis s v = true → lowD s v ≤ idxD s v
  low_some : ∀ v, v < g.n → vis s v = true → (getV s v).low.isSome = true
  stk_sorted : s.stack.Pairwise (fun a b => idxD s b < idxD s a)
  first_iff : s.isFirst = s.sccs.isEmpty
  unvis_clean : ∀ v, v < g.n → vis s v = false → getV s v = ⟨none, none, false, ∅⟩
  desc_sub : ∀ v, v < g.n → (getV s v).desc ⊆ g.row v
  lowedge : ∀ w, w < g.n → vis s w = true → ∀ u, u ∈ (getV s w).desc →
      vis s u = false ∨ u ∈ sccUnion s ∨ lowD s w ≤ idxD s u ∨ idxD s w < idxD s u
  flags : ∀ i, (hi : i < s.sccs.length) → (s.sccs.get ⟨i, hi⟩).isLeaf =
      ((i == 0) || decide ((s.sccs.get ⟨i, hi⟩).verts.biUnion g.row ⊆ (s.sccs.get ⟨i, hi⟩).verts))
  firstleaf : ∀ sc0, s.sccs.head? = some sc0 → sc0.verts.biUnion g.row ⊆ sc0.verts
  emptyrow : ∀ sc ∈ s.sccs, ∀ w ∈ sc.verts, g.row w = ∅ → sc = ⟨{w}, true, 1⟩

lemma vis_of_getV_eq {s t : TjSt} {u : Nat} (h : getV t u = getV s u) :
    vis t u = vis s u := by unfold vis; rw [h]

lemma idxD_of_getV_eq {s t : TjSt} {u : Nat} (h : getV t u = getV s u) :
    idxD t u = idxD s u := by unfold idxD; rw [h]

lemma lowD_of_getV_eq {s t : TjSt} {u : Nat} (h : getV t u = getV s u) :
    lowD t u = lowD s u := by unfold lowD; rw [h]

/-- Preservation of the invariant under the descendents insertion of the
neighbour loop (gsinks.c:476), provided the new edge target satisfies one of
the `lowedge` disjuncts. -/
lemma TInv_updV_desc (g : Digraph) (s : TjSt) (v w : Nat)
    (inv : TInv g s) (hv : v < g.n) (hvis : vis s v = true) (hw : w ∈ g.row v)
    (hdisj : vis s w = false ∨ w ∈ sccUnion s ∨ lowD s v ≤ idxD s w ∨ idxD s v < idxD s w) :
    TInv g (updV s v (fun vi => { vi with desc := insert w vi.desc })) := by
  set t := updV s v (fun vi => { vi with desc := insert w vi.desc }) with ht
  have hvl : v < s.vin.length := by rw [inv.vlen]; exact hv
  have hg : ∀ u, u ≠ v → getV t u = getV s u := fun u hu => getV_updV_ne s v u _ hu
  have hgv : getV t v = { getV s v with desc := insert w (getV s v).desc } :=
    getV_updV_self s v _ hvl
  have hvis' : ∀ u, vis t u = vis s u := by
    intro u
    by_cases hu : u = v
    · subst hu; unfold vis; rw [hgv]
    · exact vis_of_getV_eq (hg u hu)
  have hidx' : ∀ u, idxD t u = idxD s u := by
    intro u
    by_cases hu : u = v
    · subst hu; unfold idxD; rw [hgv]
    · exact idxD_of_getV_eq (hg u hu)
  have hlow' : ∀ u, lowD t u = lowD s u := by
    intro u
    by_cases hu : u = v
    · subst hu; unfold lowD; rw [hgv]
    · exact lowD_of_getV_eq (hg u hu)
  have hons' : ∀ u, (getV t u).onstack = (getV s u).onstack := by
    intro u
    by_cases hu : u = v
    · subst hu; rw [hgv]
    · rw [hg u hu]
  have hstk : t.stack = s.stack := rfl
  have hsccs : t.sccs = s.sccs := rfl
  have hvx : t.vindex = s.vindex := rfl
  have hsu : sccUnion t = sccUnion s := by unfold sccUnion; rw [hsccs]
  refine ⟨?_, ?_, ?_, ?_, ?_, ?_, ?_, ?_, ?_, ?_, ?_, ?_, ?_, ?_, ?_, ?_, ?_, ?_, ?_, ?_, ?_, ?_, ?_⟩
  · rw [ht]; rw [updV_vin_length]; exact inv.vlen
  · rw [hstk]; exact inv.stk_lt
  · rw [hstk]; exact inv.stk_nodup
  · intro u hu; rw [hons' u, hstk]; exact inv.ons_iff u hu
  · intro u hu; rw [hvis' u]; exact inv.stk_vis u (by rwa [hstk] at hu)
  · rw [hsccs]; exact inv.scc_lt
  · intro sc hsc x hx; rw [hvis' x]; exact inv.scc_vis sc (by rwa [hsccs] at hsc) x hx
  · rw [hsccs, hstk]; exact inv.scc_stk
  · rw [hsccs]; exact inv.scc_ne
  · rw [hsccs]; exact inv.scc_size
  · rw [hsccs]; exact inv.scc_disj
  · intro u hu hvu; rw [hstk, hsu]; exact inv.part u hu (by rwa [hvis' u] at hvu)
  · intro u hu hvu; rw [hidx' u, hvx]; exact inv.idx_lt u hu (by rwa [hvis' u] at hvu)
  · intro u hu hvu; rw [hidx' u, hlow' u]; exact inv.low_le u hu (by rwa [hvis' u] at hvu)
  · intro u hu hvu
    by_cases huv : u = v
    · subst huv; rw [hgv]; exact inv.low_some u hu (by rwa [hvis' u] at hvu)
    · rw [hg u huv]; exact inv.low_some u hu (by rwa [hvis' u] at hvu)
  · rw [hstk]
    refine List.Pairwise.imp_of_mem ?_ inv.stk_sorted
    intro a b _ _ hab
    rw [hidx' a, hidx' b]
    exact hab
  · rw [hsccs]; exact inv.first_iff
  · intro u hu hvu
    have huv : u ≠ v := by
      intro h
      subst h
      rw [hvis' u] at hvu
      rw [hvu] at hvis
      cases hvis
    rw [hg u huv]
    exact inv.unvis_clean u hu (by rwa [hvis' u] at hvu)
  · intro u hu
    by_cases huv : u = v
    · subst huv
      rw [hgv]
      intro x hx
      rcases Finset.mem_insert.1 hx with h | h
      · subst h; exact hw
      · exact inv.desc_sub u hu h
    · rw [hg u huv]; exact inv.desc_sub u hu
  · intro x hx hvx2 u hu
    have base : vis s u = false ∨ u ∈ sccUnion s ∨ lowD s x ≤ idxD s u ∨ idxD s x < idxD s u := by
      by_cases hxv : x = v
      · subst hxv
        rw [hgv] at hu
        rcases Finset.mem_insert.1 hu with h | h
        · subst h; exact hdisj
        · exact inv.lowedge x hx (by rwa [hvis' x] at hvx2) u h
      · rw [hg x hxv] at hu
        exact inv.lowedge x hx (by rwa [hvis' x] at hvx2) u hu
    rw [hvis' u, hsu, hlow' x, hidx' u, hidx' x]
    exact base
  · intro i hi
    exact inv.flags i hi
  · intro sc0 h0; rw [hsccs] at h0; exact inv.firstleaf sc0 h0
  · intro sc hsc; rw [hsccs] at hsc; exact inv.emptyrow sc hsc

/-- Preservation of the invariant under a lowlink decrease of the current
vertex (gsinks.c:481-483, 488-491). -/
lemma TInv_updV_low (g : Digraph) (s : TjSt) (v : Nat) (o : Option Nat)
    (inv : TInv g s) (hv : v < g.n) (hvis : vis s v = true) :
    TInv g (updV s v (fun vi => { vi with low := omin vi.low o })) := by
  set t := updV s v (fun vi => { vi with low := omin vi.low o }) with ht
  have hvl : v < s.vin.length := by rw [inv.vlen]; exact hv
  have hg : ∀ u, u ≠ v → getV t u = getV s u := fun u hu => getV_updV_ne s v u _ hu
  have hgv : getV t v = { getV s v with low := omin (getV s v).low o } :=
    getV_updV_self s v _ hvl
  have hsomev : ∃ lv, (getV s v).low = some lv := by
    have := inv.low_some v hv hvis
    cases h : (getV s v).low with
    | none => rw [h] at this; cases this
    | some lv => exact ⟨lv, rfl⟩
  obtain ⟨lv, hlv⟩ := hsomev
  have hlow_le_old : lowD t v ≤ lowD s v := by
    unfold lowD
    rw [hgv, hlv]
    cases o with
    | none => simp [omin]
    | some x => simp [omin]
  have hvis' : ∀ u, vis t u = vis s u := by
    intro u
    by_cases hu : u = v
    · subst hu; unfold vis; rw [hgv]
    · exact vis_of_getV_eq (hg u hu)
  have hidx' : ∀ u, idxD t u = idxD s u := by
    intro u
    by_cases hu : u = v
    · subst hu; unfold idxD; rw [hgv]
    · exact idxD_of_getV_eq (hg u hu)
  have hlow' : ∀ u, u ≠ v → lowD t u = lowD s u := fun u hu => lowD_of_getV_eq (hg u hu)
  have hons' : ∀ u, (getV t u).onstack = (getV s u).onstack := by
    intro u
    by_cases hu : u = v
    · subst hu; rw [hgv]
    · rw [hg u hu]
  have hstk : t.stack = s.stack := rfl
  have hsccs : t.sccs = s.sccs := rfl
  have hvx : t.vindex = s.vindex := rfl
  have hsu : sccUnion t = sccUnion s := by unfold sccUnion; rw [hsccs]
  refine ⟨?_, ?_, ?_, ?_, ?_, ?_, ?_, ?_, ?_, ?_, ?_, ?_, ?_, ?_, ?_, ?_, ?_, ?_, ?_, ?_, ?_, ?_, ?_⟩
  · rw [ht]; rw [updV_vin_length]; exact inv.vlen
  · rw [hstk]; exact inv.stk_lt
  · rw [hstk]; exact inv.stk_nodup
  · intro u hu; rw [hons' u, hstk]; exact inv.ons_iff u hu
  · intro u hu; rw [hvis' u]; exact inv.stk_vis u (by rwa [hstk] at hu)
  · rw [hsccs]; exact inv.scc_lt
  · intro sc hsc x hx; rw [hvis' x]; exact inv.scc_vis sc (by rwa [hsccs] at hsc) x hx
  · rw [hsccs, hstk]; exact inv.scc_stk
  · rw [hsccs]; exact inv.scc_ne
  · rw [hsccs]; exact inv.scc_size
  · rw [hsccs]; exact inv.scc_disj
  · intro u hu hvu; rw [hstk, hsu]; exact inv.part u hu (by rwa [hvis' u] at hvu)
  · intro u hu hvu; rw [hidx' u, hvx]; exact inv.idx_lt u hu (by rwa [hvis' u] at hvu)
  · intro u hu hvu
    by_cases huv : u = v
    · subst huv
      rw [hidx' u]
      exact le_trans hlow_le_old (inv.low_le u hu (by rwa [hvis' u] at hvu))
    · rw [hidx' u, hlow' u huv]; exact inv.low_le u hu (by rwa [hvis' u] at hvu)
  · intro u hu hvu
    by_cases huv : u = v
    · subst huv
      rw [hgv, hlv]
      cases o <;> simp [omin]
    · rw [hg u huv]; exact inv.low_some u hu (by rwa [hvis' u] at hvu)
  · rw [hstk]
    refine List.Pairwise.imp_of_mem ?_ inv.stk_sorted
    intro a b _ _ hab
    rw [hidx' a, hidx' b]
    exact hab
  · rw [hsccs]; exact inv.first_iff
  · intro u hu hvu
    have huv : u ≠ v := by
      intro h
      subst h
      rw [hvis' u] at hvu
      rw [hvu] at hvis
      cases hvis
    rw [hg u huv]
    exact inv.unvis_clean u hu (by rwa [hvis' u] at hvu)
  · intro u hu
    by_cases huv : u = v
    · subst huv; rw [hgv]; exact inv.desc_sub u hu
    · rw [hg u huv]; exact inv.desc_sub u hu
  · intro x hx hvx2 u hu
    have hdx : (getV t x).desc = (getV s x).desc := by
      by_cases hxv : x = v
      · subst hxv; rw [hgv]
      · rw [hg x hxv]
    rw [hdx] at hu
    have base := inv.lowedge x hx (by rwa [hvis' x] at hvx2) u hu
    rw [hvis' u, hsu, hidx' u, hidx' x]
    rcases base with h | h | h | h
    · exact Or.inl h
    · exact Or.inr (Or.inl h)
    · refine Or.inr (Or.inr (Or.inl ?_))
      by_cases hxv : x = v
      · subst hxv; exact le_trans hlow_le_old h
      · rw [hlow' x hxv]; exact h
    · exact Or.inr (Or.inr (Or.inr h))
  · intro i hi
    exact inv.flags i hi
  · intro sc0 h0; rw [hsccs] at h0; exact inv.firstleaf sc0 h0
  · intro sc hsc; rw [hsccs] at hsc; exact inv.emptyrow sc hsc

lemma updV_updV (s : TjSt) (v : Nat) (f1 f2 : VInfo → VInfo) (h : v < s.vin.length) :
    updV (updV s v f1) v f2 = updV s v (fun vi => f2 (f1 vi)) := by
  unfold updV getV
  simp only [List.set_set, TjSt.mk.injEq, and_true, true_and]
  rw [getD_set_self s.vin v (f1 (s.vin.getD v default)) h]

/-- Post-relation of one `strongconnect` call on an unvisited vertex `v`. -/
structure SPost (g : Digraph) (s : TjSt) (v : Nat) (s' : TjSt) : Prop where
  inv : TInv g s'
  visv : vis s' v = true
  idxv : (getV s' v).idx = some s.vindex
  frozen : ∀ u, vis s u = true → getV s' u = getV s u
  newidx : ∀ u, u < g.n → vis s u = false → vis s' u = true → s.vindex ≤ idxD s' u
  newlow : ∀ u, u < g.n → vis s u = false → vis s' u = true → stkMin s ≤ lowD s' u
  stk : ∃ N, s'.stack = N ++ s.stack ∧
      ∀ u ∈ N, vis s u = false ∧ u < g.n ∧ g.row u ≠ ∅ ∧
        (getV s' u).desc = g.row u ∧ (∀ x ∈ g.row u, vis s' x = true) ∧
        lowD s' v ≤ lowD s' u
  sccs_ext : ∃ L, s'.sccs = s.sccs ++ L
  vix_lt : s.vindex < s'.vindex
  pop_or : v ∉ s'.stack ∨ lowD s' v < idxD s' v
  stack_pop : v ∉ s'.stack → s'.stack = s.stack
  desc_v : (getV s' v).desc = g.row v
  rows_v : ∀ x ∈ g.row v, vis s' x = true
  unvis_lt : unvisCount g s' < unvisCount g s

/-- Post-relation of the remaining neighbour loop of `v` over `ws`. -/
structure LPost (g : Digraph) (v : Nat) (ws : List Nat) (s s' : TjSt) : Prop where
  inv : TInv g s'
  frozen : ∀ u, u ≠ v → vis s u = true → getV s' u = getV s u
  idxv : (getV s' v).idx = (getV s v).idx
  onsv : (getV s' v).onstack = (getV s v).onstack
  descv : (getV s' v).desc = (getV s v).desc ∪ ws.toFinset
  lowv_le : lowD s' v ≤ lowD s v
  lowv_ge : min (lowD s v) (stkMin s) ≤ lowD s' v
  newidx : ∀ u, u < g.n → vis s u = false → vis s' u = true → s.vindex ≤ idxD s' u
  newlow : ∀ u, u < g.n → vis s u = false → vis s' u = true → stkMin s ≤ lowD s' u
  stk : ∃ N, s'.stack = N ++ s.stack ∧
      ∀ u ∈ N, vis s u = false ∧ u < g.n ∧ g.row u ≠ ∅ ∧
        (getV s' u).desc = g.row u ∧ (∀ x ∈ g.row u, vis s' x = true) ∧
        lowD s' v ≤ lowD s' u
  proc : ∀ x ∈ ws, vis s' x = true
  sccs_ext : ∃ L, s'.sccs = s.sccs ++ L
  vix_mono : s.vindex ≤ s'.vindex
  unvis_mono : unvisCount g s' ≤ unvisCount g s

lemma SPost.vis_mono {g : Digraph} {s : TjSt} {v : Nat} {s' : TjSt}
    (sp : SPost g s v s') : ∀ u, vis s u = true → vis s' u = true := by
  intro u hu
  rw [vis_of_getV_eq (sp.frozen u hu)]
  exact hu

lemma LPost.visMono {g : Digraph} {v : Nat} {ws : List Nat} {s s' : TjSt}
    (lp : LPost g v ws s s') : ∀ u, vis s u = true → vis s' u = true := by
  intro u hu
  by_cases huv : u = v
  · subst huv
    unfold vis
    rw [lp.idxv]
    exact hu
  · rw [vis_of_getV_eq (lp.frozen u huv hu)]
    exact hu

lemma LPost.visv {g : Digraph} {v : Nat} {ws : List Nat} {s s' : TjSt}
    (lp : LPost g v ws s s') (h : vis s v = true) : vis s' v = true := lp.visMono v h

lemma vis_some {s : TjSt} {v : Nat} (h : vis s v = true) :
    ∃ i, (getV s v).idx = some i := by
  unfold vis at h
  cases hx : (getV s v).idx with
  | none => rw [hx] at h; cases h
  | some i => exact ⟨i, rfl⟩

lemma low_some_of {g : Digraph} {s : TjSt} {v : Nat} (inv : TInv g s) (hv : v < g.n)
    (h : vis s v = true) : ∃ l, (getV s v).low = some l := by
  have := inv.low_some v hv h
  cases hx : (getV s v).low with
  | none => rw [hx] at this; cases this
  | some l => exact ⟨l, rfl⟩

lemma sconnLoop_cons_none (rec : Nat → TjSt → Option TjSt) (v w : Nat) (rest : List Nat) (s : TjSt)
    (h : (getV (updV s v (fun vi => { vi with desc := insert w vi.desc })) w).idx = none) :
    sconnLoop rec v (w :: rest) s =
      (rec w (updV s v (fun vi => { vi with desc := insert w vi.desc }))).bind (fun s2 =>
        sconnLoop rec v rest (updV s2 v (fun vi => { vi with low := omin vi.low (getV s2 w).low }))) := by
  simp only [sconnLoop, h]

lemma sconnLoop_cons_some_ons (rec : Nat → TjSt → Option TjSt) (v w : Nat) (rest : List Nat)
    (s : TjSt) (iw : Nat)
    (h : (getV (updV s v (fun vi => { vi with desc := insert w vi.desc })) w).idx = some iw)
    (ho : (getV (updV s v (fun vi => { vi with desc := insert w vi.desc })) w).onstack = true) :
    sconnLoop rec v (w :: rest) s =
      sconnLoop rec v rest
        (updV (updV s v (fun vi => { vi with desc := insert w vi.desc })) v
          (fun vi => { vi with low := omin vi.low (some iw) })) := by
  simp only [sconnLoop, h, ho, if_true]

lemma sconnLoop_cons_some_off (rec : Nat → TjSt → Option TjSt) (v w : Nat) (rest : List Nat)
    (s : TjSt) (iw : Nat)
    (h : (getV (updV s v (fun vi => { vi with desc := insert w vi.desc })) w).idx = some iw)
    (ho : (getV (updV s v (fun vi => { vi with desc := insert w vi.desc })) w).onstack = false) :
    sconnLoop rec v (w :: rest) s =
      sconnLoop rec v rest (updV s v (fun vi => { vi with desc := insert w vi.desc })) := by
  simp only [sconnLoop, h, ho, Bool.false_eq_true, if_false]

lemma idx_none {s : TjSt} {w : Nat} (h : vis s w = false) : (getV s w).idx = none := by
  unfold vis at h
  cases hx : (getV s w).idx with
  | none => rfl
  | some i => rw [hx] at h; simp at h

/-- Total-correctness of the neighbour loop: given the recursion behaves as
`SPost` on every unvisited vertex (depth-limited by `f`), the loop terminates
with `LPost`. -/
lemma sconnLoop_spec (g : Digraph) (hwf : WFG g) (f : Nat)
    (hrec : ∀ v s, TInv g s → v < g.n → vis s v = false → unvisCount g s ≤ f →
      ∃ s', sconn g f v s = some s' ∧ SPost g s v s') :
    ∀ (ws : List Nat) (v : Nat) (s : TjSt), TInv g s → v < g.n → vis s v = true →
      v ∈ s.stack → (∀ x ∈ ws, x ∈ g.row v) → unvisCount g s ≤ f →
      ∃ s', sconnLoop (sconn g f) v ws s = some s' ∧ LPost g v ws s s' := by
  intro ws
  induction ws with
  | nil =>
    intro v s inv hv hvis hstk hws hfuel
    refine ⟨s, rfl, ?_⟩
    refine ⟨inv, fun u _ _ => rfl, rfl, rfl, ?_, le_refl _, min_le_left _ _, ?_, ?_,
      ⟨[], rfl, ?_⟩, ?_, ⟨[], by simp⟩, le_refl _, le_refl _⟩
    · simp
    · intro u _ h0 h4
      rw [h0] at h4
      simp at h4
    · intro u _ h0 h4
      rw [h0] at h4
      simp at h4
    · intro u hu
      simp at hu
    · intro x hxm
      simp at hxm
  | cons w rest ih =>
    intro v s inv hv hvis hstk hws hfuel
    have hwrow : w ∈ g.row v := hws w (List.mem_cons_self _ _)
    have hwlt : w < g.n := hwf.2 v hv w hwrow
    have hrest : ∀ x ∈ rest, x ∈ g.row v := fun x hxm => hws x (List.mem_cons_of_mem _ hxm)
    have hvl : v < s.vin.length := by rw [inv.vlen]; exact hv
    set s1 := updV s v (fun vi => { vi with desc := insert w vi.desc }) with hs1def
    have hg1 : ∀ u, u ≠ v → getV s1 u = getV s u := by
      intro u hu
      rw [hs1def]
      exact getV_updV_ne s v u _ hu
    have hg1v : getV s1 v = { getV s v with desc := insert w (getV s v).desc } := by
      rw [hs1def]
      exact getV_updV_self s v _ hvl
    have hidx1v : (getV s1 v).idx = (getV s v).idx := by rw [hg1v]
    have hlow1v : (getV s1 v).low = (getV s v).low := by rw [hg1v]
    have hons1v : (getV s1 v).onstack = (getV s v).onstack := by rw [hg1v]
    have hdesc1v : (getV s1 v).desc = insert w (getV s v).desc := by rw [hg1v]
    have hvis1 : ∀ u, vis s1 u = vis s u := by
      intro u
      by_cases hu : u = v
      · subst hu; unfold vis; rw [hidx1v]
      · exact vis_of_getV_eq (hg1 u hu)
    have hidx1 : ∀ u, idxD s1 u = idxD s u := by
      intro u
      by_cases hu : u = v
      · subst hu; unfold idxD; rw [hidx1v]
      · exact idxD_of_getV_eq (hg1 u hu)
    have hlow1 : ∀ u, lowD s1 u = lowD s u := by
      intro u
      by_cases hu : u = v
      · subst hu; unfold lowD; rw [hlow1v]
      · exact lowD_of_getV_eq (hg1 u hu)
    have hons1 : ∀ u, (getV s1 u).onstack = (getV s u).onstack := by
      intro u
      by_cases hu : u = v
      · subst hu; exact hons1v
      · rw [hg1 u hu]
    have hidxw1 : (getV s1 w).idx = (getV s w).idx := by
      by_cases hwv : w = v
      · subst hwv; exact hidx1v
      · rw [hg1 w hwv]
    have hstk1 : s1.stack = s.stack := by rw [hs1def, updV_stack]
    have hvx1 : s1.vindex = s.vindex := by rw [hs1def, updV_vindex]
    have hsccs1 : s1.sccs = s.sccs := by rw [hs1def, updV_sccs]
    have hsm1 : stkMin s1 = stkMin s := stkMin_congr s s1 hstk1 hvx1 (fun u _ => hidx1 u)
    have hvis1v : vis s1 v = true := by rw [hvis1]; exact hvis
    have hvstk1 : v ∈ s1.stack := by rw [hstk1]; exact hstk
    have huv1le : unvisCount g s1 ≤ unvisCount g s :=
      unvisCount_le_of_mono g s s1 (fun u _ h => by rw [hvis1]; exact h)
    obtain ⟨lv, hlv⟩ := low_some_of inv hv hvis
    have hlvD : lowD s v = lv := by unfold lowD; rw [hlv]; rfl
    by_cases hwvis : vis s w = true
    · obtain ⟨iw, hiw⟩ := vis_some hwvis
      have hx : (getV s1 w).idx = some iw := by rw [hidxw1]; exact hiw
      have hiwD : idxD s w = iw := by unfold idxD; rw [hiw]; rfl
      by_cases honsS : (getV s w).onstack = true
      · -- w visited and on stack: min the index into the lowlink (gsinks.c:487-491)
        have ho : (getV s1 w).onstack = true := by rw [hons1 w]; exact honsS
        rw [sconnLoop_cons_some_ons (sconn g f) v w rest s iw (by rw [← hs1def]; exact hx)
          (by rw [← hs1def]; exact ho), ← hs1def]
        have hwstk : w ∈ s.stack := (inv.ons_iff w hwlt).1 honsS
        set s2 := updV s1 v (fun vi => { vi with low := omin vi.low (some iw) }) with hs2def
        have hvl1 : v < s1.vin.length := by rw [hs1def, updV_vin_length]; exact hvl
        have hg2 : ∀ u, u ≠ v → getV s2 u = getV s u := by
          intro u hu
          rw [hs2def, getV_updV_ne s1 v u _ hu]
          exact hg1 u hu
        have hg2v : getV s2 v = { getV s1 v with low := omin (getV s1 v).low (some iw) } := by
          rw [hs2def]
          exact getV_updV_self s1 v _ hvl1
        have hidx2v : (getV s2 v).idx = (getV s v).idx := by rw [hg2v]; exact hidx1v
        have hons2v : (getV s2 v).onstack = (getV s v).onstack := by rw [hg2v]; exact hons1v
        have hdesc2v : (getV s2 v).desc = insert w (getV s v).desc := by rw [hg2v]; exact hdesc1v
        have hlow2v : lowD s2 v = min lv iw := by
          unfold lowD
          rw [hg2v]
          show (omin (getV s1 v).low (some iw)).getD 0 = min lv iw
          rw [hlow1v, hlv]
          rfl
        have hvis2 : ∀ u, vis s2 u = vis s u := by
          intro u
          by_cases hu : u = v
          · subst hu; unfold vis; rw [hidx2v]
          · exact vis_of_getV_eq (hg2 u hu)
        have hidx2 : ∀ u, idxD s2 u = idxD s u := by
          intro u
          by_cases hu : u = v
          · subst hu; unfold idxD; rw [hidx2v]
          · exact idxD_of_getV_eq (hg2 u hu)
        have hstk2 : s2.stack = s.stack := by rw [hs2def, updV_stack, hstk1]
        have hvx2 : s2.vindex = s.vindex := by rw [hs2def, updV_vindex, hvx1]
        have hsccs2 : s2.sccs = s.sccs := by rw [hs2def, updV_sccs, hsccs1]
        have hsm2 : stkMin s2 = stkMin s := stkMin_congr s s2 hstk2 hvx2 (fun u _ => hidx2 u)
        have huv2le : unvisCount g s2 ≤ unvisCount g s :=
          unvisCount_le_of_mono g s s2 (fun u _ h => by rw [hvis2]; exact h)
        have hinvL : TInv g (updV s v (fun vi => { vi with low := omin vi.low (some iw) })) :=
          TInv_updV_low g s v (some iw) inv hv hvis
        have hgLv : getV (updV s v (fun vi => { vi with low := omin vi.low (some iw) })) v
            = { getV s v with low := omin (getV s v).low (some iw) } :=
          getV_updV_self s v _ hvl
        have hvisLv : vis (updV s v (fun vi => { vi with low := omin vi.low (some iw) })) v
            = true := by
          unfold vis
          rw [hgLv]
          exact hvis
        have hdisj3 : lowD (updV s v (fun vi => { vi with low := omin vi.low (some iw) })) v
            ≤ idxD (updV s v (fun vi => { vi with low := omin vi.low (some iw) })) w := by
          have h1 : lowD (updV s v (fun vi => { vi with low := omin vi.low (some iw) })) v
              = min lv iw := by
            unfold lowD
            rw [hgLv]
            show (omin (getV s v).low (some iw)).getD 0 = min lv iw
            rw [hlv]
            rfl
          have h2 : idxD (updV s v (fun vi => { vi with low := omin vi.low (some iw) })) w
              = iw := by
            by_cases hwv : w = v
            · subst hwv
              unfold idxD
              rw [hgLv]
              show (getV s w).idx.getD 0 = iw
              rw [hiw]
              rfl
            · unfold idxD
              rw [getV_updV_ne s v w _ hwv, hiw]
              rfl
          rw [h1, h2]
          exact min_le_right _ _
        have hswap : s2 = updV (updV s v (fun vi => { vi with low := omin vi.low (some iw) })) v
            (fun vi => { vi with desc := insert w vi.desc }) := by
          rw [hs2def, hs1def, updV_updV s v _ _ hvl, updV_updV s v _ _ hvl]
        have hinv2 : TInv g s2 := by
          rw [hswap]
          exact TInv_updV_desc g _ v w hinvL hv hvisLv hwrow (Or.inr (Or.inr (Or.inl hdisj3)))
        obtain ⟨s4, heq4, lp⟩ := ih v s2 hinv2 hv (by rw [hvis2]; exact hvis)
          (by rw [hstk2]; exact hstk) hrest (le_trans huv2le hfuel)
        refine ⟨s4, heq4, ?_⟩
        have hiwge : stkMin s ≤ iw := by
          rw [← hiwD]
          exact stkMin_le_idx s w hwstk
        refine ⟨lp.inv, ?_, ?_, ?_, ?_, ?_, ?_, ?_, ?_, ?_, ?_, ?_, ?_, ?_⟩
        · intro u huv hu
          rw [lp.frozen u huv (by rw [hvis2]; exact hu)]
          exact hg2 u huv
        · rw [lp.idxv]
          exact hidx2v
        · rw [lp.onsv]
          exact hons2v
        · rw [lp.descv, hdesc2v, List.toFinset_cons, Finset.insert_union, Finset.union_insert]
        · refine le_trans lp.lowv_le ?_
          rw [hlow2v, hlvD]
          exact min_le_left _ _
        · refine le_trans ?_ lp.lowv_ge
          rw [hlow2v, hsm2, hlvD]
          exact le_min (le_min (min_le_left _ _) (le_trans (min_le_right _ _) hiwge))
            (min_le_right _ _)
        · intro u hu h0 h4
          have h9 := lp.newidx u hu (by rw [hvis2]; exact h0) h4
          rw [← hvx2]
          exact h9
        · intro u hu h0 h4
          have h9 := lp.newlow u hu (by rw [hvis2]; exact h0) h4
          rw [← hsm2]
          exact h9
        · obtain ⟨N, hN, hNc⟩ := lp.stk
          refine ⟨N, by rw [hN, hstk2], ?_⟩
          intro u hu
          obtain ⟨c1, c2, c3, c4, c5, c6⟩ := hNc u hu
          exact ⟨by rw [← hvis2]; exact c1, c2, c3, c4, c5, c6⟩
        · intro x hxm
          rcases List.mem_cons.1 hxm with h | h
          · subst h
            exact lp.visMono _ (by rw [hvis2]; exact hwvis)
          · exact lp.proc x h
        · obtain ⟨L, hL⟩ := lp.sccs_ext
          exact ⟨L, by rw [hL, hsccs2]⟩
        · calc s.vindex = s2.vindex := hvx2.symm
            _ ≤ s4.vindex := lp.vix_mono
        · exact le_trans lp.unvis_mono huv2le
      · -- w visited, not on stack: already in a completed SCC, skip (gsinks.c:487)
        have honsF : (getV s w).onstack = false := by
          cases hb : (getV s w).onstack with
          | false => rfl
          | true => exact absurd hb honsS
        have ho : (getV s1 w).onstack = false := by rw [hons1 w]; exact honsF
        rw [sconnLoop_cons_some_off (sconn g f) v w rest s iw (by rw [← hs1def]; exact hx)
          (by rw [← hs1def]; exact ho), ← hs1def]
        have hwscc : w ∈ sccUnion s := by
          rcases inv.part w hwlt hwvis with h | h
          · have h1 := (inv.ons_iff w hwlt).2 h
            rw [honsF] at h1
            simp at h1
          · exact h
        have hinv1 : TInv g s1 := by
          rw [hs1def]
          exact TInv_updV_desc g s v w inv hv hvis hwrow (Or.inr (Or.inl hwscc))
        obtain ⟨s4, heq4, lp⟩ := ih v s1 hinv1 hv hvis1v hvstk1 hrest (le_trans huv1le hfuel)
        refine ⟨s4, heq4, ?_⟩
        refine ⟨lp.inv, ?_, ?_, ?_, ?_, ?_, ?_, ?_, ?_, ?_, ?_, ?_, ?_, ?_⟩
        · intro u huv hu
          rw [lp.frozen u huv (by rw [hvis1]; exact hu)]
          exact hg1 u huv
        · rw [lp.idxv]
          exact hidx1v
        · rw [lp.onsv]
          exact hons1v
        · rw [lp.descv, hdesc1v, List.toFinset_cons, Finset.insert_union, Finset.union_insert]
        · refine le_trans lp.lowv_le ?_
          rw [hlow1 v]
        · refine le_trans ?_ lp.lowv_ge
          rw [hlow1 v, hsm1]
        · intro u hu h0 h4
          have h9 := lp.newidx u hu (by rw [hvis1]; exact h0) h4
          rw [← hvx1]
          exact h9
        · intro u hu h0 h4
          have h9 := lp.newlow u hu (by rw [hvis1]; exact h0) h4
          rw [← hsm1]
          exact h9
        · obtain ⟨N, hN, hNc⟩ := lp.stk
          refine ⟨N, by rw [hN, hstk1], ?_⟩
          intro u hu
          obtain ⟨c1, c2, c3, c4, c5, c6⟩ := hNc u hu
          exact ⟨by rw [← hvis1]; exact c1, c2, c3, c4, c5, c6⟩
        · intro x hxm
          rcases List.mem_cons.1 hxm with h | h
          · subst h
            exact lp.visMono _ (by rw [hvis1]; exact hwvis)
          · exact lp.proc x h
        · obtain ⟨L, hL⟩ := lp.sccs_ext
          exact ⟨L, by rw [hL, hsccs1]⟩
        · calc s.vindex = s1.vindex := hvx1.symm
            _ ≤ s4.vindex := lp.vix_mono
        · exact le_trans lp.unvis_mono huv1le
    · -- w unvisited: recursive strongconnect call (gsinks.c:477-484)
      have hwvisF : vis s w = false := by
        cases hb : vis s w with
        | false => rfl
        | true => exact absurd hb hwvis
      have hx : (getV s1 w).idx = none := by rw [hidxw1]; exact idx_none hwvisF
      rw [sconnLoop_cons_none (sconn g f) v w rest s (by rw [← hs1def]; exact hx), ← hs1def]
      have hinv1 : TInv g s1 := by
        rw [hs1def]
        exact TInv_updV_desc g s v w inv hv hvis hwrow (Or.inl hwvisF)
      have hvisw1 : vis s1 w = false := by rw [hvis1]; exact hwvisF
      obtain ⟨s2, hseq, sp⟩ := hrec w s1 hinv1 hwlt hvisw1 (le_trans huv1le hfuel)
      have hg2v : getV s2 v = getV s1 v := sp.frozen v hvis1v
      have hvis2v : vis s2 v = true := sp.vis_mono v hvis1v
      obtain ⟨lw, hlw⟩ := low_some_of sp.inv hwlt sp.visv
      have hlwD : lowD s2 w = lw := by unfold lowD; rw [hlw]; rfl
      obtain ⟨N2, hN2, hN2c⟩ := sp.stk
      have hstk2 : s2.stack = N2 ++ s.stack := by rw [hN2, hstk1]
      set s3 := updV s2 v (fun vi => { vi with low := omin vi.low (getV s2 w).low }) with hs3def
      have hvl2 : v < s2.vin.length := by rw [sp.inv.vlen]; exact hv
      have hinv3 : TInv g s3 := by
        rw [hs3def]
        exact TInv_updV_low g s2 v _ sp.inv hv hvis2v
      have hg3 : ∀ u, u ≠ v → getV s3 u = getV s2 u := by
        intro u hu
        rw [hs3def]
        exact getV_updV_ne s2 v u _ hu
      have hg3v : getV s3 v = { getV s2 v with low := omin (getV s2 v).low (getV s2 w).low } := by
        rw [hs3def]
        exact getV_updV_self s2 v _ hvl2
      have hidx32v : (getV s3 v).idx = (getV s2 v).idx := by rw [hg3v]
      have hidx3v : (getV s3 v).idx = (getV s v).idx := by
        rw [hg3v, hg2v]
        exact hidx1v
      have hons3v : (getV s3 v).onstack = (getV s v).onstack := by
        rw [hg3v, hg2v]
        exact hons1v
      have hdesc3v : (getV s3 v).desc = insert w (getV s v).desc := by
        rw [hg3v, hg2v]
        exact hdesc1v
      have hlow2vSome : (getV s2 v).low = some lv := by
        rw [hg2v, hlow1v]
        exact hlv
      have hlow3v : lowD s3 v = min lv lw := by
        unfold lowD
        rw [hg3v]
        show (omin (getV s2 v).low (getV s2 w).low).getD 0 = min lv lw
        rw [hlow2vSome, hlw]
        rfl
      have hvis3 : ∀ u, vis s3 u = vis s2 u := by
        intro u
        by_cases hu : u = v
        · subst hu; unfold vis; rw [hidx32v]
        · exact vis_of_getV_eq (hg3 u hu)
      have hidx3 : ∀ u, idxD s3 u = idxD s2 u := by
        intro u
        by_cases hu : u = v
        · subst hu; unfold idxD; rw [hidx32v]
        · exact idxD_of_getV_eq (hg3 u hu)
      have hstk3 : s3.stack = s2.stack := by rw [hs3def, updV_stack]
      have hvx3 : s3.vindex = s2.vindex := by rw [hs3def, updV_vindex]
      have hsccs3 : s3.sccs = s2.sccs := by rw [hs3def, updV_sccs]
      have hvis3v : vis s3 v = true := by rw [hvis3]; exact hvis2v
      have hvstk3 : v ∈ s3.stack := by
        rw [hstk3, hstk2]
        exact List.mem_append.2 (Or.inr hstk)
      have huv3 : unvisCount g s3 ≤ unvisCount g s2 :=
        unvisCount_le_of_mono g s2 s3 (fun u _ h => by rw [hvis3]; exact h)
      have hfuel3 : unvisCount g s3 ≤ f := by
        have e1 := huv1le
        have e2 := sp.unvis_lt
        omega
      have hvmono13 : ∀ u, vis s1 u = true → vis s3 u = true := fun u h => by
        rw [hvis3]
        exact sp.vis_mono u h
      have hvmono03 : ∀ u, vis s u = true → vis s3 u = true := fun u h =>
        hvmono13 u (by rw [hvis1]; exact h)
      have hsm3ge : stkMin s ≤ stkMin s3 := by
        refine stkMin_ge s s3 N2 (by rw [hstk3, hstk2]) ?_ ?_ ?_
        · rw [hvx3]
          have e1 := hvx1
          have e2 := sp.vix_lt
          omega
        · intro u hu
          by_cases huv : u = v
          · subst huv
            unfold idxD
            rw [hidx3v]
          · have hvu : vis s1 u = true := by rw [hvis1]; exact inv.stk_vis u hu
            rw [hidx3 u, idxD_of_getV_eq (sp.frozen u hvu), hidx1 u]
        · intro u hu
          obtain ⟨c1, c2, c3, c4, c5, c6⟩ := hN2c u hu
          have hustk2 : u ∈ s2.stack := by
            rw [hN2]
            exact List.mem_append.2 (Or.inl hu)
          have hu2vis : vis s2 u = true := sp.inv.stk_vis u hustk2
          have h7 := sp.newidx u c2 c1 hu2vis
          calc stkMin s ≤ s.vindex := stkMin_le_vindex s
            _ = s1.vindex := hvx1.symm
            _ ≤ idxD s2 u := h7
            _ = idxD s3 u := (hidx3 u).symm
      obtain ⟨s4, heq4, lp⟩ := ih v s3 hinv3 hv hvis3v hvstk3 hrest hfuel3
      refine ⟨s4, ?_, ?_⟩
      · rw [hseq]
        exact heq4
      refine ⟨lp.inv, ?_, ?_, ?_, ?_, ?_, ?_, ?_, ?_, ?_, ?_, ?_, ?_, ?_⟩
      · intro u huv hu
        have h1 : vis s1 u = true := by rw [hvis1]; exact hu
        have h2 : vis s3 u = true := hvmono13 u h1
        rw [lp.frozen u huv h2, hg3 u huv, sp.frozen u h1]
        exact hg1 u huv
      · rw [lp.idxv]
        exact hidx3v
      · rw [lp.onsv]
        exact hons3v
      · rw [lp.descv, hdesc3v, List.toFinset_cons, Finset.insert_union, Finset.union_insert]
      · refine le_trans lp.lowv_le ?_
        rw [hlow3v, hlvD]
        exact min_le_left _ _
      · have hlwge : stkMin s ≤ lw := by
          rw [← hlwD, ← hsm1]
          exact sp.newlow w hwlt hvisw1 sp.visv
        refine le_trans ?_ lp.lowv_ge
        rw [hlow3v, hlvD]
        exact le_min (le_min (min_le_left _ _) (le_trans (min_le_right _ _) hlwge))
          (le_trans (min_le_right _ _) hsm3ge)
      · intro u hu h0 h4
        rcases Bool.eq_false_or_eq_true (vis s2 u) with h2 | h2
        · have h1 : vis s1 u = false := by rw [hvis1]; exact h0
          have h7 := sp.newidx u hu h1 h2
          have hne : u ≠ v := by
            intro he
            rw [he, hvis] at h0
            simp at h0
          have h8 : getV s4 u = getV s2 u := by
            rw [lp.frozen u hne (by rw [hvis3]; exact h2), hg3 u hne]
          rw [idxD_of_getV_eq h8]
          calc s.vindex = s1.vindex := hvx1.symm
            _ ≤ idxD s2 u := h7
        · have h3 : vis s3 u = false := by rw [hvis3]; exact h2
          have h5 := lp.newidx u hu h3 h4
          have h6 : s.vindex ≤ s3.vindex := by
            rw [hvx3]
            have e1 := hvx1
            have e2 := sp.vix_lt
            omega
          exact le_trans h6 h5
      · intro u hu h0 h4
        rcases Bool.eq_false_or_eq_true (vis s2 u) with h2 | h2
        · have h1 : vis s1 u = false := by rw [hvis1]; exact h0
          have h7 := sp.newlow u hu h1 h2
          have hne : u ≠ v := by
            intro he
            rw [he, hvis] at h0
            simp at h0
          have h8 : getV s4 u = getV s2 u := by
            rw [lp.frozen u hne (by rw [hvis3]; exact h2), hg3 u hne]
          rw [lowD_of_getV_eq h8, ← hsm1]
          exact h7
        · have h3 : vis s3 u = false := by rw [hvis3]; exact h2
          exact le_trans hsm3ge (lp.newlow u hu h3 h4)
      · obtain ⟨N4, hN4, hN4c⟩ := lp.stk
        refine ⟨N4 ++ N2, ?_, ?_⟩
        · rw [hN4, hstk3, hstk2, List.append_assoc]
        · intro u hu
          rcases List.mem_append.1 hu with h | h
          · obtain ⟨c1, c2, c3, c4, c5, c6⟩ := hN4c u h
            refine ⟨?_, c2, c3, c4, c5, c6⟩
            rcases Bool.eq_false_or_eq_true (vis s u) with h0 | h0
            · have h9 := hvmono03 u h0
              rw [h9] at c1
              simp at c1
            · exact h0
          · obtain ⟨c1, c2, c3, c4, c5, c6⟩ := hN2c u h
            have hustk2 : u ∈ s2.stack := by
              rw [hN2]
              exact List.mem_append.2 (Or.inl h)
            have hu2vis : vis s2 u = true := sp.inv.stk_vis u hustk2
            have hne : u ≠ v := by
              intro he
              rw [he, hvis1v] at c1
              simp at c1
            have h8 : getV s4 u = getV s2 u := by
              rw [lp.frozen u hne (by rw [hvis3]; exact hu2vis), hg3 u hne]
            refine ⟨by rw [← hvis1]; exact c1, c2, c3, ?_, ?_, ?_⟩
            · rw [h8]
              exact c4
            · intro x hxm
              exact lp.visMono x (by rw [hvis3]; exact c5 x hxm)
            · rw [lowD_of_getV_eq h8]
              refine le_trans ?_ c6
              rw [hlwD]
              exact le_trans lp.lowv_le (by rw [hlow3v]; exact min_le_right _ _)
      · intro x hxm
        rcases List.mem_cons.1 hxm with h | h
        · subst h
          exact lp.visMono _ (by rw [hvis3]; exact sp.visv)
        · exact lp.proc x h
      · obtain ⟨L2, hL2⟩ := sp.sccs_ext
        obtain ⟨L4, hL4⟩ := lp.sccs_ext
        refine ⟨L2 ++ L4, ?_⟩
        rw [hL4, hsccs3, hL2, hsccs1, List.append_assoc]
      · have e1 := hvx1
        have e2 := sp.vix_lt
        have e3 := hvx3
        have e4 := lp.vix_mono
        omega
      · have e1 := huv1le
        have e2 := sp.unvis_lt
        have e3 := huv3
        have e4 := lp.unvis_mono
        omega

/-- The entry bookkeeping of `strongconnect` (gsinks.c:462-470): assign index
and lowlink, mark on-stack, push. -/
def pushSt (s : TjSt) (v : Nat) : TjSt :=
  { s with
    vin := s.vin.set v { getV s v with idx := some s.vindex, low := some s.vindex, onstack := true },
    stack := v :: s.stack,
    vindex := s.vindex + 1 }

lemma sconn_succ (g : Digraph) (f v : Nat) (s : TjSt) :
    sconn g (f + 1) v s =
      (sconnLoop (sconn g f) v (nbrList g v) (pushSt s v)).map (fun s2 =>
        if (getV s2 v).low = (getV s2 v).idx then closeScc v s2 else s2) := rfl

lemma getD_set_ne (l : List VInfo) (v u : Nat) (a : VInfo) (h : u ≠ v) :
    (l.set v a).getD u default = l.getD u default := by
  simp only [List.getD_eq_getElem?_getD]
  rw [List.getElem?_set_ne (fun hh => h hh.symm)]

lemma getV_push_self (s : TjSt) (v : Nat) (h : v < s.vin.length) :
    getV (pushSt s v) v
      = { getV s v with idx := some s.vindex, low := some s.vindex, onstack := true } :=
  getD_set_self s.vin v _ h

lemma getV_push_ne (s : TjSt) (v u : Nat) (h : u ≠ v) : getV (pushSt s v) u = getV s u :=
  getD_set_ne s.vin v u _ h

lemma pushSt_stack (s : TjSt) (v : Nat) : (pushSt s v).stack = v :: s.stack := rfl

lemma pushSt_sccs (s : TjSt) (v : Nat) : (pushSt s v).sccs = s.sccs := rfl

lemma pushSt_vindex (s : TjSt) (v : Nat) : (pushSt s v).vindex = s.vindex + 1 := rfl

lemma pushSt_isFirst (s : TjSt) (v : Nat) : (pushSt s v).isFirst = s.isFirst := rfl

lemma pushSt_vin_length (s : TjSt) (v : Nat) : (pushSt s v).vin.length = s.vin.length := by
  unfold pushSt
  simp

lemma foldr_min_base (f : Nat → Nat) (b : Nat) : ∀ l : List Nat,
    min b (l.foldr (fun u a => min (f u) a) (b + 1)) = l.foldr (fun u a => min (f u) a) b := by
  intro l
  induction l with
  | nil => exact min_eq_left (Nat.le_succ b)
  | cons u rest ih =>
    rw [List.foldr_cons, List.foldr_cons, ← ih, min_left_comm]

lemma stkMin_push (s : TjSt) (v : Nat) (hvl : v < s.vin.length) (hvstk : v ∉ s.stack) :
    stkMin (pushSt s v) = stkMin s := by
  unfold stkMin
  show (v :: s.stack).foldr (fun u a => min (idxD (pushSt s v) u) a) (s.vindex + 1)
    = s.stack.foldr (fun u a => min (idxD s u) a) s.vindex
  rw [List.foldr_cons]
  have hidxv : idxD (pushSt s v) v = s.vindex := by
    unfold idxD
    rw [getV_push_self s v hvl]
    rfl
  have hcong : ∀ l : List Nat, (∀ u ∈ l, u ≠ v) →
      l.foldr (fun u a => min (idxD (pushSt s v) u) a) (s.vindex + 1)
        = l.foldr (fun u a => min (idxD s u) a) (s.vindex + 1) := by
    intro l
    induction l with
    | nil => intro _; rfl
    | cons u rest ih =>
      intro hl
      rw [List.foldr_cons, List.foldr_cons, ih (fun x hx => hl x (List.mem_cons_of_mem _ hx)),
        idxD_of_getV_eq (getV_push_ne s v u (hl u (List.mem_cons_self _ _)))]
  rw [hidxv, hcong s.stack (fun u hu => fun he => hvstk (he ▸ hu)),
    foldr_min_base (idxD s) s.vindex s.stack]

/-- Preservation of the decomposer invariant under the entry bookkeeping of
`strongconnect` on an unvisited vertex. -/
lemma TInv_push (g : Digraph) (s : TjSt) (v : Nat)
    (inv : TInv g s) (hv : v < g.n) (hvis : vis s v = false) : TInv g (pushSt s v) := by
  have hvl : v < s.vin.length := by rw [inv.vlen]; exact hv
  have hclean : getV s v = ⟨none, none, false, ∅⟩ := inv.unvis_clean v hv hvis
  have hgv : getV (pushSt s v) v = ⟨some s.vindex, some s.vindex, true, ∅⟩ := by
    rw [getV_push_self s v hvl, hclean]
  have hg : ∀ u, u ≠ v → getV (pushSt s v) u = getV s u := fun u hu => getV_push_ne s v u hu
  have hvnotstk : v ∉ s.stack := by
    intro h
    have h1 := inv.stk_vis v h
    rw [hvis] at h1
    simp at h1
  have hvnotscc : ∀ sc ∈ s.sccs, v ∉ sc.verts := by
    intro sc hsc h
    have h1 := inv.scc_vis sc hsc v h
    rw [hvis] at h1
    simp at h1
  have hvis' : ∀ u, u ≠ v → vis (pushSt s v) u = vis s u := fun u hu => vis_of_getV_eq (hg u hu)
  have hvisv : vis (pushSt s v) v = true := by
    unfold vis
    rw [hgv]
    rfl
  have hidx' : ∀ u, u ≠ v → idxD (pushSt s v) u = idxD s u := fun u hu => idxD_of_getV_eq (hg u hu)
  have hlow' : ∀ u, u ≠ v → lowD (pushSt s v) u = lowD s u := fun u hu => lowD_of_getV_eq (hg u hu)
  have hidxv : idxD (pushSt s v) v = s.vindex := by
    unfold idxD
    rw [hgv]
    rfl
  have hlowv : lowD (pushSt s v) v = s.vindex := by
    unfold lowD
    rw [hgv]
    rfl
  have hsu : ∀ x, x ∈ sccUnion (pushSt s v) ↔ x ∈ sccUnion s := by
    intro x
    rw [mem_sccUnion, mem_sccUnion]
    exact Iff.rfl
  refine ⟨?_, ?_, ?_, ?_, ?_, ?_, ?_, ?_, ?_, ?_, ?_, ?_, ?_, ?_, ?_, ?_, ?_, ?_, ?_, ?_, ?_, ?_, ?_⟩
  · show (s.vin.set v _).length = g.n
    rw [List.length_set]
    exact inv.vlen
  · intro u hu
    rcases List.mem_cons.1 hu with h | h
    · subst h; exact hv
    · exact inv.stk_lt u h
  · exact List.nodup_cons.2 ⟨hvnotstk, inv.stk_nodup⟩
  · intro u hu
    by_cases huv : u = v
    · subst huv
      rw [hgv]
      simp [pushSt_stack]
    · rw [show getV (pushSt s v) u = getV s u from hg u huv, pushSt_stack, List.mem_cons]
      rw [inv.ons_iff u hu]
      constructor
      · intro h; exact Or.inr h
      · rintro (h | h)
        · exact absurd h huv
        · exact h
  · intro u hu
    rcases List.mem_cons.1 hu with h | h
    · subst h; exact hvisv
    · by_cases huv : u = v
      · subst huv; exact hvisv
      · rw [hvis' u huv]; exact inv.stk_vis u h
  · exact inv.scc_lt
  · intro sc hsc u hu
    have huv : u ≠ v := fun he => hvnotscc sc hsc (he ▸ hu)
    rw [hvis' u huv]
    exact inv.scc_vis sc hsc u hu
  · intro sc hsc u hu
    have huv : u ≠ v := fun he => hvnotscc sc hsc (he ▸ hu)
    rw [pushSt_stack, List.mem_cons]
    rintro (h | h)
    · exact huv h
    · exact inv.scc_stk sc hsc u hu h
  · exact inv.scc_ne
  · exact inv.scc_size
  · exact inv.scc_disj
  · intro u hu hvisu
    by_cases huv : u = v
    · subst huv
      left
      rw [pushSt_stack]
      exact List.mem_cons_self _ _
    · rw [hvis' u huv] at hvisu
      rcases inv.part u hu hvisu with h | h
      · left
        rw [pushSt_stack]
        exact List.mem_cons_of_mem _ h
      · right
        rw [hsu]
        exact h
  · intro u hu hvisu
    rw [pushSt_vindex]
    by_cases huv : u = v
    · subst huv
      rw [hidxv]
      omega
    · rw [hvis' u huv] at hvisu
      rw [hidx' u huv]
      have := inv.idx_lt u hu hvisu
      omega
  · intro u hu hvisu
    by_cases huv : u = v
    · subst huv
      rw [hidxv, hlowv]
    · rw [hvis' u huv] at hvisu
      rw [hidx' u huv, hlow' u huv]
      exact inv.low_le u hu hvisu
  · intro u hu hvisu
    by_cases huv : u = v
    · subst huv
      rw [hgv]
      rfl
    · rw [hvis' u huv] at hvisu
      rw [hg u huv]
      exact inv.low_some u hu hvisu
  · rw [pushSt_stack]
    refine List.pairwise_cons.2 ⟨?_, ?_⟩
    · intro u hu
      have huv : u ≠ v := fun he => hvnotstk (he ▸ hu)
      rw [hidx' u huv, hidxv]
      exact inv.idx_lt u (inv.stk_lt u hu) (inv.stk_vis u hu)
    · refine List.Pairwise.imp_of_mem ?_ inv.stk_sorted
      intro a b ha hb hab
      have hav : a ≠ v := fun he => hvnotstk (he ▸ ha)
      have hbv : b ≠ v := fun he => hvnotstk (he ▸ hb)
      rw [hidx' a hav, hidx' b hbv]
      exact hab
  · exact inv.first_iff
  · intro u hu hvisu
    have huv : u ≠ v := by
      intro he
      rw [he, hvisv] at hvisu
      simp at hvisu
    rw [hg u huv]
    exact inv.unvis_clean u hu (by rw [← hvis' u huv]; exact hvisu)
  · intro u hu
    by_cases huv : u = v
    · subst huv
      rw [hgv]
      exact Finset.empty_subset _
    · rw [hg u huv]
      exact inv.desc_sub u hu
  · intro w hw hvisw u hu
    by_cases hwv : w = v
    · subst hwv
      rw [hgv] at hu
      simp at hu
    · rw [hg w hwv] at hu
      have hvisw' : vis s w = true := by rw [← hvis' w hwv]; exact hvisw
      by_cases huv : u = v
      · subst huv
        right; right; right
        rw [hidx' w hwv, hidxv]
        exact inv.idx_lt w hw hvisw'
      · rcases inv.lowedge w hw hvisw' u hu with h | h | h | h
        · left
          rw [hvis' u huv]
          exact h
        · right; left
          rw [hsu]
          exact h
        · right; right; left
          rw [hlow' w hwv, hidx' u huv]
          exact h
        · right; right; right
          rw [hidx' w hwv, hidx' u huv]
          exact h
  · exact inv.flags
  · exact inv.firstleaf
  · exact inv.emptyrow

lemma foldl_set_length : ∀ (P : List Nat) (vl : List VInfo),
    (P.foldl (fun vl w => vl.set w { vl.getD w default with onstack := false }) vl).length
      = vl.length := by
  intro P
  induction P with
  | nil => intro vl; rfl
  | cons w rest ih =>
    intro vl
    rw [List.foldl_cons, ih, List.length_set]

lemma getV_foldl_off : ∀ (P : List Nat) (vl : List VInfo), (∀ w ∈ P, w < vl.length) → ∀ u,
    (P.foldl (fun vl w => vl.set w { vl.getD w default with onstack := false }) vl).getD u default
      = if u ∈ P then { vl.getD u default with onstack := false } else vl.getD u default := by
  intro P
  induction P with
  | nil =>
    intro vl _ u
    simp
  | cons w rest ih =>
    intro vl hb u
    have hwl : w < vl.length := hb w (List.mem_cons_self _ _)
    rw [List.foldl_cons, ih _ (fun x hx => by rw [List.length_set]; exact hb x (List.mem_cons_of_mem _ hx)) u]
    by_cases hur : u ∈ rest
    · rw [if_pos hur, if_pos (List.mem_cons_of_mem _ hur)]
      by_cases huw : u = w
      · subst huw
        rw [getD_set_self vl u _ hwl]
      · rw [getD_set_ne vl w u _ huw]
    · by_cases huw : u = w
      · subst huw
        rw [if_neg hur, if_pos (List.mem_cons_self _ _), getD_set_self vl u _ hwl]
      · rw [if_neg hur, if_neg (by intro h; rcases List.mem_cons.1 h with h1 | h1; exact huw h1; exact hur h1),
          getD_set_ne vl w u _ huw]

lemma foldl_insert_eq_toFinset (P : List Nat) :
    P.foldl (fun a w => insert w a) ∅ = P.toFinset := by
  ext x
  rw [foldl_insert_mem]
  simp

lemma mem_nbrList {g : Digraph} {v x : Nat} : x ∈ nbrList g v ↔ x < g.n ∧ x ∈ g.row v := by
  unfold nbrList
  rw [List.mem_filter]
  simp [List.mem_range]

lemma nbrList_toFinset (g : Digraph) (hwf : WFG g) (v : Nat) (hv : v < g.n) :
    (nbrList g v).toFinset = g.row v := by
  ext x
  rw [List.mem_toFinset, mem_nbrList]
  constructor
  · rintro ⟨_, h⟩
    exact h
  · intro h
    exact ⟨hwf.2 v hv x h, h⟩

lemma closeScc_eq (v : Nat) (s2 : TjSt) (N S : List Nat)
    (hstk : s2.stack = N ++ v :: S) (hvN : v ∉ N) :
    closeScc v s2 =
      { vin := (N ++ [v]).foldl (fun vl w => vl.set w { vl.getD w default with onstack := false })
          s2.vin,
        stack := S,
        sccs := s2.sccs ++ [⟨(N ++ [v]).foldl (fun a w => insert w a) ∅,
          s2.isFirst ||
            decide ((N ++ [v]).foldl (fun a w => insert w a ∪ (getV s2 w).desc) ∅ \
              (N ++ [v]).foldl (fun a w => insert w a) ∅ = ∅),
          (N ++ [v]).length⟩],
        isFirst := false,
        vindex := s2.vindex } := by
  unfold closeScc
  rw [hstk, popTo_spec v N S hvN]

/-- Preservation of the decomposer invariant under the root pop of
`strongconnect` (gsinks.c:496-522): the run above the root with the root form
one new SCC record, everything popped is unmarked, and the leaf flag matches
the `SETDIFF` test (or the `isFirstSCC` special case). -/
lemma TInv_close (g : Digraph) (hwf : WFG g) (s2 : TjSt) (v iv : Nat) (N S : List Nat)
    (inv : TInv g s2)
    (hv : v < g.n)
    (hstk : s2.stack = N ++ v :: S)
    (hvN : v ∉ N)
    (hidxv : (getV s2 v).idx = some iv)
    (hlowv : (getV s2 v).low = some iv)
    (hdesc : ∀ u ∈ N ++ [v], (getV s2 u).desc = g.row u)
    (hrows : ∀ u ∈ N ++ [v], ∀ x ∈ g.row u, vis s2 x = true)
    (hrowne : ∀ u ∈ N, g.row u ≠ ∅)
    (hlowge : ∀ u ∈ N ++ [v], iv ≤ lowD s2 u)
    (hrowv0 : g.row v = ∅ → N = [])
    (t : TjSt)
    (ht : t =
      { vin := (N ++ [v]).foldl (fun vl w => vl.set w { vl.getD w default with onstack := false })
          s2.vin,
        stack := S,
        sccs := s2.sccs ++ [⟨(N ++ [v]).foldl (fun a w => insert w a) ∅,
          s2.isFirst ||
            decide ((N ++ [v]).foldl (fun a w => insert w a ∪ (getV s2 w).desc) ∅ \
              (N ++ [v]).foldl (fun a w => insert w a) ∅ = ∅),
          (N ++ [v]).length⟩],
        isFirst := false,
        vindex := s2.vindex }) :
    TInv g t := by
  set verts : Finset Nat := (N ++ [v]).foldl (fun a w => insert w a) ∅ with hverts_def
  set descAll : Finset Nat := (N ++ [v]).foldl (fun a w => insert w a ∪ (getV s2 w).desc) ∅ with hdescAll_def
  set leaf := s2.isFirst || decide (descAll \ verts = ∅) with hleaf_def
  set newsc : SccInfo := ⟨verts, leaf, (N ++ [v]).length⟩ with hnewsc_def
  have hvmem : v ∈ N ++ [v] := List.mem_append.2 (Or.inr (List.mem_singleton.2 rfl))
  have hPsub : ∀ u ∈ N ++ [v], u ∈ s2.stack := by
    intro u hu
    rw [hstk]
    rcases List.mem_append.1 hu with h | h
    · exact List.mem_append.2 (Or.inl h)
    · rw [List.mem_singleton.1 h]
      exact List.mem_append.2 (Or.inr (List.mem_cons_self _ _))
  have hSsub : ∀ x ∈ S, x ∈ s2.stack := by
    intro x hx
    rw [hstk]
    exact List.mem_append.2 (Or.inr (List.mem_cons_of_mem _ hx))
  have hPlt : ∀ u ∈ N ++ [v], u < g.n := fun u hu => inv.stk_lt u (hPsub u hu)
  have hPvis : ∀ u ∈ N ++ [v], vis s2 u = true := fun u hu => inv.stk_vis u (hPsub u hu)
  have hb : ∀ w ∈ N ++ [v], w < s2.vin.length := by
    intro w hw
    rw [inv.vlen]
    exact hPlt w hw
  have hnd : (N ++ v :: S).Nodup := by rw [← hstk]; exact inv.stk_nodup
  have hndparts := List.nodup_append.1 hnd
  have hvS : v ∉ S := (List.nodup_cons.1 hndparts.2.1).1
  have hndS : S.Nodup := (List.nodup_cons.1 hndparts.2.1).2
  have hNdisj : ∀ a ∈ N, a ∉ v :: S := fun a ha hb2 => hndparts.2.2 ha hb2
  have hPnodup : (N ++ [v]).Nodup := by
    rw [List.nodup_append]
    refine ⟨hndparts.1, List.nodup_singleton v, ?_⟩
    intro a ha hav
    rw [List.mem_singleton.1 hav] at ha
    exact hvN ha
  have hPnotS : ∀ u ∈ N ++ [v], u ∉ S := by
    intro u hu hus
    rcases List.mem_append.1 hu with h | h
    · exact hNdisj u h (List.mem_cons_of_mem _ hus)
    · rw [List.mem_singleton.1 h] at hus
      exact hvS hus
  have hivD : idxD s2 v = iv := by
    unfold idxD
    rw [hidxv]
    rfl
  have hlowvD : lowD s2 v = iv := by
    unfold lowD
    rw [hlowv]
    rfl
  have hsorted : (N ++ v :: S).Pairwise (fun a b => idxD s2 b < idxD s2 a) := by
    rw [← hstk]
    exact inv.stk_sorted
  have hsortp := List.pairwise_append.1 hsorted
  have hidxNgt : ∀ u ∈ N, iv < idxD s2 u := by
    intro u hu
    have := hsortp.2.2 u hu v (List.mem_cons_self _ _)
    rw [hivD] at this
    exact this
  have hSidx : ∀ x ∈ S, idxD s2 x < iv := by
    intro x hx
    have := (List.pairwise_cons.1 hsortp.2.1).1 x hx
    rw [hivD] at this
    exact this
  have hSsorted : S.Pairwise (fun a b => idxD s2 b < idxD s2 a) :=
    (List.pairwise_cons.1 hsortp.2.1).2
  have hPidxge : ∀ u ∈ N ++ [v], iv ≤ idxD s2 u := by
    intro u hu
    rcases List.mem_append.1 hu with h | h
    · exact le_of_lt (hidxNgt u h)
    · rw [List.mem_singleton.1 h, hivD]
  have hPnotScc : ∀ u ∈ N ++ [v], ∀ sc ∈ s2.sccs, u ∉ sc.verts :=
    fun u hu sc hsc h => inv.scc_stk sc hsc u h (hPsub u hu)
  have hgt : ∀ u, getV t u
      = if u ∈ N ++ [v] then { getV s2 u with onstack := false } else getV s2 u := by
    intro u
    rw [ht]
    exact getV_foldl_off (N ++ [v]) s2.vin hb u
  have hidxs_t : ∀ u, (getV t u).idx = (getV s2 u).idx := by
    intro u
    rw [hgt u]
    by_cases hu : u ∈ N ++ [v]
    · rw [if_pos hu]
    · rw [if_neg hu]
  have hlows_t : ∀ u, (getV t u).low = (getV s2 u).low := by
    intro u
    rw [hgt u]
    by_cases hu : u ∈ N ++ [v]
    · rw [if_pos hu]
    · rw [if_neg hu]
  have hdescs_t : ∀ u, (getV t u).desc = (getV s2 u).desc := by
    intro u
    rw [hgt u]
    by_cases hu : u ∈ N ++ [v]
    · rw [if_pos hu]
    · rw [if_neg hu]
  have hvis_t : ∀ u, vis t u = vis s2 u := by
    intro u
    unfold vis
    rw [hidxs_t u]
  have hidxD_t : ∀ u, idxD t u = idxD s2 u := by
    intro u
    unfold idxD
    rw [hidxs_t u]
  have hlowD_t : ∀ u, lowD t u = lowD s2 u := by
    intro u
    unfold lowD
    rw [hlows_t u]
  have hstk_t : t.stack = S := by rw [ht]
  have hsccs_t : t.sccs = s2.sccs ++ [newsc] := by rw [ht]
  have hisf_t : t.isFirst = false := by rw [ht]
  have hvx_t : t.vindex = s2.vindex := by rw [ht]
  have hmemverts : ∀ x, x ∈ verts ↔ x ∈ N ++ [v] := by
    intro x
    rw [hverts_def, foldl_insert_mem]
    simp
  have hmemdescAll : ∀ x, x ∈ descAll ↔ x ∈ N ++ [v] ∨ ∃ u ∈ N ++ [v], x ∈ (getV s2 u).desc := by
    intro x
    rw [hdescAll_def, foldl_insert_union_mem]
    simp only [Finset.not_mem_empty, false_or]
    constructor
    · rintro ⟨w, hw, h | h⟩
      · subst h
        exact Or.inl hw
      · exact Or.inr ⟨w, hw, h⟩
    · rintro (h | ⟨u, hu, h⟩)
      · exact ⟨x, h, Or.inl rfl⟩
      · exact ⟨u, hu, Or.inr h⟩
  have hsu_t : ∀ x, x ∈ sccUnion t ↔ x ∈ sccUnion s2 ∨ x ∈ verts := by
    intro x
    rw [sccUnion_append t s2.sccs [newsc] hsccs_t x, mem_sccUnion]
    constructor
    · rintro (h | ⟨sc, hsc, hx⟩)
      · exact Or.inl h
      · rw [List.mem_singleton.1 hsc] at hx
        exact Or.inr hx
    · rintro (h | h)
      · exact Or.inl h
      · exact Or.inr ⟨_, List.mem_singleton.2 rfl, h⟩
  have htgt : ∀ u ∈ N ++ [v], ∀ x ∈ g.row u, x ∈ verts ∨ x ∈ sccUnion s2 := by
    intro u hu x hx
    have hxvis := hrows u hu x hx
    have hxlt : x < g.n := hwf.2 u (hPlt u hu) x hx
    rcases inv.part x hxlt hxvis with hxs | hxs
    · rw [hstk] at hxs
      rcases List.mem_append.1 hxs with h1 | h1
      · exact Or.inl ((hmemverts x).2 (List.mem_append.2 (Or.inl h1)))
      · rcases List.mem_cons.1 h1 with h2 | h2
        · subst h2
          exact Or.inl ((hmemverts x).2 hvmem)
        · have hxd : x ∈ (getV s2 u).desc := by
            rw [hdesc u hu]
            exact hx
          rcases inv.lowedge u (hPlt u hu) (hPvis u hu) x hxd with h3 | h3 | h3 | h3
          · rw [hxvis] at h3
            simp at h3
          · exact Or.inr h3
          · exfalso
            have h4 := hlowge u hu
            have h5 := hSidx x h2
            omega
          · exfalso
            have h4 := hPidxge u hu
            have h5 := hSidx x h2
            omega
    · exact Or.inr hxs
  have hiff : (descAll \ verts = ∅) ↔ (verts.biUnion g.row ⊆ verts) := by
    rw [Finset.sdiff_eq_empty_iff_subset]
    constructor
    · intro h x hx
      rw [Finset.mem_biUnion] at hx
      obtain ⟨u, hu, hxu⟩ := hx
      refine h ((hmemdescAll x).2 (Or.inr ⟨u, (hmemverts u).1 hu, ?_⟩))
      rw [hdesc u ((hmemverts u).1 hu)]
      exact hxu
    · intro h x hx
      rcases (hmemdescAll x).1 hx with h1 | ⟨u, hu, h1⟩
      · exact (hmemverts x).2 h1
      · refine h ?_
        rw [Finset.mem_biUnion]
        refine ⟨u, (hmemverts u).2 hu, ?_⟩
        rw [← hdesc u hu]
        exact h1
  refine ⟨?_, ?_, ?_, ?_, ?_, ?_, ?_, ?_, ?_, ?_, ?_, ?_, ?_, ?_, ?_, ?_, ?_, ?_, ?_, ?_, ?_, ?_, ?_⟩
  · rw [ht]
    show ((N ++ [v]).foldl _ s2.vin).length = g.n
    rw [foldl_set_length]
    exact inv.vlen
  · intro u hu
    rw [hstk_t] at hu
    exact inv.stk_lt u (hSsub u hu)
  · rw [hstk_t]
    exact hndS
  · intro u hu
    rw [hgt u, hstk_t]
    by_cases hP : u ∈ N ++ [v]
    · rw [if_pos hP]
      constructor
      · intro h
        simp at h
      · intro h
        exact absurd h (hPnotS u hP)
    · rw [if_neg hP, inv.ons_iff u hu, hstk]
      have hn1 : u ∉ N := fun h => hP (List.mem_append.2 (Or.inl h))
      have hn2 : u ≠ v := fun h => hP (by rw [h]; exact hvmem)
      constructor
      · intro h
        rcases List.mem_append.1 h with h1 | h1
        · exact absurd h1 hn1
        · rcases List.mem_cons.1 h1 with h2 | h2
          · exact absurd h2 hn2
          · exact h2
      · intro h
        exact List.mem_append.2 (Or.inr (List.mem_cons_of_mem _ h))
  · intro u hu
    rw [hstk_t] at hu
    rw [hvis_t u]
    exact inv.stk_vis u (hSsub u hu)
  · intro sc hsc u hu
    rw [hsccs_t] at hsc
    rcases List.mem_append.1 hsc with h | h
    · exact inv.scc_lt sc h u hu
    · rw [List.mem_singleton.1 h] at hu
      exact hPlt u ((hmemverts u).1 hu)
  · intro sc hsc u hu
    rw [hsccs_t] at hsc
    rw [hvis_t u]
    rcases List.mem_append.1 hsc with h | h
    · exact inv.scc_vis sc h u hu
    · rw [List.mem_singleton.1 h] at hu
      exact hPvis u ((hmemverts u).1 hu)
  · intro sc hsc u hu
    rw [hsccs_t] at hsc
    rw [hstk_t]
    rcases List.mem_append.1 hsc with h | h
    · intro hus
      exact inv.scc_stk sc h u hu (hSsub u hus)
    · rw [List.mem_singleton.1 h] at hu
      exact hPnotS u ((hmemverts u).1 hu)
  · intro sc hsc
    rw [hsccs_t] at hsc
    rcases List.mem_append.1 hsc with h | h
    · exact inv.scc_ne sc h
    · rw [List.mem_singleton.1 h]
      exact ⟨v, (hmemverts v).2 hvmem⟩
  · intro sc hsc
    rw [hsccs_t] at hsc
    rcases List.mem_append.1 hsc with h | h
    · exact inv.scc_size sc h
    · rw [List.mem_singleton.1 h]
      show (N ++ [v]).length = verts.card
      rw [hverts_def, foldl_insert_eq_toFinset, List.toFinset_card_of_nodup hPnodup]
  · rw [hsccs_t]
    rw [List.pairwise_append]
    refine ⟨inv.scc_disj, by simp, ?_⟩
    intro a ha b hb2 x hxa hxb
    rw [List.mem_singleton.1 hb2] at hxb
    exact hPnotScc x ((hmemverts x).1 hxb) a ha hxa
  · intro u hu hvisu
    rw [hvis_t u] at hvisu
    rcases inv.part u hu hvisu with h | h
    · rw [hstk] at h
      rcases List.mem_append.1 h with h1 | h1
      · right
        exact (hsu_t u).2 (Or.inr ((hmemverts u).2 (List.mem_append.2 (Or.inl h1))))
      · rcases List.mem_cons.1 h1 with h2 | h2
        · right
          subst h2
          exact (hsu_t u).2 (Or.inr ((hmemverts u).2 hvmem))
        · left
          rw [hstk_t]
          exact h2
    · right
      exact (hsu_t u).2 (Or.inl h)
  · intro u hu hvisu
    rw [hvis_t u] at hvisu
    rw [hidxD_t u, hvx_t]
    exact inv.idx_lt u hu hvisu
  · intro u hu hvisu
    rw [hvis_t u] at hvisu
    rw [hidxD_t u, hlowD_t u]
    exact inv.low_le u hu hvisu
  · intro u hu hvisu
    rw [hvis_t u] at hvisu
    rw [hlows_t u]
    exact inv.low_some u hu hvisu
  · rw [hstk_t]
    refine List.Pairwise.imp ?_ hSsorted
    intro a b hab
    rw [hidxD_t a, hidxD_t b]
    exact hab
  · rw [hisf_t, hsccs_t]
    simp
  · intro u hu hvisu
    rw [hvis_t u] at hvisu
    have hP : u ∉ N ++ [v] := by
      intro h
      rw [hPvis u h] at hvisu
      simp at hvisu
    rw [hgt u, if_neg hP]
    exact inv.unvis_clean u hu hvisu
  · intro u hu
    rw [hdescs_t u]
    exact inv.desc_sub u hu
  · intro w hw hvisw u hu
    rw [hvis_t w] at hvisw
    rw [hdescs_t w] at hu
    rcases inv.lowedge w hw hvisw u hu with h | h | h | h
    · left
      rw [hvis_t u]
      exact h
    · right; left
      exact (hsu_t u).2 (Or.inl h)
    · right; right; left
      rw [hlowD_t w, hidxD_t u]
      exact h
    · right; right; right
      rw [hidxD_t w, hidxD_t u]
      exact h
  · intro i hi
    have hi' : i < (s2.sccs ++ [newsc]).length := by
      rw [← hsccs_t]
      exact hi
    have hget : t.sccs.get ⟨i, hi⟩ = (s2.sccs ++ [newsc]).get ⟨i, hi'⟩ := by
      rw [List.get_of_eq hsccs_t ⟨i, hi⟩]
    rw [hget]
    by_cases hio : i < s2.sccs.length
    · have hgl : (s2.sccs ++ [newsc]).get ⟨i, hi'⟩ = s2.sccs.get ⟨i, hio⟩ := by
        rw [List.get_eq_getElem, List.get_eq_getElem]
        exact List.getElem_append_left hio
      rw [hgl]
      exact inv.flags i hio
    · have hlen : (s2.sccs ++ [newsc]).length = s2.sccs.length + 1 := by simp
      have hieq : i = s2.sccs.length := by omega
      subst hieq
      have hgl : (s2.sccs ++ [newsc]).get ⟨s2.sccs.length, hi'⟩ = newsc := by
        rw [List.get_eq_getElem]
        exact List.getElem_concat_length s2.sccs _ _ rfl _
      rw [hgl]
      show leaf = _
      rw [hleaf_def]
      have h1 : s2.isFirst = (s2.sccs.length == 0) := by
        rw [inv.first_iff]
        have : ∀ l : List SccInfo, l.isEmpty = (l.length == 0) := by
          intro l
          cases l <;> rfl
        exact this s2.sccs
      have h2 : decide (descAll \ verts = ∅)
          = decide (verts.biUnion g.row ⊆ verts) := decide_eq_decide.2 hiff
      rw [h1, h2]
  · intro sc0 hh
    rw [hsccs_t] at hh
    cases hc : s2.sccs with
    | nil =>
      rw [hc] at hh
      simp at hh
      rw [← hh]
      intro x hx
      rw [Finset.mem_biUnion] at hx
      obtain ⟨u, hu, hxu⟩ := hx
      rcases htgt u ((hmemverts u).1 hu) x hxu with h | h
      · exact h
      · exfalso
        obtain ⟨sc, hsc, _⟩ := mem_sccUnion.1 h
        rw [hc] at hsc
        simp at hsc
    | cons y ys =>
      rw [hc] at hh
      have hh2 : sc0 = y := by
        simp at hh
        exact hh.symm
      subst hh2
      exact inv.firstleaf sc0 (by rw [hc]; rfl)
  · intro sc hsc w hw hrow
    rw [hsccs_t] at hsc
    rcases List.mem_append.1 hsc with h | h
    · exact inv.emptyrow sc h w hw hrow
    · rw [List.mem_singleton.1 h] at hw
      rw [List.mem_singleton.1 h]
      have hwP : w ∈ N ++ [v] := (hmemverts w).1 hw
      rcases List.mem_append.1 hwP with h1 | h1
      · exact absurd hrow (hrowne w h1)
      · have hwv : w = v := List.mem_singleton.1 h1
        rw [hwv] at hrow
        rw [hwv]
        have hN0 : N = [] := hrowv0 hrow
        have hdv : (getV s2 v).desc = ∅ := by
          rw [hdesc v hvmem]
          exact hrow
        have hV : verts = {v} := by
          rw [hverts_def, hN0]
          rfl
        have hD : descAll = insert v ∅ ∪ (getV s2 v).desc := by
          rw [hdescAll_def, hN0]
          rfl
        have hleaf1 : leaf = true := by
          rw [hleaf_def, hD, hdv, hV]
          simp
        have hlen1 : (N ++ [v]).length = 1 := by
          rw [hN0]
          rfl
        rw [hnewsc_def, hV, hleaf1, hlen1]

/-- Total correctness of `strongconnect` (gsinks.c:458-523): with fuel at
least the number of unvisited vertices, the call terminates and satisfies
`SPost`. -/
lemma sconn_spec (g : Digraph) (hwf : WFG g) : ∀ (f v : Nat) (s : TjSt),
    TInv g s → v < g.n → vis s v = false → unvisCount g s ≤ f →
    ∃ s', sconn g f v s = some s' ∧ SPost g s v s' := by
  intro f
  induction f with
  | zero =>
    intro v s inv hv hvis hfuel
    exact absurd hfuel (by have h1 := one_le_unvisCount g s v hv hvis; omega)
  | succ f ihf =>
    intro v s inv hv hvis hfuel
    rw [sconn_succ]
    set sp1 := pushSt s v with hsp1def
    have hvl : v < s.vin.length := by rw [inv.vlen]; exact hv
    have hinv1 : TInv g sp1 := TInv_push g s v inv hv hvis
    have hg1v : getV sp1 v
        = { getV s v with idx := some s.vindex, low := some s.vindex, onstack := true } :=
      getV_push_self s v hvl
    have hg1 : ∀ u, u ≠ v → getV sp1 u = getV s u := fun u hu => getV_push_ne s v u hu
    have hidx1v : (getV sp1 v).idx = some s.vindex := by rw [hg1v]
    have hlow1v : (getV sp1 v).low = some s.vindex := by rw [hg1v]
    have hvis1v : vis sp1 v = true := by
      unfold vis
      rw [hidx1v]
      rfl
    have hvis1 : ∀ u, u ≠ v → vis sp1 u = vis s u := fun u hu => vis_of_getV_eq (hg1 u hu)
    have hvismono1 : ∀ u, vis s u = true → vis sp1 u = true := by
      intro u h
      by_cases huv : u = v
      · subst huv; exact hvis1v
      · rw [hvis1 u huv]; exact h
    have hstk1 : sp1.stack = v :: s.stack := by rw [hsp1def, pushSt_stack]
    have hvx1 : sp1.vindex = s.vindex + 1 := by rw [hsp1def, pushSt_vindex]
    have hsccs1 : sp1.sccs = s.sccs := by rw [hsp1def, pushSt_sccs]
    have hvnotstk : v ∉ s.stack := by
      intro h
      have h1 := inv.stk_vis v h
      rw [hvis] at h1
      simp at h1
    have hsm1 : stkMin sp1 = stkMin s := stkMin_push s v hvl hvnotstk
    have huv1lt : unvisCount g sp1 < unvisCount g s :=
      unvisCount_lt_of_new g s sp1 v hv hvis hvis1v (fun u _ h => hvismono1 u h)
    have hfuel1 : unvisCount g sp1 ≤ f := by omega
    have hnbr : ∀ x ∈ nbrList g v, x ∈ g.row v := fun x hx => (mem_nbrList.1 hx).2
    have hvstk1 : v ∈ sp1.stack := by
      rw [hstk1]
      exact List.mem_cons_self _ _
    obtain ⟨s2, hloop, lp⟩ :=
      sconnLoop_spec g hwf f ihf (nbrList g v) v sp1 hinv1 hv hvis1v hvstk1 hnbr hfuel1
    have hidx2v : (getV s2 v).idx = some s.vindex := by rw [lp.idxv, hidx1v]
    have hvis2v : vis s2 v = true := by
      unfold vis
      rw [hidx2v]
      rfl
    have hidxD2v : idxD s2 v = s.vindex := by
      unfold idxD
      rw [hidx2v]
      rfl
    obtain ⟨l2, hl2⟩ := low_some_of lp.inv hv hvis2v
    have hlowD2v : lowD s2 v = l2 := by
      unfold lowD
      rw [hl2]
      rfl
    have hlowD1v : lowD sp1 v = s.vindex := by
      unfold lowD
      rw [hlow1v]
      rfl
    have hl2le : l2 ≤ s.vindex := by
      have h1 := lp.lowv_le
      rw [hlowD2v, hlowD1v] at h1
      exact h1
    have hl2ge : stkMin s ≤ l2 := by
      have h1 := lp.lowv_ge
      rw [hlowD2v, hlowD1v, hsm1, min_eq_right (stkMin_le_vindex s)] at h1
      exact h1
    obtain ⟨N, hN, hNc⟩ := lp.stk
    have hstk2 : s2.stack = N ++ v :: s.stack := by rw [hN, hstk1]
    have hvN : v ∉ N := by
      intro h
      have h1 := (hNc v h).1
      rw [hvis1v] at h1
      simp at h1
    have hfrz02 : ∀ u, u ≠ v → vis s u = true → getV s2 u = getV s u := by
      intro u hu h
      rw [lp.frozen u hu (hvismono1 u h), hg1 u hu]
    have hdesc2v : (getV s2 v).desc = g.row v := by
      rw [lp.descv]
      have h2 : getV s v = ⟨none, none, false, ∅⟩ := inv.unvis_clean v hv hvis
      have h1 : (getV sp1 v).desc = (∅ : Finset Nat) := by
        rw [hg1v, h2]
      rw [h1, Finset.empty_union, nbrList_toFinset g hwf v hv]
    have hrows2v : ∀ x ∈ g.row v, vis s2 x = true := fun x hx =>
      lp.proc x (mem_nbrList.2 ⟨hwf.2 v hv x hx, hx⟩)
    have hnewidx : ∀ u, u < g.n → vis s u = false → vis s2 u = true → s.vindex ≤ idxD s2 u := by
      intro u hu h0 h2
      by_cases huv : u = v
      · subst huv
        rw [hidxD2v]
      · have h1 : vis sp1 u = false := by rw [hvis1 u huv]; exact h0
        have h3 := lp.newidx u hu h1 h2
        rw [hvx1] at h3
        omega
    have hnewlow : ∀ u, u < g.n → vis s u = false → vis s2 u = true → stkMin s ≤ lowD s2 u := by
      intro u hu h0 h2
      by_cases huv : u = v
      · subst huv
        rw [hlowD2v]
        exact hl2ge
      · have h1 : vis sp1 u = false := by rw [hvis1 u huv]; exact h0
        have h3 := lp.newlow u hu h1 h2
        rw [hsm1] at h3
        exact h3
    have hsccs2 : ∃ L, s2.sccs = s.sccs ++ L := by
      obtain ⟨L, hL⟩ := lp.sccs_ext
      exact ⟨L, by rw [hL, hsccs1]⟩
    have hvix2 : s.vindex < s2.vindex := by
      have h1 := lp.vix_mono
      rw [hvx1] at h1
      omega
    have huv2 : unvisCount g s2 < unvisCount g s := lt_of_le_of_lt lp.unvis_mono huv1lt
    by_cases hcond : (getV s2 v).low = (getV s2 v).idx
    · -- lowlink equals index: v is an SCC root, pop it (gsinks.c:496-522)
      have hl2eq : l2 = s.vindex := by
        have h1 := hcond
        rw [hl2, hidx2v] at h1
        exact Option.some.inj h1
      have hrowv0 : g.row v = ∅ → N = [] := by
        intro hrow
        have hnb : nbrList g v = [] := by
          unfold nbrList
          rw [hrow]
          simp
        have hid : sconnLoop (sconn g f) v (nbrList g v) sp1 = some sp1 := by
          rw [hnb]
          rfl
        have hs2 : sp1 = s2 := Option.some.inj (hid.symm.trans hloop)
        have hlen : (N ++ v :: s.stack).length = (v :: s.stack).length := by
          rw [← hstk2, ← hs2, hstk1]
        rw [List.length_append] at hlen
        have h0 : N.length = 0 := by omega
        exact List.eq_nil_of_length_eq_zero h0
      have hdescP : ∀ u ∈ N ++ [v], (getV s2 u).desc = g.row u := by
        intro u hu
        rcases List.mem_append.1 hu with h | h
        · exact (hNc u h).2.2.2.1
        · rw [List.mem_singleton.1 h]
          exact hdesc2v
      have hrowsP : ∀ u ∈ N ++ [v], ∀ x ∈ g.row u, vis s2 x = true := by
        intro u hu
        rcases List.mem_append.1 hu with h | h
        · exact (hNc u h).2.2.2.2.1
        · rw [List.mem_singleton.1 h]
          exact hrows2v
      have hrowneP : ∀ u ∈ N, g.row u ≠ ∅ := fun u hu => (hNc u hu).2.2.1
      have hlowgeP : ∀ u ∈ N ++ [v], s.vindex ≤ lowD s2 u := by
        intro u hu
        rcases List.mem_append.1 hu with h | h
        · have c6 := (hNc u h).2.2.2.2.2
          rw [hlowD2v, hl2eq] at c6
          exact c6
        · rw [List.mem_singleton.1 h, hlowD2v, hl2eq]
      have hveq := closeScc_eq v s2 N s.stack hstk2 hvN
      have hinvt : TInv g (closeScc v s2) :=
        TInv_close g hwf s2 v s.vindex N s.stack lp.inv hv hstk2 hvN hidx2v
          (hcond.trans hidx2v) hdescP hrowsP hrowneP hlowgeP hrowv0 (closeScc v s2) hveq
      have hbP : ∀ w ∈ N ++ [v], w < s2.vin.length := by
        intro w hw
        rw [lp.inv.vlen]
        rcases List.mem_append.1 hw with h | h
        · exact (hNc w h).2.1
        · rw [List.mem_singleton.1 h]
          exact hv
      have hgt : ∀ u, getV (closeScc v s2) u
          = if u ∈ N ++ [v] then { getV s2 u with onstack := false } else getV s2 u := by
        intro u
        rw [hveq]
        exact getV_foldl_off (N ++ [v]) s2.vin hbP u
      have hstk_t : (closeScc v s2).stack = s.stack := by rw [hveq]
      have hvx_t : (closeScc v s2).vindex = s2.vindex := by rw [hveq]
      have hsc_t : ∃ X, (closeScc v s2).sccs = s2.sccs ++ X := ⟨_, by rw [hveq]⟩
      have hidxs_t : ∀ u, (getV (closeScc v s2) u).idx = (getV s2 u).idx := by
        intro u
        rw [hgt u]
        by_cases hu : u ∈ N ++ [v]
        · rw [if_pos hu]
        · rw [if_neg hu]
      have hlows_t : ∀ u, (getV (closeScc v s2) u).low = (getV s2 u).low := by
        intro u
        rw [hgt u]
        by_cases hu : u ∈ N ++ [v]
        · rw [if_pos hu]
        · rw [if_neg hu]
      have hdescs_t : ∀ u, (getV (closeScc v s2) u).desc = (getV s2 u).desc := by
        intro u
        rw [hgt u]
        by_cases hu : u ∈ N ++ [v]
        · rw [if_pos hu]
        · rw [if_neg hu]
      have hvis_t : ∀ u, vis (closeScc v s2) u = vis s2 u := by
        intro u
        unfold vis
        rw [hidxs_t u]
      have hidxD_t : ∀ u, idxD (closeScc v s2) u = idxD s2 u := by
        intro u
        unfold idxD
        rw [hidxs_t u]
      have hlowD_t : ∀ u, lowD (closeScc v s2) u = lowD s2 u := by
        intro u
        unfold lowD
        rw [hlows_t u]
      refine ⟨closeScc v s2, ?_, ?_⟩
      · rw [hloop]
        show some (if (getV s2 v).low = (getV s2 v).idx then closeScc v s2 else s2)
          = some (closeScc v s2)
        rw [if_pos hcond]
      refine ⟨hinvt, ?_, ?_, ?_, ?_, ?_, ?_, ?_, ?_, ?_, ?_, ?_, ?_, ?_⟩
      · rw [hvis_t v]
        exact hvis2v
      · rw [hidxs_t v]
        exact hidx2v
      · intro u hu
        have huv : u ≠ v := by
          intro he
          rw [he, hvis] at hu
          simp at hu
        have hP : u ∉ N ++ [v] := by
          intro h
          rcases List.mem_append.1 h with h1 | h1
          · have c1 := (hNc u h1).1
            rw [hvis1 u huv, hu] at c1
            simp at c1
          · exact huv (List.mem_singleton.1 h1)
        rw [hgt u, if_neg hP]
        exact hfrz02 u huv hu
      · intro u hu h0 h4
        rw [hidxD_t u]
        exact hnewidx u hu h0 (by rw [← hvis_t u]; exact h4)
      · intro u hu h0 h4
        rw [hlowD_t u]
        exact hnewlow u hu h0 (by rw [← hvis_t u]; exact h4)
      · refine ⟨[], by rw [hstk_t]; rfl, ?_⟩
        intro u hu
        simp at hu
      · obtain ⟨L, hL⟩ := hsccs2
        obtain ⟨X, hX⟩ := hsc_t
        refine ⟨L ++ X, ?_⟩
        rw [hX, hL, List.append_assoc]
      · rw [hvx_t]
        exact hvix2
      · left
        rw [hstk_t]
        exact hvnotstk
      · intro _
        exact hstk_t
      · rw [hdescs_t v]
        exact hdesc2v
      · intro x hx
        rw [hvis_t x]
        exact hrows2v x hx
      · have hle : unvisCount g (closeScc v s2) ≤ unvisCount g s2 :=
          unvisCount_le_of_mono g s2 _ (fun u _ h => by rw [hvis_t u]; exact h)
        omega
    · -- lowlink below index: leave v on the stack (gsinks.c:496)
      have hvstk2 : v ∈ s2.stack := by
        rw [hstk2]
        exact List.mem_append.2 (Or.inr (List.mem_cons_self _ _))
      have hl2lt : l2 < s.vindex := by
        have hne : l2 ≠ s.vindex := by
          intro he
          apply hcond
          rw [hl2, hidx2v, he]
        omega
      have hrowvne : g.row v ≠ ∅ := by
        intro hrow
        have hnb : nbrList g v = [] := by
          unfold nbrList
          rw [hrow]
          simp
        have hid : sconnLoop (sconn g f) v (nbrList g v) sp1 = some sp1 := by
          rw [hnb]
          rfl
        have hs2 : sp1 = s2 := Option.some.inj (hid.symm.trans hloop)
        apply hcond
        rw [← hs2, hlow1v, hidx1v]
      refine ⟨s2, ?_, ?_⟩
      · rw [hloop]
        show some (if (getV s2 v).low = (getV s2 v).idx then closeScc v s2 else s2) = some s2
        rw [if_neg hcond]
      refine ⟨lp.inv, hvis2v, hidx2v, ?_, ?_, ?_, ?_, ?_, ?_, ?_, ?_, ?_, ?_, ?_⟩
      · intro u hu
        have huv : u ≠ v := by
          intro he
          rw [he, hvis] at hu
          simp at hu
        exact hfrz02 u huv hu
      · exact hnewidx
      · exact hnewlow
      · refine ⟨N ++ [v], ?_, ?_⟩
        · rw [hstk2, List.append_assoc]
          rfl
        · intro u hu
          rcases List.mem_append.1 hu with h | h
          · obtain ⟨c1, c2, c3, c4, c5, c6⟩ := hNc u h
            have huv : u ≠ v := by
              intro he
              rw [he, hvis1v] at c1
              simp at c1
            refine ⟨?_, c2, c3, c4, c5, c6⟩
            rw [← hvis1 u huv]
            exact c1
          · rw [List.mem_singleton.1 h]
            exact ⟨hvis, hv, hrowvne, hdesc2v, hrows2v, le_refl _⟩
      · exact hsccs2
      · exact hvix2
      · right
        rw [hlowD2v, hidxD2v]
        exact hl2lt
      · intro h
        exact absurd hvstk2 h
      · exact hdesc2v
      · exact hrows2v
      · exact huv2

lemma tarjanFrom_cons_none (g : Digraph) (v : Nat) (vs : List Nat) (s : TjSt)
    (h : (getV s v).idx = none) :
    tarjanFrom g (v :: vs) s = (sconn g g.n v s).bind (tarjanFrom g vs) := by
  simp only [tarjanFrom, h]

lemma tarjanFrom_cons_some (g : Digraph) (v : Nat) (vs : List Nat) (s : TjSt) (i : Nat)
    (h : (getV s v).idx = some i) :
    tarjanFrom g (v :: vs) s = tarjanFrom g vs s := by
  simp only [tarjanFrom, h]

lemma getV_init (g : Digraph) (c0 u : Nat) :
    getV (initTj g c0) u = ⟨none, none, false, ∅⟩ := by
  unfold getV initTj
  show (List.replicate g.n (⟨none, none, false, ∅⟩ : VInfo)).getD u default = _
  by_cases h : u < g.n
  · rw [List.getD_eq_getElem?_getD,
      List.getElem?_eq_getElem (by rw [List.length_replicate]; exact h)]
    simp [List.getElem_replicate]
  · rw [List.getD_eq_getElem?_getD, List.getElem?_eq_none (by rw [List.length_replicate]; omega)]
    rfl

lemma vis_init (g : Digraph) (c0 u : Nat) : vis (initTj g c0) u = false := by
  unfold vis
  rw [getV_init]
  rfl

lemma initTj_stack (g : Digraph) (c0 : Nat) : (initTj g c0).stack = [] := rfl

lemma initTj_sccs (g : Digraph) (c0 : Nat) : (initTj g c0).sccs = [] := rfl

/-- The invariant holds for the fresh per-digraph state built by the init loop
of `tarjan` (gsinks.c:422-435). -/
lemma TInv_init (g : Digraph) (c0 : Nat) : TInv g (initTj g c0) := by
  refine ⟨?_, ?_, ?_, ?_, ?_, ?_, ?_, ?_, ?_, ?_, ?_, ?_, ?_, ?_, ?_, ?_, ?_, ?_, ?_, ?_, ?_, ?_, ?_⟩
  · exact List.length_replicate g.n _
  · intro u hu
    rw [initTj_stack] at hu
    simp at hu
  · rw [initTj_stack]
    exact List.nodup_nil
  · intro u _
    rw [getV_init, initTj_stack]
    constructor
    · intro h
      simp at h
    · intro h
      simp at h
  · intro u hu
    rw [initTj_stack] at hu
    simp at hu
  · intro sc hsc
    rw [initTj_sccs] at hsc
    simp at hsc
  · intro sc hsc
    rw [initTj_sccs] at hsc
    simp at hsc
  · intro sc hsc
    rw [initTj_sccs] at hsc
    simp at hsc
  · intro sc hsc
    rw [initTj_sccs] at hsc
    simp at hsc
  · intro sc hsc
    rw [initTj_sccs] at hsc
    simp at hsc
  · rw [initTj_sccs]
    exact List.Pairwise.nil
  · intro u _ h
    rw [vis_init] at h
    simp at h
  · intro u _ h
    rw [vis_init] at h
    simp at h
  · intro u _ h
    rw [vis_init] at h
    simp at h
  · intro u _ h
    rw [vis_init] at h
    simp at h
  · rw [initTj_stack]
    exact List.Pairwise.nil
  · rfl
  · intro u _ _
    exact getV_init g c0 u
  · intro u _
    rw [getV_init]
    exact Finset.empty_subset _
  · intro w _ h
    rw [vis_init] at h
    simp at h
  · intro i hi
    rw [initTj_sccs] at hi
    simp at hi
  · intro sc0 h
    rw [initTj_sccs] at h
    simp at h
  · intro sc hsc
    rw [initTj_sccs] at hsc
    simp at hsc

/-- Total correctness of the root loop of `tarjan` (gsinks.c:438-443): on a
state with an empty stack every listed root ends up visited, the stack is
empty again, and the invariant is maintained. -/
lemma tarjanFrom_spec (g : Digraph) (hwf : WFG g) : ∀ (vs : List Nat) (s : TjSt),
    TInv g s → (∀ v ∈ vs, v < g.n) → s.stack = [] →
    ∃ s', tarjanFrom g vs s = some s' ∧ TInv g s' ∧ s'.stack = [] ∧
      (∀ u, vis s u = true → vis s' u = true) ∧ (∀ v ∈ vs, vis s' v = true) ∧
      (∃ L, s'.sccs = s.sccs ++ L) ∧ s.vindex ≤ s'.vindex := by
  intro vs
  induction vs with
  | nil =>
    intro s inv _ hstk
    exact ⟨s, rfl, inv, hstk, fun u h => h, by simp, ⟨[], by simp⟩, le_refl _⟩
  | cons v vs ih =>
    intro s inv hlt hstk
    have hv : v < g.n := hlt v (List.mem_cons_self _ _)
    by_cases hvv : vis s v = true
    · obtain ⟨i, hi⟩ := vis_some hvv
      rw [tarjanFrom_cons_some g v vs s i hi]
      obtain ⟨s', h1, h2, h3, h4, h5, h6, h7⟩ :=
        ih s inv (fun u hu => hlt u (List.mem_cons_of_mem _ hu)) hstk
      refine ⟨s', h1, h2, h3, h4, ?_, h6, h7⟩
      intro u hu
      rcases List.mem_cons.1 hu with h | h
      · rw [h]
        exact h4 v hvv
      · exact h5 u h
    · have hvf : vis s v = false := by
        cases hb : vis s v with
        | false => rfl
        | true => exact absurd hb hvv
      rw [tarjanFrom_cons_none g v vs s (idx_none hvf)]
      obtain ⟨s1, hseq, sp⟩ := sconn_spec g hwf g.n v s inv hv hvf (unvisCount_le_n g s)
      have hstk1 : s1.stack = [] := by
        rcases sp.pop_or with h | h
        · rw [sp.stack_pop h, hstk]
        · exfalso
          have hidxv : idxD s1 v = s.vindex := by
            unfold idxD
            rw [sp.idxv]
            rfl
          have hsm : stkMin s = s.vindex := by
            unfold stkMin
            rw [hstk]
            rfl
          have h2 := sp.newlow v hv hvf sp.visv
          omega
      obtain ⟨s', h1, h2, h3, h4, h5, h6, h7⟩ :=
        ih s1 sp.inv (fun u hu => hlt u (List.mem_cons_of_mem _ hu)) hstk1
      refine ⟨s', by rw [hseq]; exact h1, h2, h3, ?_, ?_, ?_, ?_⟩
      · exact fun u h => h4 u (sp.vis_mono u h)
      · intro u hu
        rcases List.mem_cons.1 hu with h | h
        · rw [h]
          exact h4 v sp.visv
        · exact h5 u h
      · obtain ⟨L1, hL1⟩ := sp.sccs_ext
        obtain ⟨L2, hL2⟩ := h6
        exact ⟨L1 ++ L2, by rw [hL2, hL1, List.append_assoc]⟩
      · have h8 := sp.vix_lt
        omega

/-- Total correctness of `tarjan` (gsinks.c:418-456): it terminates with the
invariant, an empty stack, and every vertex visited. -/
lemma tarjanRun_spec (g : Digraph) (hwf : WFG g) (c0 : Nat) :
    ∃ st, tarjanRun g c0 = some st ∧ TInv g st ∧ st.stack = [] ∧
      (∀ v, v < g.n → vis st v = true) := by
  obtain ⟨st, h1, h2, h3, _, h5, _, _⟩ :=
    tarjanFrom_spec g hwf (List.range g.n) (initTj g c0) (TInv_init g c0)
      (fun v hv => List.mem_range.1 hv) rfl
  exact ⟨st, h1, h2, h3, fun v hv => h5 v (List.mem_range.2 hv)⟩

/-- **C4**: for every well-formed digraph, after the decomposer (`tarjan`)
runs, every vertex `0..n-1` belongs to at least one recorded SCC vertex set
and only vertices `< n` do (union equals the full vertex set), the recorded
vertex sets are pairwise disjoint, and the containing record position is
unique (every vertex belongs to exactly one SCC). -/
theorem c4_scc_partition (g : Digraph) (c0 : Nat) (hwf : WFG g) :
    ∃ st, tarjanRun g c0 = some st ∧
      (∀ v, (v < g.n ↔ ∃ sc ∈ st.sccs, v ∈ sc.verts)) ∧
      st.sccs.Pairwise (fun a b => ∀ x, x ∈ a.verts → x ∉ b.verts) ∧
      (∀ i j, (hi : i < st.sccs.length) → (hj : j < st.sccs.length) →
        ∀ v, v ∈ (st.sccs.get ⟨i, hi⟩).verts → v ∈ (st.sccs.get ⟨j, hj⟩).verts → i = j) := by
  obtain ⟨st, h1, inv, hstk, hall⟩ := tarjanRun_spec g hwf c0
  refine ⟨st, h1, ?_, inv.scc_disj, ?_⟩
  · intro v
    constructor
    · intro hv
      rcases inv.part v hv (hall v hv) with h | h
      · rw [hstk] at h
        simp at h
      · exact mem_sccUnion.1 h
    · rintro ⟨sc, hsc, hv⟩
      exact inv.scc_lt sc hsc v hv
  · intro i j hi hj v hvi hvj
    by_contra hne
    rcases Nat.lt_or_ge i j with h | h
    · exact (List.pairwise_iff_get.1 inv.scc_disj) ⟨i, hi⟩ ⟨j, hj⟩ (Fin.mk_lt_mk.2 h) v hvi hvj
    · have hji : j < i := by omega
      exact (List.pairwise_iff_get.1 inv.scc_disj) ⟨j, hj⟩ ⟨i, hi⟩ (Fin.mk_lt_mk.2 hji) v hvj hvi

theorem c4_scc_partition_witness :
    WFG g2 ∧
    ∃ st, tarjanRun g2 0 = some st ∧
      (∀ v, (v < g2.n ↔ ∃ sc ∈ st.sccs, v ∈ sc.verts)) ∧
      st.sccs.Pairwise (fun a b => ∀ x, x ∈ a.verts → x ∉ b.verts) ∧
      (∀ i j, (hi : i < st.sccs.length) → (hj : j < st.sccs.length) →
        ∀ v, v ∈ (st.sccs.get ⟨i, hi⟩).verts → v ∈ (st.sccs.get ⟨j, hj⟩).verts → i = j) :=
  ⟨by decide, c4_scc_partition g2 0 (by decide)⟩

/-- **C3**: for every well-formed digraph, the decomposer marks an SCC leaf
iff no edge leaves it (all out-neighbours of members stay inside the member
set, which by the partition of C4 means no edge reaches a different SCC); the
first SCC closed is always marked leaf; and every later SCC is marked leaf
exactly when the union of its members' out-adjacencies minus its own member
set is empty (the `SETDIFF` test of gsinks.c:516-519). -/
theorem c3_leaf_flag (g : Digraph) (c0 : Nat) (hwf : WFG g) :
    ∃ st, tarjanRun g c0 = some st ∧
      (∀ sc ∈ st.sccs, (sc.isLeaf = true ↔ ∀ w ∈ sc.verts, ∀ x ∈ g.row w, x ∈ sc.verts)) ∧
      (∀ sc0, st.sccs.head? = some sc0 → sc0.isLeaf = true) ∧
      (∀ i, (hi : i < st.sccs.length) → 0 < i →
        ((st.sccs.get ⟨i, hi⟩).isLeaf = true ↔
          (st.sccs.get ⟨i, hi⟩).verts.biUnion g.row \ (st.sccs.get ⟨i, hi⟩).verts = ∅)) := by
  obtain ⟨st, h1, inv, hstk, hall⟩ := tarjanRun_spec g hwf c0
  have hsub : ∀ i, (hi : i < st.sccs.length) →
      ((st.sccs.get ⟨i, hi⟩).isLeaf = true ↔
        (i = 0 ∨ (st.sccs.get ⟨i, hi⟩).verts.biUnion g.row ⊆ (st.sccs.get ⟨i, hi⟩).verts)) := by
    intro i hi
    rw [inv.flags i hi]
    simp [Bool.or_eq_true, decide_eq_true_iff, beq_iff_eq]
  have hhead : ∀ (hi : 0 < st.sccs.length), st.sccs.head? = some (st.sccs.get ⟨0, hi⟩) := by
    intro hi
    rw [List.head?_eq_getElem? st.sccs, List.getElem?_eq_getElem hi, List.get_eq_getElem]
  refine ⟨st, h1, ?_, ?_, ?_⟩
  · intro sc hsc
    obtain ⟨⟨i, hi⟩, hget⟩ := List.mem_iff_get.1 hsc
    constructor
    · intro hleaf w hw x hx
      rcases (hsub i hi).1 (by rw [hget]; exact hleaf) with h0 | hss
      · have hh : st.sccs.head? = some sc := by
          rw [← hget]
          subst h0
          exact hhead hi
        refine inv.firstleaf sc hh ?_
        rw [Finset.mem_biUnion]
        exact ⟨w, hw, hx⟩
      · rw [hget] at hss
        refine hss ?_
        rw [Finset.mem_biUnion]
        exact ⟨w, hw, hx⟩
    · intro hcl
      rw [← hget]
      refine (hsub i hi).2 (Or.inr ?_)
      rw [hget]
      intro x hx
      rw [Finset.mem_biUnion] at hx
      obtain ⟨w, hw, hxw⟩ := hx
      exact hcl w hw x hxw
  · intro sc0 hh
    have hlen : 0 < st.sccs.length := by
      cases hsc : st.sccs with
      | nil =>
        rw [hsc] at hh
        simp at hh
      | cons y ys =>
        simp
    have hget0 : st.sccs.get ⟨0, hlen⟩ = sc0 := by
      have := hhead hlen
      rw [hh] at this
      exact (Option.some.inj this).symm
    rw [← hget0]
    exact (hsub 0 hlen).2 (Or.inl rfl)
  · intro i hi h0
    constructor
    · intro h
      rcases (hsub i hi).1 h with h1 | h1
      · omega
      · rw [Finset.sdiff_eq_empty_iff_subset]
        exact h1
    · intro h
      refine (hsub i hi).2 (Or.inr ?_)
      rw [← Finset.sdiff_eq_empty_iff_subset]
      exact h

theorem c3_leaf_flag_witness :
    WFG g2 ∧
    ∃ st, tarjanRun g2 0 = some st ∧
      (∀ sc ∈ st.sccs, (sc.isLeaf = true ↔ ∀ w ∈ sc.verts, ∀ x ∈ g2.row w, x ∈ sc.verts)) ∧
      (∀ sc0, st.sccs.head? = some sc0 → sc0.isLeaf = true) ∧
      (∀ i, (hi : i < st.sccs.length) → 0 < i →
        ((st.sccs.get ⟨i, hi⟩).isLeaf = true ↔
          (st.sccs.get ⟨i, hi⟩).verts.biUnion g2.row \ (st.sccs.get ⟨i, hi⟩).verts = ∅)) :=
  ⟨by decide, c3_leaf_flag g2 0 (by decide)⟩

lemma extendGraph_n (g : Digraph) (col : List Nat) : (extendGraph g col).n = g.n + 1 := rfl

lemma extendGraph_row_lt (g : Digraph) (col : List Nat) (j : Nat) (hj : j < g.n) :
    (extendGraph g col).row j
      = if nth col j != 0 then insert g.n (g.row j) else g.row j := by
  show ((List.range g.n).map
      (fun j => if nth col j != 0 then insert g.n (g.row j) else g.row j) ++ [∅]).getD j ∅ = _
  rw [List.getD_eq_getElem?_getD, List.getElem?_append,
    if_pos (by simp [hj]), List.getElem?_map, List.getElem?_range hj]
  rfl

lemma extendGraph_row_top (g : Digraph) (col : List Nat) :
    (extendGraph g col).row g.n = ∅ := by
  show ((List.range g.n).map
      (fun j => if nth col j != 0 then insert g.n (g.row j) else g.row j) ++ [∅]).getD g.n ∅ = ∅
  rw [List.getD_eq_getElem?_getD, List.getElem?_append, if_neg (by simp)]
  simp

lemma WFG_extend (g : Digraph) (col : List Nat) (hwf : WFG g) : WFG (extendGraph g col) := by
  constructor
  · show ((List.range g.n).map _ ++ [∅]).length = g.n + 1
    simp
  · intro v hv u hu
    rw [extendGraph_n] at hv ⊢
    rcases Nat.lt_or_ge v g.n with h | h
    · rw [extendGraph_row_lt g col v h] at hu
      by_cases hc : (nth col v != 0) = true
      · rw [if_pos hc] at hu
        rcases Finset.mem_insert.1 hu with h1 | h1
        · omega
        · have := hwf.2 v h u h1
          omega
      · rw [if_neg hc] at hu
        have := hwf.2 v h u hu
        omega
    · have hveq : v = g.n := by omega
      rw [hveq, extendGraph_row_top] at hu
      simp at hu

/-- **C6** (counterexample): the claim fails for the 0-vertex digraph.  Its
empty coloring is accepted, and in the extended digraph the new vertex 0 is a
singleton leaf SCC, but it has no incoming edge: the "at least one incoming
edge" conjunct of the claim is false at n = 0. -/
theorem c6_counterexample :
    (tarjanRun g0 0).map (fun st => filterAccept st.sccs []) = some true ∧
    (tarjanRun (extendGraph g0 []) 0).map (fun st => st.sccs) = some [⟨{0}, true, 1⟩] ∧
    (∀ j, j < (extendGraph g0 []).n → g0.n ∉ (extendGraph g0 []).row j) := by
  decide

/-- **C6** (amended): for every accepted coloring of a well-formed digraph
with at most `MAXN = 32` vertices, decomposing the extended digraph yields the
new vertex `n` inside the singleton SCC record `⟨{n}, true, 1⟩` (a leaf), `n`
has no outgoing edge, and — provided `n ≥ 1` — at least one incoming edge.
The incoming-edge conjunct of the original claim holds only for `n ≥ 1`
(see the counterexample at `n = 0`). -/
theorem c6_amended_extension (g : Digraph) (col : List Nat) (c0 c1 : Nat)
    (hwf : WFG g) (hn : g.n ≤ 32)
    (hacc : (tarjanRun g c0).map (fun st => filterAccept st.sccs col) = some true) :
    ∃ st', tarjanRun (extendGraph g col) c1 = some st' ∧
      (∃ sc ∈ st'.sccs, g.n ∈ sc.verts ∧ sc = ⟨{g.n}, true, 1⟩) ∧
      (extendGraph g col).row g.n = ∅ ∧
      (1 ≤ g.n → ∃ j, j < g.n ∧ g.n ∈ (extendGraph g col).row j) := by
  have hwf' : WFG (extendGraph g col) := WFG_extend g col hwf
  obtain ⟨st', h1, inv', hstk', hall'⟩ := tarjanRun_spec (extendGraph g col) hwf' c1
  have hrowtop : (extendGraph g col).row g.n = ∅ := extendGraph_row_top g col
  have hnlt : g.n < (extendGraph g col).n := by rw [extendGraph_n]; omega
  refine ⟨st', h1, ?_, hrowtop, ?_⟩
  · have hvisn := hall' g.n hnlt
    rcases inv'.part g.n hnlt hvisn with h | h
    · rw [hstk'] at h
      simp at h
    · obtain ⟨sc, hsc, hmem⟩ := mem_sccUnion.1 h
      exact ⟨sc, hsc, hmem, inv'.emptyrow sc hsc g.n hmem hrowtop⟩
  · intro hn1
    obtain ⟨st, hrun, inv, hstk, hall⟩ := tarjanRun_spec g hwf c0
    have hacc' : filterAccept st.sccs col = true := by
      rw [hrun, Option.map_some'] at hacc
      exact Option.some.inj hacc
    have h0 : (0 : Nat) < g.n := hn1
    have hex : ∃ sc ∈ st.sccs, (0 : Nat) ∈ sc.verts := by
      rcases inv.part 0 h0 (hall 0 h0) with h | h
      · rw [hstk] at h
        simp at h
      · exact mem_sccUnion.1 h
    obtain ⟨scx, hscx, _⟩ := hex
    have hlen : 0 < st.sccs.length := List.length_pos.2 (by
      intro hnil
      rw [hnil] at hscx
      simp at hscx)
    have hsc0mem : st.sccs.get ⟨0, hlen⟩ ∈ st.sccs := List.get_mem st.sccs 0 hlen
    have hleaf0 : (st.sccs.get ⟨0, hlen⟩).isLeaf = true := by
      have hfl := inv.flags 0 hlen
      simp at hfl
      exact hfl
    have hlc : leafColoured col (st.sccs.get ⟨0, hlen⟩) = true := by
      unfold filterAccept at hacc'
      rw [List.all_eq_true] at hacc'
      have h2 := hacc' (st.sccs.get ⟨0, hlen⟩) hsc0mem
      rw [hleaf0] at h2
      simp at h2
      exact h2
    unfold leafColoured at hlc
    rw [List.any_eq_true] at hlc
    obtain ⟨j, hjmem, hjcol⟩ := hlc
    rw [List.mem_filter] at hjmem
    have hjverts : j ∈ (st.sccs.get ⟨0, hlen⟩).verts := of_decide_eq_true hjmem.2
    have hjlt : j < g.n := inv.scc_lt _ hsc0mem j hjverts
    refine ⟨j, hjlt, ?_⟩
    rw [extendGraph_row_lt g col j hjlt, if_pos hjcol]
    exact Finset.mem_insert_self _ _

theorem c6_amended_extension_witness :
    (WFG g2 ∧ g2.n ≤ 32 ∧
      (tarjanRun g2 0).map (fun st => filterAccept st.sccs [0, 1]) = some true) ∧
    (∃ st', tarjanRun (extendGraph g2 [0, 1]) 0 = some st' ∧
      (∃ sc ∈ st'.sccs, g2.n ∈ sc.verts ∧ sc = ⟨{g2.n}, true, 1⟩) ∧
      (extendGraph g2 [0, 1]).row g2.n = ∅ ∧
      (1 ≤ g2.n → ∃ j, j < g2.n ∧ g2.n ∈ (extendGraph g2 [0, 1]).row j)) :=
  ⟨⟨by decide, by decide, by decide⟩,
    c6_amended_extension g2 [0, 1] 0 0 (by decide) (by decide) (by decide)⟩

/-! ## Properties of the canonicity test `ismax` (gsinks.c:151-173) -/

lemma nth_set_self (c : List Nat) (l k : Nat) (h : l < c.length) : nth (c.set l k) l = k := by
  unfold nth
  rw [List.getD_eq_getElem?_getD, List.getElem?_set_self', List.getElem?_eq_getElem h]
  rfl

lemma nth_set_ne (c : List Nat) (l k j : Nat) (h : j ≠ l) : nth (c.set l k) j = nth c j := by
  unfold nth
  rw [List.getD_eq_getElem?_getD, List.getD_eq_getElem?_getD,
    List.getElem?_set_ne (fun hh => h hh.symm)]

lemma list_eq_of_nth (c c' : List Nat) (n : Nat) (hc : c.length = n) (hc' : c'.length = n)
    (h : ∀ j, j < n → nth c j = nth c' j) : c = c' := by
  apply List.ext_getElem (by omega)
  intro j hj hj'
  have := h j (by omega)
  unfold nth at this
  rw [List.getD_eq_getElem?_getD, List.getD_eq_getElem?_getD, List.getElem?_eq_getElem hj,
    List.getElem?_eq_getElem hj'] at this
  exact this

lemma ismaxFrom_none_iff (c p : List Nat) : ∀ (m i fail : Nat),
    (ismaxFrom c p fail (List.range' i m) = none ↔
      ∀ t, t < m → (∀ j, j < t → nth c (nth p (i + j)) = nth c (i + j)) →
        nth c (nth p (i + t)) ≤ nth c (i + t)) := by
  intro m
  induction m with
  | zero =>
    intro i fail
    constructor
    · intro _ t ht
      omega
    · intro _
      rfl
  | succ m ih =>
    intro i fail
    rw [List.range'_succ]
    show (if nth c (nth p i) > nth c i then _ else _) = none ↔ _
    by_cases h1 : nth c (nth p i) > nth c i
    · rw [if_pos h1]
      constructor
      · intro h
        cases h
      · intro h
        have := h 0 (by omega) (by intro j hj; omega)
        rw [Nat.add_zero] at this
        omega
    · rw [if_neg h1]
      by_cases h2 : nth c (nth p i) < nth c i
      · rw [if_pos h2]
        constructor
        · intro _ t ht hpre
          rcases Nat.eq_zero_or_pos t with h0 | h0
          · subst h0
            rw [Nat.add_zero]
            omega
          · have := hpre 0 h0
            rw [Nat.add_zero] at this
            omega
        · intro _
          rfl
      · rw [if_neg h2]
        have heq : nth c (nth p i) = nth c i := by omega
        rw [ih (i + 1)]
        constructor
        · intro h t ht hpre
          rcases Nat.eq_zero_or_pos t with h0 | h0
          · subst h0
            rw [Nat.add_zero]
            omega
          · obtain ⟨t', rfl⟩ := Nat.exists_eq_succ_of_ne_zero (by omega : t ≠ 0)
            have h3 := h t' (by omega) ?_
            · have harith : i + 1 + t' = i + (t' + 1) := by omega
              rw [harith] at h3
              exact h3
            · intro j hj
              have := hpre (j + 1) (by omega)
              have harith : i + (j + 1) = i + 1 + j := by omega
              rw [harith] at this
              exact this
        · intro h t ht hpre
          have h3 := h (t + 1) (by omega) ?_
          · have harith : i + (t + 1) = i + 1 + t := by omega
            rw [harith] at h3
            exact h3
          · intro j hj
            rcases Nat.eq_zero_or_pos j with h0 | h0
            · subst h0
              rw [Nat.add_zero]
              exact heq
            · obtain ⟨j', rfl⟩ := Nat.exists_eq_succ_of_ne_zero (by omega : j ≠ 0)
              have h5 := hpre j' (by omega)
              have harith : i + j'.succ = i + 1 + j' := by omega
              rw [harith]
              exact h5

lemma ismaxFrom_some_char (c p : List Nat) : ∀ (m i fail F : Nat),
    ismaxFrom c p fail (List.range' i m) = some F →
    ∃ t, t < m ∧ (∀ j, j < t → nth c (nth p (i + j)) = nth c (i + j)) ∧
      nth c (i + t) < nth c (nth p (i + t)) ∧
      fail ≤ F ∧ (∀ j, j ≤ t → nth p (i + j) ≤ F) ∧
      (F = fail ∨ ∃ j, j ≤ t ∧ nth p (i + j) = F) := by
  intro m
  induction m with
  | zero =>
    intro i fail F h
    cases h
  | succ m ih =>
    intro i fail F h
    rw [List.range'_succ] at h
    have hstep : ismaxFrom c p fail (i :: List.range' (i + 1) m)
        = (if nth c (nth p i) > nth c i
            then some (if nth p i > fail then nth p i else fail)
            else if nth c (nth p i) < nth c i then none
            else ismaxFrom c p (if nth p i > fail then nth p i else fail)
              (List.range' (i + 1) m)) := rfl
    rw [hstep] at h
    by_cases h1 : nth c (nth p i) > nth c i
    · rw [if_pos h1] at h
      have hF : F = if nth p i > fail then nth p i else fail := (Option.some.inj h).symm
      refine ⟨0, by omega, by intro j hj; omega, by rw [Nat.add_zero]; omega, ?_, ?_, ?_⟩
      · rw [hF]
        split <;> omega
      · intro j hj
        have hj0 : j = 0 := by omega
        subst hj0
        rw [Nat.add_zero, hF]
        split <;> omega
      · rw [hF]
        by_cases hc2 : nth p i > fail
        · rw [if_pos hc2]
          exact Or.inr ⟨0, le_refl _, by rw [Nat.add_zero]⟩
        · rw [if_neg hc2]
          exact Or.inl rfl
    · rw [if_neg h1] at h
      by_cases h2 : nth c (nth p i) < nth c i
      · rw [if_pos h2] at h
        cases h
      · rw [if_neg h2] at h
        have heq : nth c (nth p i) = nth c i := by omega
        obtain ⟨t', ht', hpre', hlt', hfle', hpb', hatt'⟩ := ih (i + 1) _ F h
        have hfle0 : fail ≤ if nth p i > fail then nth p i else fail := by split <;> omega
        refine ⟨t' + 1, by omega, ?_, ?_, by omega, ?_, ?_⟩
        · intro j hj
          rcases Nat.eq_zero_or_pos j with h0 | h0
          · subst h0
            rw [Nat.add_zero]
            exact heq
          · obtain ⟨j', rfl⟩ := Nat.exists_eq_succ_of_ne_zero (by omega : j ≠ 0)
            have := hpre' j' (by omega)
            have harith : i + 1 + j' = i + (j' + 1) := by omega
            rw [harith] at this
            exact this
        · have harith : i + 1 + t' = i + (t' + 1) := by omega
          rw [harith] at hlt'
          exact hlt'
        · intro j hj
          rcases Nat.eq_zero_or_pos j with h0 | h0
          · subst h0
            rw [Nat.add_zero]
            have : nth p i ≤ if nth p i > fail then nth p i else fail := by split <;> omega
            omega
          · obtain ⟨j', rfl⟩ := Nat.exists_eq_succ_of_ne_zero (by omega : j ≠ 0)
            have := hpb' j' (by omega)
            have harith : i + 1 + j' = i + (j' + 1) := by omega
            rw [harith] at this
            exact this
        · rcases hatt' with h3 | ⟨j', hj', h3⟩
          · by_cases hc2 : nth p i > fail
            · rw [if_pos hc2] at h3
              exact Or.inr ⟨0, by omega, by rw [Nat.add_zero]; exact h3.symm⟩
            · rw [if_neg hc2] at h3
              exact Or.inl h3
          · refine Or.inr ⟨j' + 1, by omega, ?_⟩
            have harith : i + (j' + 1) = i + 1 + j' := by omega
            rw [harith]
            exact h3

lemma ismaxRes_none_iff (c p : List Nat) (n : Nat) :
    ismaxRes c p n = none ↔
      ∀ t, t < n → (∀ j, j < t → nth c (nth p j) = nth c j) → nth c (nth p t) ≤ nth c t := by
  unfold ismaxRes
  rw [List.range_eq_range' n, ismaxFrom_none_iff c p n 0 0]
  constructor
  · intro h t ht hpre
    have := h t ht (by intro j hj; have := hpre j hj; rw [Nat.zero_add]; exact this)
    rw [Nat.zero_add] at this
    exact this
  · intro h t ht hpre
    rw [Nat.zero_add]
    refine h t ht ?_
    intro j hj
    have := hpre j hj
    rw [Nat.zero_add] at this
    exact this

lemma ismaxRes_some_char (c p : List Nat) (n F : Nat) (h : ismaxRes c p n = some F) :
    ∃ t, t < n ∧ (∀ j, j < t → nth c (nth p j) = nth c j) ∧
      nth c t < nth c (nth p t) ∧ (∀ j, j ≤ t → nth p j ≤ F) ∧ (∃ j, j ≤ t ∧ nth p j = F) := by
  unfold ismaxRes at h
  rw [List.range_eq_range' n] at h
  obtain ⟨t, ht, hpre, hlt, hfle, hpb, hatt⟩ := ismaxFrom_some_char c p n 0 0 F h
  simp only [Nat.zero_add] at hpre hlt hpb hatt
  refine ⟨t, ht, hpre, hlt, hpb, ?_⟩
  rcases hatt with h0 | h0
  · subst h0
    have := hpb 0 (by omega)
    exact ⟨0, by omega, by omega⟩
  · exact h0

lemma reject_pos_le (p : List Nat) (n t F : Nat) (ht : t < n)
    (hinj : ∀ j1 j2, j1 < n → j2 < n → nth p j1 = nth p j2 → j1 = j2)
    (hb : ∀ j, j ≤ t → nth p j ≤ F) : t ≤ F := by
  have hcard : (Finset.range (t + 1)).card ≤ (Finset.range (F + 1)).card := by
    apply Finset.card_le_card_of_injOn (fun j => nth p j)
    · intro j hj
      rw [Finset.mem_range] at hj ⊢
      have := hb j (by omega)
      omega
    · intro a ha b hb2 hab
      simp only [Finset.coe_range, Set.mem_Iio] at ha hb2
      exact hinj a b (by omega) (by omega) hab
  rw [Finset.card_range, Finset.card_range] at hcard
  omega

/-- Skip soundness: when `ismax` rejects `c` through `p` with fail level `F`,
every later candidate that keeps the first `F` colors and first exceeds `c`
at a position `d ≥ F` is also rejected through `p`.  This is what makes the
backtrack-to-fail-level return of `trythisone`/`scan` (gsinks.c:233-234, 264)
a sound pruning. -/
lemma skipSound (c c' p : List Nat) (n F d : Nat)
    (hinj : ∀ j1 j2, j1 < n → j2 < n → nth p j1 = nth p j2 → j1 = j2)
    (hF : ismaxRes c p n = some F)
    (hFd : F ≤ d) (hdn : d < n)
    (hpre : ∀ j, j < d → nth c' j = nth c j)
    (hgt : nth c d < nth c' d) :
    ¬ ismaxRes c' p n = none := by
  intro hnone
  obtain ⟨t, htn, heq, hlt, hpb, j1, hj1t, hj1⟩ := ismaxRes_some_char c p n F hF
  have htF : t ≤ F := reject_pos_le p n t F htn hinj (fun j hj => hpb j hj)
  rw [ismaxRes_none_iff] at hnone
  rcases Nat.lt_or_ge F d with hFlt | hFge
  · -- first difference strictly above the fail level: the run on the new
    -- candidate mirrors the rejected run
    have hkey := hnone t htn ?_
    · rw [hpre (nth p t) (by have := hpb t (le_refl t); omega), hpre t (by omega)] at hkey
      omega
    · intro j hj
      rw [hpre (nth p j) (by have := hpb j (by omega); omega), hpre j (by omega)]
      exact heq j hj
  · have hdF : d = F := by omega
    subst hdF
    have hj1d : j1 < d := by
      rcases Nat.lt_or_ge j1 d with h | h
      · exact h
      · exfalso
        have hj1e : j1 = d := by omega
        have htj1 : t = j1 := by omega
        rw [htj1, hj1e] at hlt
        rw [hj1e] at hj1
        rw [hj1] at hlt
        omega
    have hkey := hnone j1 (by omega) ?_
    · rw [hj1] at hkey
      rw [hpre j1 hj1d] at hkey
      rcases Nat.lt_or_ge j1 t with hj1lt | hj1ge
      · have hc1 := heq j1 hj1lt
        rw [hj1] at hc1
        omega
      · have htj1 : j1 = t := by omega
        subst htj1
        rw [hj1] at hlt
        omega
    · intro j hj
      have hjne : nth p j ≠ d := by
        intro he
        have := hinj j j1 (by omega) (by omega) (by rw [he, hj1])
        omega
      have hple : nth p j ≤ d := hpb j (by omega)
      rw [hpre (nth p j) (by omega), hpre j (by omega)]
      exact heq j (by omega)

lemma perm_nth_inj (p : List Nat) (n : Nat) (hp : List.Perm p (List.range n)) :
    ∀ j1 j2, j1 < n → j2 < n → nth p j1 = nth p j2 → j1 = j2 := by
  have hlen : p.length = n := by rw [hp.length_eq, List.length_range]
  have hnd : p.Nodup := hp.nodup_iff.2 (List.nodup_range n)
  intro j1 j2 h1 h2 heq
  unfold nth at heq
  rw [List.getD_eq_getElem?_getD, List.getD_eq_getElem?_getD,
    List.getElem?_eq_getElem (show j1 < p.length by omega),
    List.getElem?_eq_getElem (show j2 < p.length by omega)] at heq
  simp only [Option.getD_some] at heq
  have h3 : Function.Injective p.get := List.nodup_iff_injective_get.1 hnd
  have hg : p.get ⟨j1, by omega⟩ = p.get ⟨j2, by omega⟩ := by
    simp only [List.get_eq_getElem]
    exact heq
  exact congrArg Fin.val (h3 hg)

lemma firstFail_none_iff (c : List Nat) (n : Nat) : ∀ (ps : List (List Nat)),
    firstFail c n ps = none ↔ ∀ p ∈ ps, ismaxRes c p n = none := by
  intro ps
  induction ps with
  | nil => simp [firstFail]
  | cons p rest ih =>
    show (match ismaxRes c p n with
      | some F => some (p, F)
      | none => firstFail c n rest) = none ↔ _
    cases hx : ismaxRes c p n with
    | some F =>
      constructor
      · intro h
        cases h
      · intro h
        have := h p (List.mem_cons_self _ _)
        rw [hx] at this
        cases this
    | none =>
      rw [ih]
      constructor
      · intro h q hq
        rcases List.mem_cons.1 hq with h1 | h1
        · rw [h1]
          exact hx
        · exact h q h1
      · intro h q hq
        exact h q (List.mem_cons_of_mem _ hq)

lemma firstFail_some_char (c : List Nat) (n : Nat) : ∀ (ps : List (List Nat)) (p : List Nat)
    (F : Nat), firstFail c n ps = some (p, F) → p ∈ ps ∧ ismaxRes c p n = some F := by
  intro ps
  induction ps with
  | nil =>
    intro p F h
    cases h
  | cons q rest ih =>
    intro p F h
    have hstep : firstFail c n (q :: rest) = (match ismaxRes c q n with
      | some F => some (q, F)
      | none => firstFail c n rest) := rfl
    rw [hstep] at h
    cases hx : ismaxRes c q n with
    | some F2 =>
      rw [hx] at h
      have h3 := Option.some.inj h
      have h4 : q = p := congrArg Prod.fst h3
      have h5 : F2 = F := congrArg Prod.snd h3
      rw [← h4, ← h5]
      exact ⟨List.mem_cons_self _ _, hx⟩
    | none =>
      rw [hx] at h
      obtain ⟨h1, h2⟩ := ih p F h
      exact ⟨List.mem_cons_of_mem _ h1, h2⟩

/-- State of the remembered rejection witness: absent, or a generator recorded
from a previous full-group test. -/
def lrOK (G : List (List Nat)) : Option (List Nat) → Prop
  | none => True
  | some pr => pr ∈ G.drop 1

lemma tryNaive_false_of_mem (G : List (List Nat)) (n : Nat) (c : List Nat) (p : List Nat)
    (hp : p ∈ G.drop 1) (h : ¬ ismaxRes c p n = none) : tryNaive G n c = false := by
  unfold tryNaive
  cases hx : firstFail c n (G.drop 1) with
  | some pr => rfl
  | none =>
    exfalso
    rw [firstFail_none_iff] at hx
    exact h (hx p hp)

lemma trythisoneD_gs1 (G : List (List Nat)) (gs n : Nat) (c : List Nat)
    (lr : Option (List Nat)) (h : gs = 1) :
    trythisoneD (some G) gs n c lr = (true, (n : Int) - 1, lr) := by
  simp only [trythisoneD, if_pos h]

lemma trythisoneD_lrnone (G : List (List Nat)) (gs n : Nat) (c : List Nat)
    (h : ¬ gs = 1) : trythisoneD (some G) gs n c none = fullTestD G n c none := by
  simp only [trythisoneD, if_neg h]

lemma trythisoneD_rej (G : List (List Nat)) (gs n : Nat) (c : List Nat)
    (pr : List Nat) (F : Nat) (h : ¬ gs = 1) (hx : ismaxRes c pr n = some F) :
    trythisoneD (some G) gs n c (some pr) = (false, (F : Int) - 1, some pr) := by
  simp only [trythisoneD, if_neg h, hx]

lemma trythisoneD_ok2 (G : List (List Nat)) (gs n : Nat) (c : List Nat)
    (pr : List Nat) (h : ¬ gs = 1) (hx : ismaxRes c pr n = none) (h2 : gs = 2) :
    trythisoneD (some G) gs n c (some pr) = (true, (n : Int) - 1, some pr) := by
  simp only [trythisoneD, if_neg h, hx, if_pos h2]

lemma trythisoneD_okM (G : List (List Nat)) (gs n : Nat) (c : List Nat)
    (pr : List Nat) (h : ¬ gs = 1) (hx : ismaxRes c pr n = none) (h2 : ¬ gs = 2) :
    trythisoneD (some G) gs n c (some pr) = fullTestD G n c (some pr) := by
  simp only [trythisoneD, if_neg h, hx, if_neg h2]

lemma fullTestD_none (G : List (List Nat)) (n : Nat) (c : List Nat)
    (lr : Option (List Nat)) (hx : firstFail c n (G.drop 1) = none) :
    fullTestD G n c lr = (true, (n : Int) - 1, lr) := by
  simp only [fullTestD, hx]

lemma fullTestD_some (G : List (List Nat)) (n : Nat) (c : List Nat)
    (lr : Option (List Nat)) (pF : List Nat × Nat)
    (hx : firstFail c n (G.drop 1) = some pF) :
    fullTestD G n c lr = (false, (pF.2 : Int) - 1, some pF.1) := by
  simp only [fullTestD, hx]

lemma tryNaive_eq_none (G : List (List Nat)) (n : Nat) (c : List Nat)
    (hx : firstFail c n (G.drop 1) = none) : tryNaive G n c = true := by
  simp only [tryNaive, hx, Option.isNone]

lemma tryNaive_eq_some (G : List (List Nat)) (n : Nat) (c : List Nat)
    (pF : List Nat × Nat) (hx : firstFail c n (G.drop 1) = some pF) :
    tryNaive G n c = false := by
  simp only [tryNaive, hx, Option.isNone]

/-- The decision of `trythisone` (gsinks.c:199-236) agrees with the naive
full-group re-test, given the remembered witness really is a generator; a
rejection moreover reports a fail level witnessed by `ismax` on a recorded
generator. -/
lemma trythisoneD_spec (G : List (List Nat)) (gs n : Nat) (c : List Nat)
    (lr : Option (List Nat)) (hGs : G.length = gs) (hlr : lrOK G lr) :
    (trythisoneD (some G) gs n c lr).1 = tryNaive G n c ∧
    lrOK G (trythisoneD (some G) gs n c lr).2.2 ∧
    ((trythisoneD (some G) gs n c lr).1 = true →
      (trythisoneD (some G) gs n c lr).2.1 = (n : Int) - 1) ∧
    ((trythisoneD (some G) gs n c lr).1 = false → ∃ pf, ∃ F : Nat,
      (trythisoneD (some G) gs n c lr).2.2 = some pf ∧ pf ∈ G.drop 1 ∧
      (trythisoneD (some G) gs n c lr).2.1 = (F : Int) - 1 ∧ ismaxRes c pf n = some F) := by
  have hfull : ∀ lr0, lrOK G lr0 →
      (fullTestD G n c lr0).1 = tryNaive G n c ∧ lrOK G (fullTestD G n c lr0).2.2 ∧
      ((fullTestD G n c lr0).1 = true → (fullTestD G n c lr0).2.1 = (n : Int) - 1) ∧
      ((fullTestD G n c lr0).1 = false → ∃ pf, ∃ F : Nat,
        (fullTestD G n c lr0).2.2 = some pf ∧ pf ∈ G.drop 1 ∧
        (fullTestD G n c lr0).2.1 = (F : Int) - 1 ∧ ismaxRes c pf n = some F) := by
    intro lr0 hlr0
    cases hx : firstFail c n (G.drop 1) with
    | none =>
      rw [fullTestD_none G n c lr0 hx, tryNaive_eq_none G n c hx]
      exact ⟨rfl, hlr0, fun _ => rfl, fun h => Bool.noConfusion h⟩
    | some pF =>
      obtain ⟨hmem, hres⟩ := firstFail_some_char c n (G.drop 1) pF.1 pF.2 (by rw [hx])
      rw [fullTestD_some G n c lr0 pF hx, tryNaive_eq_some G n c pF hx]
      exact ⟨rfl, hmem, fun h => Bool.noConfusion h, fun _ => ⟨pF.1, pF.2, rfl, hmem, rfl, hres⟩⟩
  by_cases hgs1 : gs = 1
  · rw [trythisoneD_gs1 G gs n c lr hgs1]
    have hdrop : G.drop 1 = [] := List.drop_eq_nil_of_le (by omega)
    have hnv : tryNaive G n c = true := by
      unfold tryNaive
      rw [hdrop]
      rfl
    exact ⟨hnv.symm, hlr, fun _ => rfl, fun h => Bool.noConfusion h⟩
  · cases hlrc : lr with
    | none =>
      rw [trythisoneD_lrnone G gs n c hgs1]
      exact hfull none trivial
    | some pr =>
      rw [hlrc] at hlr
      have hprmem : pr ∈ List.drop 1 G := hlr
      cases hx : ismaxRes c pr n with
      | some F =>
        rw [trythisoneD_rej G gs n c pr F hgs1 hx]
        have hnv : tryNaive G n c = false :=
          tryNaive_false_of_mem G n c pr hprmem (by rw [hx]; intro h; cases h)
        exact ⟨hnv.symm, hlr, fun h => Bool.noConfusion h,
          fun _ => ⟨pr, F, rfl, hprmem, rfl, hx⟩⟩
      | none =>
        by_cases hgs2 : gs = 2
        · rw [trythisoneD_ok2 G gs n c pr hgs1 hx hgs2]
          have hone : (G.drop 1).length = 1 := by
            rw [List.length_drop, hGs, hgs2]
          obtain ⟨p1, hp1⟩ := List.length_eq_one.1 hone
          have hpr1 : pr = p1 := by
            rw [hp1] at hprmem
            exact List.mem_singleton.1 hprmem
          have hnone : firstFail c n (G.drop 1) = none := by
            rw [firstFail_none_iff]
            intro q hq
            rw [hp1] at hq
            rw [List.mem_singleton.1 hq, ← hpr1]
            exact hx
          rw [tryNaive_eq_none G n c hnone]
          exact ⟨rfl, hlr, fun _ => rfl, fun h => Bool.noConfusion h⟩
        · rw [trythisoneD_okM G gs n c pr hgs1 hx hgs2]
          exact hfull (some pr) hlr

/-! ### Equivalence of the short-circuit search and the naive re-testing search

The loop bounds `min`/`max` of `scan` (gsinks.c:249-258), shared verbatim by
the naive variant and the candidate enumeration. -/

def scanMn (numcols minedges : Int) (n level : Nat) (sofar : Int) : Int :=
  if minedges - sofar - numcols * ((n : Int) - level - 1) < 0 then 0
  else minedges - sofar - numcols * ((n : Int) - level - 1)

def scanMx (numcols maxedges : Int) (prev : List Int) (level : Nat) (sofar : Int)
    (c : List Nat) : Int :=
  if 0 ≤ nthI prev level ∧ (nth c (nthI prev level).toNat : Int) <
      (if numcols ≤ maxedges - sofar then numcols - 1 else maxedges - sofar)
  then (nth c (nthI prev level).toNat : Int)
  else if numcols ≤ maxedges - sofar then numcols - 1 else maxedges - sofar

lemma scanMn_nonneg (numcols minedges : Int) (n level : Nat) (sofar : Int) :
    0 ≤ scanMn numcols minedges n level sofar := by
  unfold scanMn
  by_cases h : minedges - sofar - numcols * ((n : Int) - level - 1) < 0
  · rw [if_pos h]
  · rw [if_neg h]
    omega

lemma scanMx_congr (numcols maxedges : Int) (prev : List Int) (level : Nat) (sofar : Int)
    (cO cN : List Nat) (hag : ∀ j, j < level → nth cO j = nth cN j)
    (hpv : 0 ≤ nthI prev level → (nthI prev level).toNat < level) :
    scanMx numcols maxedges prev level sofar cO = scanMx numcols maxedges prev level sofar cN := by
  unfold scanMx
  by_cases h0 : 0 ≤ nthI prev level
  · rw [hag _ (hpv h0)]
  · have hfalse : ∀ (c : List Nat) (x : Int),
        ¬ (0 ≤ nthI prev level ∧ (nth c (nthI prev level).toNat : Int) < x) :=
      fun c x hc => h0 hc.1
    rw [if_neg (hfalse cO _), if_neg (hfalse cN _)]

lemma scanGo_done (grp : Option (List (List Nat))) (gs : Nat)
    (numcols minedges maxedges : Int) (prev : List Int) (n fuel level : Nat)
    (sofar : Int) (c : List Nat) (lr : Option (List Nat)) (h : level = n) :
    scanGo grp gs numcols minedges maxedges prev n fuel level sofar c lr =
      ⟨(trythisoneD grp gs n c lr).2.1, c, (trythisoneD grp gs n c lr).2.2,
        if (trythisoneD grp gs n c lr).1 then [c] else []⟩ := by
  cases fuel <;> simp only [scanGo, if_pos h]

lemma scanGo_step (grp : Option (List (List Nat))) (gs : Nat)
    (numcols minedges maxedges : Int) (prev : List Int) (n f level : Nat)
    (sofar : Int) (c : List Nat) (lr : Option (List Nat)) (h : ¬ level = n) :
    scanGo grp gs numcols minedges maxedges prev n (f + 1) level sofar c lr =
      scanLoop
        (fun k c1 lr1 => scanGo grp gs numcols minedges maxedges prev n f (level + 1)
          (sofar + k) c1 lr1)
        level (scanMn numcols minedges n level sofar)
        ((scanMx numcols maxedges prev level sofar c -
          scanMn numcols minedges n level sofar + 1).toNat) c lr := by
  simp only [scanGo, if_neg h]
  rfl

lemma scanNaiveGo_done (G : List (List Nat)) (numcols minedges maxedges : Int)
    (prev : List Int) (n fuel level : Nat) (sofar : Int) (c : List Nat) (h : level = n) :
    scanNaiveGo G numcols minedges maxedges prev n fuel level sofar c =
      (c, if tryNaive G n c then [c] else []) := by
  cases fuel <;> simp only [scanNaiveGo, if_pos h]

lemma scanNaiveGo_zero (G : List (List Nat)) (numcols minedges maxedges : Int)
    (prev : List Int) (n level : Nat) (sofar : Int) (c : List Nat) (h : ¬ level = n) :
    scanNaiveGo G numcols minedges maxedges prev n 0 level sofar c = (c, []) := by
  simp only [scanNaiveGo, if_neg h]

lemma scanNaiveGo_step (G : List (List Nat)) (numcols minedges maxedges : Int)
    (prev : List Int) (n f level : Nat) (sofar : Int) (c : List Nat) (h : ¬ level = n) :
    scanNaiveGo G numcols minedges maxedges prev n (f + 1) level sofar c =
      scanNaiveLoop
        (fun k c1 => scanNaiveGo G numcols minedges maxedges prev n f (level + 1)
          (sofar + k) c1)
        level (scanMn numcols minedges n level sofar)
        ((scanMx numcols maxedges prev level sofar c -
          scanMn numcols minedges n level sofar + 1).toNat) c := by
  simp only [scanNaiveGo, if_neg h]
  rfl

lemma candGo_done (numcols minedges maxedges : Int) (prev : List Int)
    (n fuel level : Nat) (sofar : Int) (c : List Nat) (h : level = n) :
    candGo numcols minedges maxedges prev n fuel level sofar c = (c, [c]) := by
  cases fuel <;> simp only [candGo, if_pos h]

lemma candGo_zero (numcols minedges maxedges : Int) (prev : List Int)
    (n level : Nat) (sofar : Int) (c : List Nat) (h : ¬ level = n) :
    candGo numcols minedges maxedges prev n 0 level sofar c = (c, []) := by
  simp only [candGo, if_neg h]

lemma candGo_step (numcols minedges maxedges : Int) (prev : List Int)
    (n f level : Nat) (sofar : Int) (c : List Nat) (h : ¬ level = n) :
    candGo numcols minedges maxedges prev n (f + 1) level sofar c =
      candLoop
        (fun k c1 => candGo numcols minedges maxedges prev n f (level + 1) (sofar + k) c1)
        level (scanMn numcols minedges n level sofar)
        ((scanMx numcols maxedges prev level sofar c -
          scanMn numcols minedges n level sofar + 1).toNat) c := by
  simp only [candGo, if_neg h]
  rfl

lemma scanNaiveLoop_succ (rec : Int → List Nat → List Nat × List (List Nat))
    (level : Nat) (k : Int) (cnt' : Nat) (c : List Nat) :
    scanNaiveLoop rec level k (cnt' + 1) c =
      ((scanNaiveLoop rec level (k + 1) cnt' (rec k (c.set level k.toNat)).1).1,
        (rec k (c.set level k.toNat)).2 ++
          (scanNaiveLoop rec level (k + 1) cnt' (rec k (c.set level k.toNat)).1).2) := rfl

lemma candLoop_succ (rec : Int → List Nat → List Nat × List (List Nat))
    (level : Nat) (k : Int) (cnt' : Nat) (c : List Nat) :
    candLoop rec level k (cnt' + 1) c =
      ((candLoop rec level (k + 1) cnt' (rec k (c.set level k.toNat)).1).1,
        (rec k (c.set level k.toNat)).2 ++
          (candLoop rec level (k + 1) cnt' (rec k (c.set level k.toNat)).1).2) := rfl

lemma scanLoop_succ (rec : Int → List Nat → Option (List Nat) → ScanRes) (level : Nat)
    (k : Int) (cnt' : Nat) (c : List Nat) (lr : Option (List Nat)) :
    scanLoop rec level k (cnt' + 1) c lr =
      (if (rec k (c.set level k.toNat) lr).ret < (level : Int)
       then rec k (c.set level k.toNat) lr
       else
        ⟨(scanLoop rec level (k + 1) cnt' (rec k (c.set level k.toNat) lr).col
            (rec k (c.set level k.toNat) lr).lr).ret,
          (scanLoop rec level (k + 1) cnt' (rec k (c.set level k.toNat) lr).col
            (rec k (c.set level k.toNat) lr).lr).col,
          (scanLoop rec level (k + 1) cnt' (rec k (c.set level k.toNat) lr).col
            (rec k (c.set level k.toNat) lr).lr).lr,
          (rec k (c.set level k.toNat) lr).out ++
            (scanLoop rec level (k + 1) cnt' (rec k (c.set level k.toNat) lr).col
              (rec k (c.set level k.toNat) lr).lr).out⟩) := rfl

lemma scanNaiveLoop_char (G : List (List Nat)) (n : Nat)
    (rec : Int → List Nat → List Nat × List (List Nat)) (level : Nat)
    (hrec : ∀ k c, (rec k c).1.length = c.length ∧
      (∀ j, j < level + 1 → nth (rec k c).1 j = nth c j) ∧
      ∀ cc ∈ (rec k c).2, cc.length = c.length ∧
        (∀ j, j < level + 1 → nth cc j = nth c j) ∧ tryNaive G n cc = true) :
    ∀ cnt k c, (scanNaiveLoop rec level k cnt c).1.length = c.length ∧
      (∀ j, j < level → nth (scanNaiveLoop rec level k cnt c).1 j = nth c j) ∧
      ∀ cc ∈ (scanNaiveLoop rec level k cnt c).2, cc.length = c.length ∧
        (∀ j, j < level → nth cc j = nth c j) ∧ tryNaive G n cc = true := by
  intro cnt
  induction cnt with
  | zero =>
    intro k c
    exact ⟨rfl, fun j hj => rfl, fun cc hcc => absurd hcc (List.not_mem_nil _)⟩
  | succ cnt' ih =>
    intro k c
    rw [scanNaiveLoop_succ]
    obtain ⟨hl1, hp1, hm1⟩ := hrec k (c.set level k.toNat)
    obtain ⟨hl2, hp2, hm2⟩ := ih (k + 1) (rec k (c.set level k.toNat)).1
    have hset : ∀ j, j < level → nth (c.set level k.toNat) j = nth c j := by
      intro j hj
      exact nth_set_ne c level k.toNat j (by omega)
    have hsetlen : (c.set level k.toNat).length = c.length := List.length_set c level k.toNat
    refine ⟨?_, ?_, ?_⟩
    · rw [hl2, hl1, hsetlen]
    · intro j hj
      rw [hp2 j hj, hp1 j (by omega), hset j hj]
    · intro cc hcc
      rcases List.mem_append.1 hcc with hin | hin
      · obtain ⟨hla, hpa, hta⟩ := hm1 cc hin
        exact ⟨by rw [hla, hsetlen],
          fun j hj => by rw [hpa j (by omega), hset j hj], hta⟩
      · obtain ⟨hla, hpa, hta⟩ := hm2 cc hin
        exact ⟨by rw [hla, hl1, hsetlen],
          fun j hj => by rw [hpa j hj, hp1 j (by omega), hset j hj], hta⟩

lemma scanNaiveGo_char (G : List (List Nat)) (numcols minedges maxedges : Int)
    (prev : List Int) (n : Nat) : ∀ fuel level sofar c,
    (scanNaiveGo G numcols minedges maxedges prev n fuel level sofar c).1.length = c.length ∧
    (∀ j, j < level →
      nth (scanNaiveGo G numcols minedges maxedges prev n fuel level sofar c).1 j = nth c j) ∧
    ∀ cc ∈ (scanNaiveGo G numcols minedges maxedges prev n fuel level sofar c).2,
      cc.length = c.length ∧ (∀ j, j < level → nth cc j = nth c j) ∧
      tryNaive G n cc = true := by
  intro fuel
  induction fuel with
  | zero =>
    intro level sofar c
    by_cases h : level = n
    · rw [scanNaiveGo_done G numcols minedges maxedges prev n 0 level sofar c h]
      refine ⟨rfl, fun j hj => rfl, ?_⟩
      intro cc hcc
      by_cases ht : tryNaive G n c
      · rw [if_pos ht] at hcc
        rw [List.mem_singleton.1 hcc]
        exact ⟨rfl, fun j hj => rfl, ht⟩
      · rw [if_neg ht] at hcc
        exact absurd hcc (List.not_mem_nil _)
    · rw [scanNaiveGo_zero G numcols minedges maxedges prev n level sofar c h]
      exact ⟨rfl, fun j hj => rfl, fun cc hcc => absurd hcc (List.not_mem_nil _)⟩
  | succ f ih =>
    intro level sofar c
    by_cases h : level = n
    · rw [scanNaiveGo_done G numcols minedges maxedges prev n (f + 1) level sofar c h]
      refine ⟨rfl, fun j hj => rfl, ?_⟩
      intro cc hcc
      by_cases ht : tryNaive G n c
      · rw [if_pos ht] at hcc
        rw [List.mem_singleton.1 hcc]
        exact ⟨rfl, fun j hj => rfl, ht⟩
      · rw [if_neg ht] at hcc
        exact absurd hcc (List.not_mem_nil _)
    · rw [scanNaiveGo_step G numcols minedges maxedges prev n f level sofar c h]
      exact scanNaiveLoop_char G n _ level (fun k c1 => ih (level + 1) (sofar + k) c1) _ _ c

lemma nth_range (n t : Nat) (h : t < n) : nth (List.range n) t = t := by
  unfold nth
  rw [List.getD_eq_getElem?_getD, List.getElem?_eq_getElem (by rw [List.length_range]; exact h)]
  simp only [List.getElem_range, Option.getD_some]

lemma perm_nth_lt (p : List Nat) (n : Nat) (hp : List.Perm p (List.range n)) :
    ∀ j, j < n → nth p j < n := by
  have hlen : p.length = n := by rw [hp.length_eq, List.length_range]
  intro j hj
  unfold nth
  rw [List.getD_eq_getElem?_getD, List.getElem?_eq_getElem (show j < p.length by omega)]
  simp only [Option.getD_some]
  have hmem : p[j] ∈ p := List.getElem_mem _
  exact List.mem_range.1 (hp.mem_iff.1 hmem)

lemma ismaxRes_some_lt (c p : List Nat) (n F : Nat) (hp : List.Perm p (List.range n))
    (h : ismaxRes c p n = some F) : F < n := by
  obtain ⟨t, htn, _, _, _, j, hjt, hj⟩ := ismaxRes_some_char c p n F h
  rw [← hj]
  exact perm_nth_lt p n hp j (by omega)

lemma ismaxRes_id_none (c : List Nat) (n : Nat) : ismaxRes c (idPerm n) n = none := by
  rw [ismaxRes_none_iff]
  intro t ht _
  unfold idPerm
  rw [nth_range n t ht]

/-- If every later candidate raises the color at `level` above a rejected
coloring agreeing below `level`, the rejection witness kills them all: the
naive loop emits nothing from the skipped iterations. -/
lemma scanNaiveLoop_skip (G : List (List Nat)) (n : Nat)
    (rec : Int → List Nat → List Nat × List (List Nat)) (level : Nat)
    (hrec : ∀ k c, (rec k c).1.length = c.length ∧
      (∀ j, j < level + 1 → nth (rec k c).1 j = nth c j) ∧
      ∀ cc ∈ (rec k c).2, cc.length = c.length ∧
        (∀ j, j < level + 1 → nth cc j = nth c j) ∧ tryNaive G n cc = true)
    (cbad pf : List Nat) (F : Nat)
    (hperm : List.Perm pf (List.range n)) (hmem : pf ∈ G.drop 1)
    (hF : ismaxRes cbad pf n = some F) (hFd : F ≤ level) (hln : level < n) :
    ∀ cnt k c, 0 ≤ k → (nth cbad level : Int) < k → c.length = n →
      (∀ j, j < level → nth c j = nth cbad j) →
      (scanNaiveLoop rec level k cnt c).2 = [] := by
  intro cnt
  induction cnt with
  | zero =>
    intro k c _ _ _ _
    rfl
  | succ cnt' ih =>
    intro k c hk hgt hlen hpre
    rw [scanNaiveLoop_succ]
    obtain ⟨hl1, hp1, hm1⟩ := hrec k (c.set level k.toNat)
    have hsetlen : (c.set level k.toNat).length = c.length := List.length_set c level k.toNat
    have hrecnil : (rec k (c.set level k.toNat)).2 = [] := by
      rw [List.eq_nil_iff_forall_not_mem]
      intro cc hcc
      obtain ⟨hla, hpa, hta⟩ := hm1 cc hcc
      have hccpre : ∀ j, j < level → nth cc j = nth cbad j := by
        intro j hj
        rw [hpa j (by omega), nth_set_ne c level k.toNat j (by omega), hpre j hj]
      have hcclev : nth cbad level < nth cc level := by
        have h1 : nth cc level = k.toNat := by
          rw [hpa level (by omega), nth_set_self c level k.toNat (by omega)]
        rw [h1]
        have h2 : (nth cbad level : Int) < (k.toNat : Int) := by
          rw [Int.toNat_of_nonneg hk]
          exact hgt
        exact_mod_cast h2
      have hnotnone := skipSound cbad cc pf n F level (perm_nth_inj pf n hperm)
        hF hFd hln hccpre hcclev
      have h2 : (firstFail cc n (G.drop 1)).isNone = true := hta
      have h3 : firstFail cc n (G.drop 1) = none := Option.isNone_iff_eq_none.1 h2
      exact hnotnone ((firstFail_none_iff cc n (G.drop 1)).1 h3 pf hmem)
    rw [hrecnil, List.nil_append]
    apply ih (k + 1) (rec k (c.set level k.toNat)).1 (by omega) (by omega)
      (by rw [hl1, hsetlen, hlen])
    intro j hj
    rw [hp1 j (by omega), nth_set_ne c level k.toNat j (by omega), hpre j hj]

/-- The information a rejection return of `scan` carries: the recorded witness
generator fails `ismax` on the returned coloring at the returned level. -/
@[reducible] def AbortW (G : List (List Nat)) (n : Nat) (r : ScanRes) : Prop :=
  ∃ pf, ∃ F : Nat, r.lr = some pf ∧ pf ∈ G.drop 1 ∧ r.ret = (F : Int) - 1 ∧
    ismaxRes r.col pf n = some F

/-- Lockstep relation between one `scan` subtree and the corresponding naive
subtree: same emitted colorings, prefixes below `level` preserved, witness
stays a generator, and a backtrack past `level - 1` carries its rejection
witness. -/
@[reducible] def LockPost (G : List (List Nat)) (n level : Nat) (cO cN : List Nat)
    (r : ScanRes) (s : List Nat × List (List Nat)) : Prop :=
  r.out = s.2 ∧ r.col.length = n ∧ s.1.length = n ∧
  (∀ j, j < level → nth r.col j = nth cO j) ∧
  (∀ j, j < level → nth s.1 j = nth cN j) ∧
  lrOK G r.lr ∧ r.ret ≤ (level : Int) - 1 ∧
  (r.ret < (level : Int) - 1 → AbortW G n r)

lemma scanLoopEq (G : List (List Nat)) (n : Nat)
    (hGperm : ∀ p ∈ G, List.Perm p (List.range n))
    (recO : Int → List Nat → Option (List Nat) → ScanRes)
    (recN : Int → List Nat → List Nat × List (List Nat))
    (level : Nat) (hln : level < n)
    (hrecO : ∀ k cO cN lr, cO.length = n → cN.length = n →
      (∀ j, j < level + 1 → nth cO j = nth cN j) → lrOK G lr →
      LockPost G n (level + 1) cO cN (recO k cO lr) (recN k cN))
    (hrecN : ∀ k c, (recN k c).1.length = c.length ∧
      (∀ j, j < level + 1 → nth (recN k c).1 j = nth c j) ∧
      ∀ cc ∈ (recN k c).2, cc.length = c.length ∧
        (∀ j, j < level + 1 → nth cc j = nth c j) ∧ tryNaive G n cc = true) :
    ∀ cnt k cO cN lr, 0 ≤ k → cO.length = n → cN.length = n →
      (∀ j, j < level → nth cO j = nth cN j) → lrOK G lr →
      LockPost G n level cO cN (scanLoop recO level k cnt cO lr)
        (scanNaiveLoop recN level k cnt cN) := by
  intro cnt
  induction cnt with
  | zero =>
    intro k cO cN lr hk hlO hlN hag hlr
    exact ⟨rfl, hlO, hlN, fun j hj => rfl, fun j hj => rfl, hlr, le_refl _,
      fun h => absurd h (lt_irrefl _)⟩
  | succ cnt' ih =>
    intro k cO cN lr hk hlO hlN hag hlr
    rw [scanLoop_succ, scanNaiveLoop_succ]
    set c1O := cO.set level k.toNat with hc1O
    set c1N := cN.set level k.toNat with hc1N
    have hagl : ∀ j, j < level + 1 → nth c1O j = nth c1N j := by
      intro j hj
      by_cases hje : j = level
      · rw [hje, hc1O, hc1N, nth_set_self cO level k.toNat (by omega),
          nth_set_self cN level k.toNat (by omega)]
      · rw [hc1O, hc1N, nth_set_ne cO level k.toNat j hje, nth_set_ne cN level k.toNat j hje]
        exact hag j (by omega)
    have hl1O : c1O.length = n := by rw [hc1O, List.length_set, hlO]
    have hl1N : c1N.length = n := by rw [hc1N, List.length_set, hlN]
    obtain ⟨hout1, hcl1, hsl1, hpO1, hpN1, hlr1, hret1, habort1⟩ :=
      hrecO k c1O c1N lr hl1O hl1N hagl hlr
    obtain ⟨hnl1, hnp1, hnm1⟩ := hrecN k c1N
    by_cases hlt : (recO k c1O lr).ret < (level : Int)
    · rw [if_pos hlt]
      have habortw : AbortW G n (recO k c1O lr) := habort1 (by push_cast; omega)
      obtain ⟨pf, F, hlreq, hpfmem, hreteq, hism⟩ := habortw
      have hFlev : F ≤ level := by omega
      have hperm := hGperm pf (List.mem_of_mem_drop hpfmem)
      have hnil : (scanNaiveLoop recN level (k + 1) cnt' (recN k c1N).1).2 = [] := by
        refine scanNaiveLoop_skip G n recN level hrecN ((recO k c1O lr).col) pf F hperm
          hpfmem hism hFlev hln cnt' (k + 1) (recN k c1N).1 (by omega) ?_ ?_ ?_
        · have h1 : nth (recO k c1O lr).col level = k.toNat := by
            rw [hpO1 level (by omega), hc1O, nth_set_self cO level k.toNat (by omega)]
          rw [h1, Int.toNat_of_nonneg hk]
          omega
        · rw [hnl1, hl1N]
        · intro j hj
          rw [hnp1 j (by omega), hpO1 j (by omega)]
          exact (hagl j (by omega)).symm
      obtain ⟨htl, htp, htm⟩ := scanNaiveLoop_char G n recN level hrecN cnt' (k + 1) (recN k c1N).1
      refine ⟨?_, hcl1, ?_, ?_, ?_, hlr1, ?_, ?_⟩
      · show (recO k c1O lr).out = (recN k c1N).2 ++ (scanNaiveLoop recN level (k + 1) cnt' (recN k c1N).1).2
        rw [hnil, List.append_nil]
        exact hout1
      · show (scanNaiveLoop recN level (k + 1) cnt' (recN k c1N).1).1.length = n
        rw [htl, hnl1, hl1N]
      · intro j hj
        rw [hpO1 j (by omega), hc1O, nth_set_ne cO level k.toNat j (by omega)]
      · intro j hj
        show nth (scanNaiveLoop recN level (k + 1) cnt' (recN k c1N).1).1 j = nth cN j
        rw [htp j hj, hnp1 j (by omega), hc1N, nth_set_ne cN level k.toNat j (by omega)]
      · show (recO k c1O lr).ret ≤ (level : Int) - 1
        omega
      · intro _
        exact ⟨pf, F, hlreq, hpfmem, hreteq, hism⟩
    · rw [if_neg hlt]
      have hagree2 : ∀ j, j < level → nth (recO k c1O lr).col j = nth (recN k c1N).1 j := by
        intro j hj
        rw [hpO1 j (by omega), hnp1 j (by omega)]
        exact hagl j (by omega)
      obtain ⟨hout2, hcl2, hsl2, hpO2, hpN2, hlr2, hret2, habort2⟩ :=
        ih (k + 1) (recO k c1O lr).col (recN k c1N).1 (recO k c1O lr).lr (by omega) hcl1
          (by rw [hnl1, hl1N]) hagree2 hlr1
      refine ⟨?_, hcl2, hsl2, ?_, ?_, hlr2, hret2, habort2⟩
      · show (recO k c1O lr).out ++ _ = (recN k c1N).2 ++ _
        rw [hout1, hout2]
      · intro j hj
        show nth (scanLoop recO level (k + 1) cnt' (recO k c1O lr).col (recO k c1O lr).lr).col j = nth cO j
        rw [hpO2 j hj, hpO1 j (by omega), hc1O, nth_set_ne cO level k.toNat j (by omega)]
      · intro j hj
        show nth (scanNaiveLoop recN level (k + 1) cnt' (recN k c1N).1).1 j = nth cN j
        rw [hpN2 j hj, hnp1 j (by omega), hc1N, nth_set_ne cN level k.toNat j (by omega)]

lemma lockDone (G : List (List Nat)) (gs n : Nat) (hGs : G.length = gs)
    (hGperm : ∀ p ∈ G, List.Perm p (List.range n))
    (cO cN : List Nat) (lr : Option (List Nat)) (level : Nat) (hln : level = n)
    (hlO : cO.length = n) (hlN : cN.length = n)
    (hag : ∀ j, j < level → nth cO j = nth cN j) (hlr : lrOK G lr) :
    LockPost G n level cO cN
      ⟨(trythisoneD (some G) gs n cO lr).2.1, cO, (trythisoneD (some G) gs n cO lr).2.2,
        if (trythisoneD (some G) gs n cO lr).1 then [cO] else []⟩
      (cN, if tryNaive G n cN then [cN] else []) := by
  have hceq : cO = cN := list_eq_of_nth cO cN n hlO hlN (fun j hj => hag j (by omega))
  subst hceq
  obtain ⟨hdec, hlrn, hacc, hrej⟩ := trythisoneD_spec G gs n cO lr hGs hlr
  refine ⟨?_, hlO, hlO, fun j hj => rfl, fun j hj => rfl, hlrn, ?_, ?_⟩
  · show (if (trythisoneD (some G) gs n cO lr).1 then [cO] else []) =
      (if tryNaive G n cO then [cO] else [])
    rw [hdec]
  · show (trythisoneD (some G) gs n cO lr).2.1 ≤ (level : Int) - 1
    cases hbv : (trythisoneD (some G) gs n cO lr).1 with
    | true =>
      rw [hacc hbv]
      omega
    | false =>
      obtain ⟨pf, F, _, hmem, hre, hism⟩ := hrej hbv
      have hFn : F < n := ismaxRes_some_lt cO pf n F
        (hGperm pf (List.mem_of_mem_drop hmem)) hism
      rw [hre]
      omega
  · intro habort
    cases hbv : (trythisoneD (some G) gs n cO lr).1 with
    | true =>
      exfalso
      have habort2 : (trythisoneD (some G) gs n cO lr).2.1 < (level : Int) - 1 := habort
      rw [hacc hbv] at habort2
      omega
    | false =>
      obtain ⟨pf, F, hlq, hmem, hre, hism⟩ := hrej hbv
      exact ⟨pf, F, hlq, hmem, hre, hism⟩

lemma scanGoEq (G : List (List Nat)) (gs : Nat) (numcols minedges maxedges : Int)
    (prev : List Int) (n : Nat) (hGs : G.length = gs)
    (hGperm : ∀ p ∈ G, List.Perm p (List.range n))
    (hprev : ∀ l, l < n → 0 ≤ nthI prev l → nthI prev l < (l : Int)) :
    ∀ fuel level sofar cO cN lr, level ≤ n → n ≤ fuel + level →
      cO.length = n → cN.length = n →
      (∀ j, j < level → nth cO j = nth cN j) → lrOK G lr →
      LockPost G n level cO cN
        (scanGo (some G) gs numcols minedges maxedges prev n fuel level sofar cO lr)
        (scanNaiveGo G numcols minedges maxedges prev n fuel level sofar cN) := by
  intro fuel
  induction fuel with
  | zero =>
    intro level sofar cO cN lr hle hfuel hlO hlN hag hlr
    have hln : level = n := by omega
    rw [scanGo_done (some G) gs numcols minedges maxedges prev n 0 level sofar cO lr hln,
      scanNaiveGo_done G numcols minedges maxedges prev n 0 level sofar cN hln]
    exact lockDone G gs n hGs hGperm cO cN lr level hln hlO hlN hag hlr
  | succ f ih =>
    intro level sofar cO cN lr hle hfuel hlO hlN hag hlr
    by_cases hln : level = n
    · rw [scanGo_done (some G) gs numcols minedges maxedges prev n (f + 1) level sofar cO lr hln,
        scanNaiveGo_done G numcols minedges maxedges prev n (f + 1) level sofar cN hln]
      exact lockDone G gs n hGs hGperm cO cN lr level hln hlO hlN hag hlr
    · have hlevn : level < n := by omega
      rw [scanGo_step (some G) gs numcols minedges maxedges prev n f level sofar cO lr hln,
        scanNaiveGo_step G numcols minedges maxedges prev n f level sofar cN hln]
      have hmx : scanMx numcols maxedges prev level sofar cO =
          scanMx numcols maxedges prev level sofar cN := by
        apply scanMx_congr numcols maxedges prev level sofar cO cN hag
        intro h0
        have := hprev level hlevn h0
        omega
      rw [hmx]
      refine scanLoopEq G n hGperm
        (fun k c1 lr1 => scanGo (some G) gs numcols minedges maxedges prev n f (level + 1)
          (sofar + k) c1 lr1)
        (fun k c1 => scanNaiveGo G numcols minedges maxedges prev n f (level + 1) (sofar + k) c1)
        level hlevn ?_ ?_ _ _ cO cN lr
        (scanMn_nonneg numcols minedges n level sofar) hlO hlN hag hlr
      · intro k cO2 cN2 lr2 hlO2 hlN2 hag2 hlr2
        exact ih (level + 1) (sofar + k) cO2 cN2 lr2 (by omega) (by omega) hlO2 hlN2 hag2 hlr2
      · intro k c1
        exact scanNaiveGo_char G numcols minedges maxedges prev n f (level + 1) (sofar + k) c1

lemma scanNaiveLoop_eq_filter (G : List (List Nat)) (n : Nat)
    (recN recC : Int → List Nat → List Nat × List (List Nat)) (level : Nat)
    (hrec : ∀ k c, (recN k c).1 = (recC k c).1 ∧
      (recN k c).2 = (recC k c).2.filter (fun x => tryNaive G n x)) :
    ∀ cnt k c,
      (scanNaiveLoop recN level k cnt c).1 = (candLoop recC level k cnt c).1 ∧
      (scanNaiveLoop recN level k cnt c).2 =
        ((candLoop recC level k cnt c).2).filter (fun x => tryNaive G n x) := by
  intro cnt
  induction cnt with
  | zero =>
    intro k c
    exact ⟨rfl, rfl⟩
  | succ cnt' ih =>
    intro k c
    rw [scanNaiveLoop_succ, candLoop_succ]
    obtain ⟨h1, h2⟩ := hrec k (c.set level k.toNat)
    obtain ⟨h3, h4⟩ := ih (k + 1) (recN k (c.set level k.toNat)).1
    rw [h1] at h3 h4
    refine ⟨?_, ?_⟩
    · show (scanNaiveLoop recN level (k + 1) cnt' (recN k (c.set level k.toNat)).1).1 =
        (candLoop recC level (k + 1) cnt' (recC k (c.set level k.toNat)).1).1
      rw [h1]
      exact h3
    · show (recN k (c.set level k.toNat)).2 ++
        (scanNaiveLoop recN level (k + 1) cnt' (recN k (c.set level k.toNat)).1).2 =
        ((recC k (c.set level k.toNat)).2 ++
          (candLoop recC level (k + 1) cnt' (recC k (c.set level k.toNat)).1).2).filter
          (fun x => tryNaive G n x)
      rw [List.filter_append, h2, h1, h4]

lemma scanNaiveGo_eq_filter (G : List (List Nat)) (numcols minedges maxedges : Int)
    (prev : List Int) (n : Nat) : ∀ fuel level sofar c,
    (scanNaiveGo G numcols minedges maxedges prev n fuel level sofar c).1 =
      (candGo numcols minedges maxedges prev n fuel level sofar c).1 ∧
    (scanNaiveGo G numcols minedges maxedges prev n fuel level sofar c).2 =
      ((candGo numcols minedges maxedges prev n fuel level sofar c).2).filter
        (fun x => tryNaive G n x) := by
  intro fuel
  induction fuel with
  | zero =>
    intro level sofar c
    by_cases h : level = n
    · rw [scanNaiveGo_done G numcols minedges maxedges prev n 0 level sofar c h,
        candGo_done numcols minedges maxedges prev n 0 level sofar c h]
      refine ⟨rfl, ?_⟩
      show (if tryNaive G n c then [c] else []) = List.filter (fun x => tryNaive G n x) [c]
      cases ht : tryNaive G n c with
      | true => simp [List.filter_cons, ht]
      | false => simp [List.filter_cons, ht]
    · rw [scanNaiveGo_zero G numcols minedges maxedges prev n level sofar c h,
        candGo_zero numcols minedges maxedges prev n level sofar c h]
      exact ⟨rfl, rfl⟩
  | succ f ih =>
    intro level sofar c
    by_cases h : level = n
    · rw [scanNaiveGo_done G numcols minedges maxedges prev n (f + 1) level sofar c h,
        candGo_done numcols minedges maxedges prev n (f + 1) level sofar c h]
      refine ⟨rfl, ?_⟩
      show (if tryNaive G n c then [c] else []) = List.filter (fun x => tryNaive G n x) [c]
      cases ht : tryNaive G n c with
      | true => simp [List.filter_cons, ht]
      | false => simp [List.filter_cons, ht]
    · rw [scanNaiveGo_step G numcols minedges maxedges prev n f level sofar c h,
        candGo_step numcols minedges maxedges prev n f level sofar c h]
      exact scanNaiveLoop_eq_filter G n _ _ level
        (fun k c1 => ih (level + 1) (sofar + k) c1) _ _ c

/-- C7: the search with the remembered last-rejection-witness short-circuit and
the backtrack-to-fail-level return (`trythisone`/`scan`, gsinks.c:199-268)
emits exactly the colorings of the variant that re-tests the full generator
set on every complete candidate and backtracks one level at a time — the same
list of accepted colorings, in the same order. -/
theorem c7_shortcut_refinement (G : List (List Nat)) (gs : Nat)
    (numcols minedges maxedges : Int) (prev : List Int) (n : Nat)
    (hGs : G.length = gs)
    (hGperm : ∀ p ∈ G, List.Perm p (List.range n))
    (hprev : ∀ l, l < n → 0 ≤ nthI prev l → nthI prev l < (l : Int)) :
    (scanGo (some G) gs numcols minedges maxedges prev n n 0 0
        (List.replicate n 0) none).out =
      (scanNaiveGo G numcols minedges maxedges prev n n 0 0 (List.replicate n 0)).2 :=
  (scanGoEq G gs numcols minedges maxedges prev n hGs hGperm hprev n 0 0
    (List.replicate n 0) (List.replicate n 0) none (Nat.zero_le n) (by omega)
    (List.length_replicate n 0) (List.length_replicate n 0)
    (fun j hj => absurd hj (Nat.not_lt_zero j)) True.intro).1

theorem c7_shortcut_refinement_witness :
    (([[0, 1], [1, 0]] : List (List Nat)).length = 2 ∧
      (∀ p ∈ ([[0, 1], [1, 0]] : List (List Nat)), List.Perm p (List.range 2)) ∧
      (∀ l, l < 2 → 0 ≤ nthI [-1, 0] l → nthI [-1, 0] l < (l : Int))) ∧
    (scanGo (some [[0, 1], [1, 0]]) 2 2 0 4 [-1, 0] 2 2 0 0
        (List.replicate 2 0) none).out =
      (scanNaiveGo [[0, 1], [1, 0]] 2 0 4 [-1, 0] 2 2 0 0 (List.replicate 2 0)).2 :=
  ⟨⟨by decide, by decide, by decide⟩,
    c7_shortcut_refinement [[0, 1], [1, 0]] 2 2 0 4 [-1, 0] 2
      (by decide) (by decide) (by decide)⟩

/-! ### Lexicographic maximality (C2): spec-side formulation -/

/-- A coloring as its length-`n` list of values, as the spec compares them. -/
def colorList (c : List Nat) (n : Nat) : List Nat := (List.range n).map (nth c)

/-- The coloring permuted by a group element: position `i` reads `col[p[i]]`
(gsinks.c:158-166). -/
def permColor (c p : List Nat) (n : Nat) : List Nat :=
  (List.range n).map (fun i => nth c (nth p i))

/-- Lexicographic less-or-equal on color lists, as the spec states canonicity. -/
def specLexLe (a b : List Nat) : Prop := a = b ∨ List.Lex (· < ·) a b

lemma lex_cons_iff_nat (a b : Nat) (l1 l2 : List Nat) :
    List.Lex (· < ·) (a :: l1) (b :: l2) ↔ a < b ∨ a = b ∧ List.Lex (· < ·) l1 l2 := by
  constructor
  · intro h
    cases h with
    | rel hr => exact Or.inl hr
    | cons ht => exact Or.inr ⟨rfl, ht⟩
  · intro h
    rcases h with hr | ⟨heq, ht⟩
    · exact List.Lex.rel hr
    · subst heq
      exact List.Lex.cons ht

lemma lex_le_iff_pointwise (f g : Nat → Nat) : ∀ (m i : Nat),
    (((List.range' i m).map f = (List.range' i m).map g) ∨
      List.Lex (· < ·) ((List.range' i m).map f) ((List.range' i m).map g)) ↔
    (∀ t, t < m → (∀ j, j < t → f (i + j) = g (i + j)) → f (i + t) ≤ g (i + t)) := by
  intro m
  induction m with
  | zero =>
    intro i
    constructor
    · intro _ t ht
      intro _
      omega
    · intro _
      left
      rfl
  | succ m' ih =>
    intro i
    have hstep : List.range' i (m' + 1) = i :: List.range' (i + 1) m' := List.range'_succ i m' 1
    rw [hstep]
    simp only [List.map_cons]
    rw [lex_cons_iff_nat]
    constructor
    · intro h t ht hpre
      rcases h with heq | hlt | ⟨heqh, htail⟩
      · have h1 : f i = g i := (List.cons.inj heq).1
        have h2 := (List.cons.inj heq).2
        cases t with
        | zero => exact le_of_eq h1
        | succ t' =>
          have hrec := (ih (i + 1)).1 (Or.inl h2) t' (by omega) ?_
          · have harith : i + (t' + 1) = (i + 1) + t' := by omega
            rw [harith]
            exact hrec
          · intro j hj
            have := hpre (j + 1) (by omega)
            have harith2 : i + (j + 1) = (i + 1) + j := by omega
            rw [harith2] at this
            exact this
      · cases t with
        | zero => exact le_of_lt hlt
        | succ t' =>
          have := hpre 0 (by omega)
          simp only [Nat.add_zero] at this
          omega
      · cases t with
        | zero => exact le_of_eq heqh
        | succ t' =>
          have hrec := (ih (i + 1)).1 (Or.inr htail) t' (by omega) ?_
          · have harith : i + (t' + 1) = (i + 1) + t' := by omega
            rw [harith]
            exact hrec
          · intro j hj
            have := hpre (j + 1) (by omega)
            have harith2 : i + (j + 1) = (i + 1) + j := by omega
            rw [harith2] at this
            exact this
    · intro h
      rcases Nat.lt_trichotomy (f i) (g i) with hlt | heqh | hgt
      · exact Or.inr (Or.inl hlt)
      · have htail := (ih (i + 1)).2 ?_
        · rcases htail with hte | htl
          · exact Or.inl (by rw [heqh, hte])
          · exact Or.inr (Or.inr ⟨heqh, htl⟩)
        · intro t ht hpre
          have hres := h (t + 1) (by omega) ?_
          · have harith : i + (t + 1) = (i + 1) + t := by omega
            rw [harith] at hres
            exact hres
          · intro j hj
            cases j with
            | zero =>
              simp only [Nat.add_zero]
              exact heqh
            | succ j' =>
              have := hpre j' (by omega)
              have harith2 : i + (j' + 1) = (i + 1) + j' := by omega
              rw [harith2]
              exact this
      · have h0 := h 0 (by omega) (fun j hj => absurd hj (Nat.not_lt_zero j))
        simp only [Nat.add_zero] at h0
        omega

lemma ismaxRes_none_iff_lexle (c p : List Nat) (n : Nat) :
    ismaxRes c p n = none ↔ specLexLe (permColor c p n) (colorList c n) := by
  rw [ismaxRes_none_iff]
  unfold specLexLe permColor colorList
  rw [List.range_eq_range' n]
  rw [lex_le_iff_pointwise (fun i => nth c (nth p i)) (nth c) n 0]
  constructor
  · intro h t ht hpre
    simp only [Nat.zero_add]
    refine h t ht ?_
    intro j hj
    have := hpre j hj
    simpa using this
  · intro h t ht hpre
    have := h t ht (fun j hj => by simpa using hpre j hj)
    simpa using this

/-- C2: a complete coloring is accepted by the search — emitted to the
admissibility filter by `trythisone` — exactly when it is a candidate the
loop structure visits and, for every automorphism-group element `p`, the
permuted coloring `col ∘ p` is lexicographically at most `col`: the
lexicographically greatest representative of its orbit. -/
theorem c2_lexmax (G : List (List Nat)) (gs : Nat)
    (numcols minedges maxedges : Int) (prev : List Int) (n : Nat)
    (hgs : 1 < gs) (hGs : G.length = gs)
    (hGperm : ∀ p ∈ G, List.Perm p (List.range n))
    (hhead : G.head? = some (idPerm n))
    (hprev : ∀ l, l < n → 0 ≤ nthI prev l → nthI prev l < (l : Int)) :
    ∀ cc, cc ∈ (scanGo (some G) gs numcols minedges maxedges prev n n 0 0
        (List.replicate n 0) none).out ↔
      (cc ∈ (candGo numcols minedges maxedges prev n n 0 0 (List.replicate n 0)).2 ∧
        ∀ p ∈ G, specLexLe (permColor cc p n) (colorList cc n)) := by
  intro cc
  have h1 : (scanGo (some G) gs numcols minedges maxedges prev n n 0 0
      (List.replicate n 0) none).out =
      (scanNaiveGo G numcols minedges maxedges prev n n 0 0 (List.replicate n 0)).2 :=
    (scanGoEq G gs numcols minedges maxedges prev n hGs hGperm hprev n 0 0
      (List.replicate n 0) (List.replicate n 0) none (Nat.zero_le n) (by omega)
      (List.length_replicate n 0) (List.length_replicate n 0)
      (fun j hj => absurd hj (Nat.not_lt_zero j)) True.intro).1
  have h2 := (scanNaiveGo_eq_filter G numcols minedges maxedges prev n n 0 0
    (List.replicate n 0)).2
  rw [h1, h2, List.mem_filter]
  have hGcons : G = idPerm n :: G.drop 1 := by
    rcases G with _ | ⟨a, t⟩
    · cases hhead
    · have ha : a = idPerm n := Option.some.inj hhead
      rw [ha]
      rfl
  constructor
  · rintro ⟨hmem, htry⟩
    refine ⟨hmem, ?_⟩
    intro p hp
    have h3 : firstFail cc n (G.drop 1) = none := Option.isNone_iff_eq_none.1 htry
    have h4 := (firstFail_none_iff cc n (G.drop 1)).1 h3
    rw [hGcons] at hp
    rcases List.mem_cons.1 hp with hph | hpt
    · rw [hph, ← ismaxRes_none_iff_lexle]
      exact ismaxRes_id_none cc n
    · rw [← ismaxRes_none_iff_lexle]
      exact h4 p hpt
  · rintro ⟨hmem, hlex⟩
    refine ⟨hmem, ?_⟩
    have h3 : firstFail cc n (G.drop 1) = none := by
      rw [firstFail_none_iff]
      intro p hp
      rw [ismaxRes_none_iff_lexle]
      exact hlex p (List.mem_of_mem_drop hp)
    show (firstFail cc n (G.drop 1)).isNone = true
    rw [h3]
    rfl

theorem c2_lexmax_witness :
    ((1 : Nat) < 2 ∧ ([[0, 1], [1, 0]] : List (List Nat)).length = 2 ∧
      (∀ p ∈ ([[0, 1], [1, 0]] : List (List Nat)), List.Perm p (List.range 2)) ∧
      ([[0, 1], [1, 0]] : List (List Nat)).head? = some (idPerm 2) ∧
      (∀ l, l < 2 → 0 ≤ nthI [-1, 0] l → nthI [-1, 0] l < (l : Int))) ∧
    (∀ cc, cc ∈ (scanGo (some [[0, 1], [1, 0]]) 2 2 0 4 [-1, 0] 2 2 0 0
        (List.replicate 2 0) none).out ↔
      (cc ∈ (candGo 2 0 4 [-1, 0] 2 2 0 0 (List.replicate 2 0)).2 ∧
        ∀ p ∈ ([[0, 1], [1, 0]] : List (List Nat)),
          specLexLe (permColor cc p 2) (colorList cc 2))) :=
  ⟨⟨by decide, by decide, by decide, by decide, by decide⟩,
    c2_lexmax [[0, 1], [1, 0]] 2 2 0 4 [-1, 0] 2
      (by decide) (by decide) (by decide) (by decide) (by decide)⟩

end Gsinks
